import Mathlib

/-!
The console front end of the record manager, `interface1.c`.

A shallow embedding of `src/interface1.c`.

* Standard input is a list of characters.  Every `scanf` directive the program uses is a
  function from the remaining input to `Option (value × remaining input)`; `none` stands for
  the cases in which C leaves the target variable without a value read from the input
  (matching failure, end of input, a number that does not fit the target type, a word longer
  than its buffer).  A run is not followed past such a conversion: the functions of the
  program return `none` from there on.  The namespace `Unchecked` has the record handlers
  once more, followed past such a conversion as the program follows them.
* An array is a list and an array read is `l[i]?`: a read past the end leaves the run
  undefined (`none`).
* Standard output is not part of the state: of a `printf` call only the array reads of its
  arguments are modelled.
* The storage engine (`record_mgr.h`, `tables.h`, `expr.h`, `dberror.h`) is not part of the
  repository.  It is a parameter: an `Engine σ` is any state machine over engine states `σ`
  offering the operations the front end calls.
* Every call the front end issues is appended to a log, together with the two slots
  `ctx->r` and `ctx->v` of the operation context at the moment of the call.
-/

namespace Interface1

/-! ## Data model -/

/-- Modelled from the spec: the enum `DataType` of `tables.h` (absent from the repository),
the four-way type tag Integer / Float / Text / Boolean.  An object of a C enum type can hold
values that are none of its enumerators; `outOfRange` stands for those. -/
inductive DataType where
  | DT_INT
  | DT_STRING
  | DT_FLOAT
  | DT_BOOL
  | outOfRange (raw : Int)
  deriving DecidableEq, Repr

/-- Modelled from the spec: the struct `Value` of `tables.h` (absent), a tagged union with
exactly one active variant.  `intV` holds an `int`, `boolV` the `short` that `bool` abbreviates
in the engine headers, `stringV` the characters of an owned string.  `floatV` holds the text
that `%f` matched: its rounding to a binary `float` is not modelled. -/
inductive Value where
  | intV (n : Int)
  | stringV (s : List Char)
  | floatV (text : List Char)
  | boolV (b : Int)
  deriving DecidableEq, Repr

/-- The field `dt` of a `Value`. -/
def Value.dt : Value → DataType
  | .intV _ => .DT_INT
  | .stringV _ => .DT_STRING
  | .floatV _ => .DT_FLOAT
  | .boolV _ => .DT_BOOL

/-- Modelled from the spec: the record identifier `RID` of `tables.h` (absent), an opaque
identity assigned by the engine. -/
structure RID where
  page : Int
  slot : Int
  deriving DecidableEq, Repr

/-- Modelled from the spec: the struct `Schema` of `tables.h` (absent), as far as the front end
reads it: `numAttr` and the parallel arrays `attrNames`, `dataTypes`, `typeLength`. -/
structure Schema where
  numAttr : Int
  attrNames : List (List Char)
  dataTypes : List DataType
  typeLength : List Int
  deriving DecidableEq, Repr

/-- A schema whose three arrays have exactly `numAttr` entries. -/
def Schema.WellFormed (sch : Schema) : Prop :=
  sch.attrNames.length = sch.dataTypes.length ∧
  sch.typeLength.length = sch.dataTypes.length ∧
  sch.numAttr = (sch.dataTypes.length : Int)

instance (sch : Schema) : Decidable sch.WellFormed := by
  unfold Schema.WellFormed; exact inferInstance

/-- Modelled from the spec: the struct `Record` of `tables.h` (absent): an identity assigned
by the engine plus an attribute-value vector positionally bound to a schema.  A position that
holds `none` has no value bound. -/
structure Record where
  id : RID
  data : List (Option Value)
  deriving DecidableEq, Repr

/-- Modelled from the spec: `setAttr` of `record_mgr.c` (absent), the engine operation
`bindAttribute(record, schema, index, value)`: it stores the value at position `attrNum` of
the record and leaves the identity alone. -/
def setAttr (record : Record) (attrNum : Nat) (value : Option Value) : Record :=
  { record with data := record.data.set attrNum value }

/-! ## Standard input -/

/-- The `isspace` of the C locale. -/
def isspace (c : Char) : Bool :=
  c.toNat = 32 || (9 ≤ c.toNat && c.toNat ≤ 13)

/-- The `isdigit` of C. -/
def isdigit (c : Char) : Bool :=
  48 ≤ c.toNat && c.toNat ≤ 57

/-- The white space every conversion the program uses skips first. -/
def skipSpace : List Char → List Char
  | [] => []
  | c :: cs => if isspace c then skipSpace cs else c :: cs

/-- The optional sign in front of a number: whether it is a minus, and what follows it. -/
def takeSign : List Char → Bool × List Char
  | [] => (false, [])
  | c :: cs => if c = '-' then (true, cs) else if c = '+' then (false, cs) else (false, c :: cs)

/-- The value of a run of decimal digits. -/
def digitsValue (ds : List Char) : Nat :=
  ds.foldl (fun acc c => 10 * acc + (c.toNat - 48)) 0

/-- A decimal conversion into a signed integer type of the range `lo .. hi`: white space, an
optional sign, the longest run of digits.  `none` when there is no digit or the number does
not fit the type. -/
def scanSigned (lo hi : Int) (s : List Char) : Option (Int × List Char) :=
  let signed := takeSign (skipSpace s)
  let ds := signed.2.takeWhile isdigit
  let n : Int := if signed.1 then -(digitsValue ds : Int) else (digitsValue ds : Int)
  if ds = [] then none
  else if lo ≤ n ∧ n ≤ hi then some (n, signed.2.dropWhile isdigit)
  else none

/-- The directive `%d` with an `int` target. -/
def scanf_d (s : List Char) : Option (Int × List Char) :=
  scanSigned (-2147483648) 2147483647 s

/-- The directive `%hd` with a `short` target. -/
def scanf_hd (s : List Char) : Option (Int × List Char) :=
  scanSigned (-32768) 32767 s

/-- The directive `%s` into a buffer of `cap` bytes: white space, then the longest run of
characters that are not white space.  `none` at the end of input and when the word with its
terminating zero does not fit the buffer. -/
def scanf_s (cap : Nat) (s : List Char) : Option (List Char × List Char) :=
  let s1 := skipSpace s
  let word := s1.takeWhile (fun c => !isspace c)
  if word = [] then none
  else if cap ≤ word.length then none
  else some (word, s1.dropWhile (fun c => !isspace c))

/-- The directive ` %c` (with the leading blank): white space, then one character. -/
def scanf_c (s : List Char) : Option (Char × List Char) :=
  match skipSpace s with
  | [] => none
  | c :: cs => some (c, cs)

/-- The fraction of a decimal number: a point and the digits after it, when there is one. -/
def takeFraction : List Char → List Char × List Char
  | [] => ([], [])
  | c :: cs =>
    if c = '.' then (c :: cs.takeWhile isdigit, cs.dropWhile isdigit) else ([], c :: cs)

/-- The directive `%f`, for plain decimal numbers: white space, an optional sign, digits with
an optional point, at least one digit.  The result is the matched text, sign included.  Numbers with an
exponent, hexadecimal numbers, `inf` and `nan` are not modelled: the conversion is `none`
unless the number is followed by white space or the end of input. -/
def scanf_f (s : List Char) : Option (List Char × List Char) :=
  let s1 := skipSpace s
  let s2 := (takeSign s1).2
  let signText := s1.take (s1.length - s2.length)
  let whole := s2.takeWhile isdigit
  let frac := takeFraction (s2.dropWhile isdigit)
  if whole = [] ∧ frac.1.length ≤ 1 then none
  else match frac.2 with
    | [] => some (signText ++ whole ++ frac.1, [])
    | c :: cs => if isspace c then some (signText ++ whole ++ frac.1, c :: cs) else none

/-- The call `getchar()` whose result is thrown away: one character is consumed, if any. -/
def getchar : List Char → List Char
  | [] => []
  | _ :: cs => cs

/-- Input that is at a token boundary: at its end, or at a white-space character. -/
def atBoundary : List Char → Bool
  | [] => true
  | c :: _ => isspace c

/-! ## captureAttributeValue (lines 211-245) -/

/-- Modelled from the spec: the macro `MAKE_VALUE` of `tables.h` (absent),
`makeScalar(type, raw) -> value`, for the `int` tag. -/
def MAKE_VALUE_INT (intVal : Int) : Value := .intV intVal

/-- Modelled from the spec: the macro `MAKE_VALUE` for the `float` tag. -/
def MAKE_VALUE_FLOAT (floatVal : List Char) : Value := .floatV floatVal

/-- Modelled from the spec: the macro `MAKE_VALUE` for the `bool` tag. -/
def MAKE_VALUE_BOOL (boolVal : Int) : Value := .boolV boolVal

/-- Modelled from the spec: the macro `MAKE_STRING_VALUE` of `tables.h` (absent),
`makeText(string) -> value`: the value owns a copy of the characters. -/
def MAKE_STRING_VALUE (strVal : List Char) : Value := .stringV strVal

/-- The function `captureAttributeValue(dtype, sz)`.  The result is `none` when the conversion
leaves the local variable undefined; otherwise the pointer returned (`none` for `NULL`) and
the remaining input.  The buffer `strVal` has 256 bytes. -/
def captureAttributeValue (dtype : DataType) (_sz : Int) (stdin : List Char) :
    Option (Option Value × List Char) :=
  match dtype with
  | .DT_INT => (scanf_d stdin).map (fun p => (some (MAKE_VALUE_INT p.1), p.2))
  | .DT_FLOAT => (scanf_f stdin).map (fun p => (some (MAKE_VALUE_FLOAT p.1), p.2))
  | .DT_STRING => (scanf_s 256 stdin).map (fun p => (some (MAKE_STRING_VALUE p.1), p.2))
  | .DT_BOOL => (scanf_hd stdin).map (fun p => (some (MAKE_VALUE_BOOL p.1), p.2))
  | .outOfRange _ => some (none, stdin)

/-! ## configureAttributes (lines 121-171) -/

/-- The struct `AttributeConfig`.  The three arrays come from `malloc`: an entry is `none`
until the program has written it. -/
structure AttributeConfig where
  attrNames : List (Option (List Char))
  types : List (Option DataType)
  sizes : List (Option Int)
  count : Int
  deriving DecidableEq, Repr

/-- A loop `for (i = start; i < start + n; i++) body`, over states that a step may leave
undefined. -/
def forLoop {α : Type} (body : Nat → α → Option α) : Nat → Nat → α → Option α
  | 0, _, a => some a
  | n + 1, i, a => (body i a).bind (forLoop body n (i + 1))

/-- The body of the loop of `configureAttributes` (lines 137-165) for attribute `indx`, on the
configuration built so far and the remaining input. -/
def configureAttribute (indx : Nat) (st : AttributeConfig × List Char) :
    Option (AttributeConfig × List Char) :=
  (scanf_s 256 st.2).bind fun name =>
  (scanf_c name.2).bind fun typeChoice =>
  let cfig := { st.1 with attrNames := st.1.attrNames.set indx (some name.1) }
  if typeChoice.1 = 'I' then
    some ({ cfig with types := cfig.types.set indx (some .DT_INT),
                      sizes := cfig.sizes.set indx (some 0) }, typeChoice.2)
  else if typeChoice.1 = 'F' then
    some ({ cfig with types := cfig.types.set indx (some .DT_FLOAT),
                      sizes := cfig.sizes.set indx (some 0) }, typeChoice.2)
  else if typeChoice.1 = 'S' then
    (scanf_d typeChoice.2).bind fun capacity =>
    some ({ cfig with types := cfig.types.set indx (some .DT_STRING),
                      sizes := cfig.sizes.set indx (some capacity.1) }, capacity.2)
  else if typeChoice.1 = 'B' then
    some ({ cfig with types := cfig.types.set indx (some .DT_BOOL),
                      sizes := cfig.sizes.set indx (some 0) }, typeChoice.2)
  else
    some ({ cfig with types := cfig.types.set indx (some .DT_INT),
                      sizes := cfig.sizes.set indx (some 0) }, typeChoice.2)

/-- The function `configureAttributes()`: the structure it returns and the remaining input. -/
def configureAttributes (stdin : List Char) : Option (AttributeConfig × List Char) :=
  (scanf_d stdin).bind fun count =>
  let cfig : AttributeConfig :=
    { attrNames := List.replicate count.1.toNat none
      types := List.replicate count.1.toNat none
      sizes := List.replicate count.1.toNat none
      count := count.1 }
  (forLoop configureAttribute count.1.toNat 0 (cfig, getchar count.2)).map fun st =>
  (st.1, getchar st.2)

/-! ## The operation context and the engine -/

/-- Modelled from the spec: the struct `RM_TableData` of `tables.h` (absent), as far as the
front end reads it: the schema the engine stores in the handle when it opens the table
(`none` before that, and after an `openTable` that failed). -/
structure RM_TableData where
  schema : Option Schema
  deriving DecidableEq, Repr

/-- The struct `OperationContext`; `none` is the null pointer. -/
structure OperationContext where
  tbl : Option RM_TableData
  sch : Option Schema
  r : Option Record
  v : Option Value
  deriving DecidableEq, Repr

/-- A call the front end issues, with its arguments (and, for `createRecord` and
`captureAttributeValue`, its result). -/
inductive Call where
  | openTable (name : List Char)
  | createRecord (schema : Schema) (result : Record)
  | capture (dtype : DataType) (sz : Int) (result : Option Value)
  | setAttr (record : Record) (attrNum : Nat) (value : Option Value)
  | insertRecord (record : Record)
  | deleteRecord (id : RID)
  | updateRecord (record : Record)
  | freeVal (value : Option Value)
  | freeRecord (record : Option Record)
  | closeTable
  | freeTable
  | freeContext
  deriving DecidableEq, Repr

/-- One line of the log: a call and the slots `ctx->r`, `ctx->v` when it is issued. -/
structure Entry where
  call : Call
  r : Option Record
  v : Option Value
  deriving DecidableEq, Repr

/-- Modelled from the spec: the storage engine of `record_mgr.h` (absent), the fixed
operation set of the boundary contract, as a state machine over engine states `σ`.
`openTable` yields the schema it stores in the handle (`none` when it fails); `createRecord`
yields the identity of the record it builds; `insertRecord` and `updateRecord` get a pointer
to the record and may change it. -/
structure Engine (σ : Type) where
  openTable : σ → List Char → Option Schema × σ
  createRecord : σ → Schema → RID × σ
  insertRecord : σ → Record → Record × σ
  deleteRecord : σ → RID → σ
  updateRecord : σ → Record → Record × σ
  closeTable : σ → σ

/-- The state of a request: remaining input, engine state, operation context, log. -/
structure State (σ : Type) where
  stdin : List Char
  engine : σ
  ctx : OperationContext
  log : List Entry

/-- The function `initContext()` (lines 97-106): a fresh table handle, every other slot null. -/
def initContext : OperationContext :=
  { tbl := some { schema := none }, sch := none, r := none, v := none }

variable {σ : Type}

/-- Appends a call to the log, with the slots as they are now. -/
def State.emit (st : State σ) (c : Call) : State σ :=
  { st with log := st.log ++ [{ call := c, r := st.ctx.r, v := st.ctx.v }] }

/-- The expression `ctx->tbl->schema`. -/
def State.schema (st : State σ) : Option Schema :=
  st.ctx.tbl.bind fun tbl => tbl.schema

/-- The function `cleanupContext(ctx)` (lines 108-119). -/
def cleanupContext (st : State σ) : State σ :=
  let st1 := if st.ctx.v.isSome then st.emit (.freeVal st.ctx.v) else st
  let st2 := if st1.ctx.r.isSome then st1.emit (.freeRecord st1.ctx.r) else st1
  let st3 := if st2.ctx.tbl.isSome then st2.emit .freeTable else st2
  st3.emit .freeContext

/-- The call `openTable(ctx->tbl, tblName)`: the engine stores the schema in the handle. -/
def State.openTable (E : Engine σ) (tblName : List Char) (st : State σ) : State σ :=
  let opened := E.openTable st.engine tblName
  { (st.emit (.openTable tblName)) with
    engine := opened.2
    ctx := { st.ctx with tbl := st.ctx.tbl.map fun _ => { schema := opened.1 } } }

/-- The call `createRecord(&ctx->r, schema)`: the engine builds a record with no value bound
and stores the pointer in the slot. -/
def State.createRecord (E : Engine σ) (sch : Schema) (st : State σ) : State σ :=
  let created := E.createRecord st.engine sch
  let record : Record := { id := created.1, data := List.replicate sch.numAttr.toNat none }
  { (st.emit (.createRecord sch record)) with
    engine := created.2
    ctx := { st.ctx with r := some record } }

/-- The statement `ctx->v = captureAttributeValue(dtype, sz)`. -/
def State.capture (dtype : DataType) (sz : Int) (st : State σ) : Option (State σ) :=
  (captureAttributeValue dtype sz st.stdin).map fun captured =>
  { (st.emit (.capture dtype sz captured.1)) with
    stdin := captured.2
    ctx := { st.ctx with v := captured.1 } }

/-- The call `setAttr(ctx->r, schema, attrNum, ctx->v)`. -/
def State.setAttr (attrNum : Nat) (st : State σ) : Option (State σ) :=
  st.ctx.r.map fun record =>
  { (st.emit (.setAttr record attrNum st.ctx.v)) with
    ctx := { st.ctx with r := some (Interface1.setAttr record attrNum st.ctx.v) } }

/-- The statements `freeVal(ctx->v); ctx->v = NULL;`. -/
def State.freeVal (st : State σ) : State σ :=
  { (st.emit (.freeVal st.ctx.v)) with ctx := { st.ctx with v := none } }

/-- The statements `freeRecord(ctx->r); ctx->r = NULL;`. -/
def State.freeRecord (st : State σ) : State σ :=
  { (st.emit (.freeRecord st.ctx.r)) with ctx := { st.ctx with r := none } }

/-- The call `insertRecord(ctx->tbl, ctx->r)`. -/
def State.insertRecord (E : Engine σ) (st : State σ) : Option (State σ) :=
  st.ctx.r.map fun record =>
  let inserted := E.insertRecord st.engine record
  { (st.emit (.insertRecord record)) with
    engine := inserted.2
    ctx := { st.ctx with r := some inserted.1 } }

/-- The call `deleteRecord(ctx->tbl, ctx->r->id)`. -/
def State.deleteRecord (E : Engine σ) (st : State σ) : Option (State σ) :=
  st.ctx.r.map fun record =>
  { (st.emit (.deleteRecord record.id)) with engine := E.deleteRecord st.engine record.id }

/-- The call `updateRecord(ctx->tbl, ctx->r)`. -/
def State.updateRecord (E : Engine σ) (st : State σ) : Option (State σ) :=
  st.ctx.r.map fun record =>
  let updated := E.updateRecord st.engine record
  { (st.emit (.updateRecord record)) with
    engine := updated.2
    ctx := { st.ctx with r := some updated.1 } }

/-- The call `closeTable(ctx->tbl)`. -/
def State.closeTable (E : Engine σ) (st : State σ) : State σ :=
  { (st.emit .closeTable) with engine := E.closeTable st.engine }

/-- The statements that read one number from the input into a local variable. -/
def State.readInt (st : State σ) : Option (Int × State σ) :=
  (scanf_d st.stdin).map fun p => (p.1, { st with stdin := p.2 })

/-- The prologue the three record handlers share: `initContext()`, the table name read with
`%s` into `tblName[256]`, `openTable`. -/
def openRequest (E : Engine σ) (stdin : List Char) (engine : σ) : Option (State σ) :=
  (scanf_s 256 stdin).map fun name =>
  State.openTable E name.1 { stdin := name.2, engine := engine, ctx := initContext, log := [] }

/-- The epilogue the three record handlers share: `closeTable(ctx->tbl); cleanupContext(ctx);`. -/
def closeRequest (E : Engine σ) (st : State σ) : State σ :=
  cleanupContext (st.closeTable E)

/-- The menu loop `for (i = 0; i < numAttr; i++) printf("[%d] %s\n", i, attrNames[i])` of the
deletion and modification handlers: it reads the attribute names below `numAttr`.  What is
printed is not part of the state. -/
def printAttrNames (sch : Schema) : Option Unit :=
  forLoop (fun i u => sch.attrNames[i]?.map fun _ => u) sch.numAttr.toNat 0 ()

/-! ## handleRecordInsertion (lines 247-289) -/

/-- The body of the inner loop (lines 266-278) for attribute `attrIdx`; the prompt reads
`attrNames[attrIdx]`. -/
def insertionAttr (attrIdx : Nat) (st : State σ) : Option (State σ) :=
  st.schema.bind fun sch =>
  sch.attrNames[attrIdx]?.bind fun _ =>
  sch.dataTypes[attrIdx]?.bind fun dtype =>
  sch.typeLength[attrIdx]?.bind fun sz =>
  (st.capture dtype sz).bind fun st1 =>
  (st1.setAttr attrIdx).map fun st2 =>
  st2.freeVal

/-- The body of the outer loop (lines 262-283). -/
def insertionEntry (E : Engine σ) (_entryIdx : Nat) (st : State σ) : Option (State σ) :=
  st.schema.bind fun sch =>
  (forLoop insertionAttr sch.numAttr.toNat 0 (st.createRecord E sch)).bind fun st1 =>
  (st1.insertRecord E).map fun st2 =>
  st2.freeRecord

/-- The function `handleRecordInsertion()`. -/
def handleRecordInsertion (E : Engine σ) (stdin : List Char) (engine : σ) :
    Option (State σ) :=
  (openRequest E stdin engine).bind fun st0 =>
  st0.readInt.bind fun entryCount =>
  (forLoop (insertionEntry E) entryCount.1.toNat 0 entryCount.2).map fun st1 =>
  closeRequest E st1

/-! ## handleRecordDeletion (lines 291-337) -/

/-- The guarded block of the deletion loop (lines 318-327), for an index that passed the
test. -/
def deletionCriterion (E : Engine σ) (sch : Schema) (targetAttr : Nat) (st : State σ) :
    Option (State σ) :=
  sch.dataTypes[targetAttr]?.bind fun dtype =>
  sch.typeLength[targetAttr]?.bind fun sz =>
  (st.capture dtype sz).bind fun st1 =>
  (st1.setAttr targetAttr).bind fun st2 =>
  (st2.deleteRecord E).map fun st3 =>
  st3.freeVal

/-- The body of the deletion loop (lines 306-331). -/
def deletionEntry (E : Engine σ) (_delIdx : Nat) (st : State σ) : Option (State σ) :=
  st.schema.bind fun sch =>
  (printAttrNames sch).bind fun _ =>
  (st.createRecord E sch).readInt.bind fun targetAttr =>
  (if 0 ≤ targetAttr.1 ∧ targetAttr.1 < sch.numAttr then
      deletionCriterion E sch targetAttr.1.toNat targetAttr.2
    else some targetAttr.2).map fun st1 =>
  st1.freeRecord

/-- The function `handleRecordDeletion()`. -/
def handleRecordDeletion (E : Engine σ) (stdin : List Char) (engine : σ) :
    Option (State σ) :=
  (openRequest E stdin engine).bind fun st0 =>
  st0.readInt.bind fun delCount =>
  (forLoop (deletionEntry E) delCount.1.toNat 0 delCount.2).map fun st1 =>
  closeRequest E st1

/-! ## handleRecordModification (lines 339-383) -/

/-- The body of the modification loop (lines 363-376). -/
def modificationEntry (E : Engine σ) (targetAttr : Nat) (_modIdx : Nat) (st : State σ) :
    Option (State σ) :=
  st.schema.bind fun sch =>
  sch.dataTypes[targetAttr]?.bind fun dtype =>
  sch.typeLength[targetAttr]?.bind fun sz =>
  ((st.createRecord E sch).capture dtype sz).bind fun st1 =>
  (st1.setAttr targetAttr).bind fun st2 =>
  (st2.updateRecord E).map fun st3 =>
  st3.freeVal.freeRecord

/-- The function `handleRecordModification()`.  The menu loop reads the schema before the
index is read. -/
def handleRecordModification (E : Engine σ) (stdin : List Char) (engine : σ) :
    Option (State σ) :=
  (openRequest E stdin engine).bind fun st0 =>
  st0.readInt.bind fun modCount =>
  modCount.2.schema.bind fun sch =>
  (printAttrNames sch).bind fun _ =>
  modCount.2.readInt.bind fun targetAttr =>
  (if 0 ≤ targetAttr.1 ∧ targetAttr.1 < sch.numAttr then
      forLoop (modificationEntry E targetAttr.1.toNat) modCount.1.toNat 0 targetAttr.2
    else some targetAttr.2).map fun st1 =>
  closeRequest E st1

/-! ## A small engine to run the handlers on -/

/-- The schema `\x7bid: Integer, name: Text(50)\x7d`. -/
def peopleSchema : Schema :=
  { numAttr := 2
    attrNames := ["id".toList, "name".toList]
    dataTypes := [.DT_INT, .DT_STRING]
    typeLength := [0, 50] }

/-- An engine whose state counts the records it has built: every table has the schema
`peopleSchema`, the record built when the count is `k` gets the identity `(k, 0)`. -/
def countingEngine : Engine Nat :=
  { openTable := fun k _ => (some peopleSchema, k)
    createRecord := fun k _ => ({ page := k, slot := 0 }, k + 1)
    insertRecord := fun k record => (record, k)
    deleteRecord := fun k _ => k
    updateRecord := fun k record => (record, k)
    closeTable := fun k => k }

/-! ## Vocabulary of the statements -/

/-- The text and the rest `%f` gives once the fraction is known. -/
def floatResult (text : List Char) : List Char → Option (List Char × List Char)
  | [] => some (text, [])
  | c :: cs => if isspace c then some (text, c :: cs) else none

/-- The text of an optional minus sign. -/
def signText (neg : Bool) : List Char := if neg then ['-'] else []

/-- The number a sign and a run of digits denote. -/
def signedValue (neg : Bool) (ds : List Char) : Int :=
  if neg then -(digitsValue ds : Int) else (digitsValue ds : Int)

/-- The fraction of a decimal literal: nothing, or a point and digits. -/
def IsFraction (frac : List Char) : Prop :=
  frac = [] ∨ ∃ fs : List Char, frac = '.' :: fs ∧ ∀ c ∈ fs, isdigit c = true

/-- What the user types for one attribute: its name, its type-code character, and the text
of the capacity with the integer it denotes (typed only after the code `S`). -/
structure AttributeInput where
  name : List Char
  code : Char
  capacity : List Char
  size : Int
  deriving DecidableEq, Repr

/-- The lines typed for one attribute: the name, the code and, only after the code `S`, the
capacity. -/
def AttributeInput.lines (d : AttributeInput) : List Char :=
  d.name ++ '\n' :: d.code :: '\n' :: (if d.code = 'S' then d.capacity ++ ['\n'] else [])

/-- Well-formed input for one attribute: the name is a word that fits the 256-byte buffer,
the code is not white space and, after the code `S`, the capacity text is an `int` literal
denoting `size`. -/
def AttributeInput.WellFormed (d : AttributeInput) : Prop :=
  d.name ≠ [] ∧ (∀ c ∈ d.name, isspace c = false) ∧ d.name.length < 256 ∧
  isspace d.code = false ∧ (d.code = 'S' → scanf_d d.capacity = some (d.size, []))

instance (d : AttributeInput) : Decidable d.WellFormed := by
  unfold AttributeInput.WellFormed; exact inferInstance

/-- Writes `xs` into an array from index `i` on. -/
def storeFrom {α : Type} : List (Option α) → Nat → List α → List (Option α)
  | arr, _, [] => arr
  | arr, i, x :: xs => storeFrom (arr.set i (some x)) (i + 1) xs

/-- The type the switch of `configureAttributes` stores for a code. -/
def codeType (c : Char) : DataType :=
  if c = 'I' then .DT_INT else if c = 'F' then .DT_FLOAT else if c = 'S' then .DT_STRING
  else if c = 'B' then .DT_BOOL else .DT_INT

/-- The size the switch of `configureAttributes` stores for an attribute. -/
def codeSize (d : AttributeInput) : Int :=
  if d.code = 'S' then d.size else 0

/-- The kind of a call, without its arguments. -/
inductive CallKind where
  | openTable | createRecord | capture | setAttr | insertRecord | deleteRecord | updateRecord
  | freeVal | freeRecord | closeTable | freeTable | freeContext
  deriving DecidableEq, Repr

/-- The kind of a call. -/
def Call.kind : Call → CallKind
  | .openTable _ => .openTable
  | .createRecord _ _ => .createRecord
  | .capture _ _ _ => .capture
  | .setAttr _ _ _ => .setAttr
  | .insertRecord _ => .insertRecord
  | .deleteRecord _ => .deleteRecord
  | .updateRecord _ => .updateRecord
  | .freeVal _ => .freeVal
  | .freeRecord _ => .freeRecord
  | .closeTable => .closeTable
  | .freeTable => .freeTable
  | .freeContext => .freeContext

/-- The kinds of the calls of a log, in order. -/
def kinds (log : List Entry) : List CallKind :=
  log.map fun e => e.call.kind

/-- The type and size a value capture is called with and the value it returns. -/
def Entry.captured (e : Entry) : Option (DataType × Int × Option Value) :=
  match e.call with
  | .capture dtype sz result => some (dtype, sz, result)
  | _ => none

/-- The attribute index and the value a `setAttr` call binds. -/
def Entry.bound (e : Entry) : Option (Nat × Option Value) :=
  match e.call with
  | .setAttr _ attrNum value => some (attrNum, value)
  | _ => none

/-- The identity of the record a `setAttr` call binds into. -/
def Entry.boundInto (e : Entry) : Option RID :=
  match e.call with
  | .setAttr record _ _ => some record.id
  | _ => none

/-- The schema a `createRecord` call is given and the record it builds. -/
def Entry.created (e : Entry) : Option (Schema × Record) :=
  match e.call with
  | .createRecord sch result => some (sch, result)
  | _ => none

/-- The record an `insertRecord` call carries. -/
def Entry.inserted (e : Entry) : Option Record :=
  match e.call with
  | .insertRecord record => some record
  | _ => none

/-- The identifier a `deleteRecord` call is given. -/
def Entry.deleted (e : Entry) : Option RID :=
  match e.call with
  | .deleteRecord id => some id
  | _ => none

/-- The record an `updateRecord` call carries. -/
def Entry.updated (e : Entry) : Option Record :=
  match e.call with
  | .updateRecord record => some record
  | _ => none

/-- What the user types for one attribute value: the declared type and length of the
attribute, the text typed, and the value the text denotes. -/
structure Cell where
  dtype : DataType
  sz : Int
  text : List Char
  value : Value
  deriving DecidableEq, Repr

/-- Well-formed input for one attribute value: `captureAttributeValue` turns the whole text
into the value. -/
def Cell.WellFormed (c : Cell) : Prop :=
  captureAttributeValue c.dtype c.sz c.text = some (some c.value, [])

instance (c : Cell) : Decidable c.WellFormed := by
  unfold Cell.WellFormed; exact inferInstance

/-- The lines typed for a list of attribute values, one value a line. -/
def cellLines (cells : List Cell) : List Char :=
  cells.flatMap fun c => c.text ++ ['\n']

/-- Well-formed input for one row of a table: one well-formed value for every attribute of
the schema, of the declared type and length. -/
def RowFor (sch : Schema) (row : List Cell) : Prop :=
  row.map Cell.dtype = sch.dataTypes ∧ row.map Cell.sz = sch.typeLength ∧
  ∀ c ∈ row, c.WellFormed

instance (sch : Schema) (row : List Cell) : Decidable (RowFor sch row) := by
  unfold RowFor; exact inferInstance

/-- The record `createRecord` builds in engine state `eng`. -/
def newRecord (E : Engine σ) (sch : Schema) (eng : σ) : Record :=
  { id := (E.createRecord eng sch).1, data := List.replicate sch.numAttr.toNat none }

/-- The record after the values of `cells` are bound at the indices `i`, `i + 1`, ... -/
def bindCells (r : Record) (i : Nat) : List Cell → Record
  | [] => r
  | c :: cs => bindCells (setAttr r i (some c.value)) (i + 1) cs

/-- The log of the inner insertion loop over `cells`, from attribute `i` on. -/
def attrEntries (r : Record) (i : Nat) : List Cell → List Entry
  | [] => []
  | c :: cs =>
    [ { call := .capture c.dtype c.sz (some c.value), r := some r, v := none },
      { call := .setAttr r i (some c.value), r := some r, v := some c.value },
      { call := .freeVal (some c.value), r := some (setAttr r i (some c.value)),
        v := some c.value } ] ++ attrEntries (setAttr r i (some c.value)) (i + 1) cs

/-- The log of one insertion iteration and the engine state after it. -/
def insertionRow (E : Engine σ) (sch : Schema) (eng : σ) (row : List Cell) :
    List Entry × σ :=
  let r0 := newRecord E sch eng
  let r1 := bindCells r0 0 row
  let inserted := E.insertRecord (E.createRecord eng sch).2 r1
  ([{ call := .createRecord sch r0, r := none, v := none }] ++ attrEntries r0 0 row ++
    [ { call := .insertRecord r1, r := some r1, v := none },
      { call := .freeRecord (some inserted.1), r := some inserted.1, v := none } ],
   inserted.2)

/-- The log of the insertion loop over `rows` and the engine state after it. -/
def insertionRows (E : Engine σ) (sch : Schema) : σ → List (List Cell) → List Entry × σ
  | eng, [] => ([], eng)
  | eng, row :: rows =>
    ((insertionRow E sch eng row).1 ++ (insertionRows E sch (insertionRow E sch eng row).2 rows).1,
     (insertionRows E sch (insertionRow E sch eng row).2 rows).2)

/-- The context of a request whose table is open, with empty record and value slots. -/
def openContext (sch : Schema) : OperationContext :=
  { tbl := some { schema := some sch }, sch := none, r := none, v := none }

/-- The log of the epilogue: `closeTable`, then what `cleanupContext` releases when both
slots are empty. -/
def epilogue : List Entry :=
  [ { call := .closeTable, r := none, v := none },
    { call := .freeTable, r := none, v := none },
    { call := .freeContext, r := none, v := none } ]

/-- The lines typed for the rows of an insertion request. -/
def rowLines (rows : List (List Cell)) : List Char :=
  rows.flatMap cellLines

/-- The text of an insertion request: the table name, the number of entries, the rows. -/
def insertionInput (name cnt : List Char) (rows : List (List Cell)) (rest : List Char) :
    List Char :=
  name ++ '\n' :: (cnt ++ '\n' :: (rowLines rows ++ rest))

/-- A table name that fits the buffer `tblName[256]`. -/
def TableName (name : List Char) : Prop :=
  name ≠ [] ∧ (∀ c ∈ name, isspace c = false) ∧ name.length < 256

instance (name : List Char) : Decidable (TableName name) := by
  unfold TableName; exact inferInstance

/-- What the user types in one iteration of the deletion loop: the text of the attribute
index with the integer it denotes, and the criterion value (typed only when the index is in
range). -/
structure Criterion where
  indexText : List Char
  index : Int
  cell : Cell
  deriving DecidableEq, Repr

/-- The test `targetAttr >= 0 && targetAttr < numAttr`. -/
def InRange (sch : Schema) (index : Int) : Prop :=
  0 ≤ index ∧ index < sch.numAttr

instance (sch : Schema) (index : Int) : Decidable (InRange sch index) := by
  unfold InRange; exact inferInstance

/-- The lines typed in one iteration of the deletion loop: the index and, only when it is in
range, the criterion value. -/
def Criterion.lines (sch : Schema) (d : Criterion) : List Char :=
  d.indexText ++ '\n' :: (if InRange sch d.index then d.cell.text ++ ['\n'] else [])

/-- Well-formed input for one iteration of the deletion loop: the index text is an `int`
literal and, when the index is in range, the value is well formed for the type and length
declared for that attribute. -/
def Criterion.WellFormed (sch : Schema) (d : Criterion) : Prop :=
  scanf_d d.indexText = some (d.index, []) ∧
  (InRange sch d.index →
    sch.dataTypes[d.index.toNat]? = some d.cell.dtype ∧
    sch.typeLength[d.index.toNat]? = some d.cell.sz ∧ d.cell.WellFormed)

instance (sch : Schema) (d : Criterion) : Decidable (d.WellFormed sch) := by
  unfold Criterion.WellFormed; exact inferInstance

/-- The text of a deletion request: the table name, the number of deletions, the
iterations. -/
def deletionInput (sch : Schema) (name cnt : List Char) (ds : List Criterion)
    (rest : List Char) : List Char :=
  name ++ '\n' :: (cnt ++ '\n' :: (ds.flatMap (Criterion.lines sch) ++ rest))

/-- The log of one deletion iteration and the engine state after it. -/
def deletionIteration (E : Engine σ) (sch : Schema) (eng : σ) (d : Criterion) :
    List Entry × σ :=
  let r0 := newRecord E sch eng
  let r1 := setAttr r0 d.index.toNat (some d.cell.value)
  if InRange sch d.index then
    ([ { call := .createRecord sch r0, r := none, v := none },
       { call := .capture d.cell.dtype d.cell.sz (some d.cell.value), r := some r0, v := none },
       { call := .setAttr r0 d.index.toNat (some d.cell.value), r := some r0,
         v := some d.cell.value },
       { call := .deleteRecord r1.id, r := some r1, v := some d.cell.value },
       { call := .freeVal (some d.cell.value), r := some r1, v := some d.cell.value },
       { call := .freeRecord (some r1), r := some r1, v := none } ],
     E.deleteRecord (E.createRecord eng sch).2 r1.id)
  else
    ([ { call := .createRecord sch r0, r := none, v := none },
       { call := .freeRecord (some r0), r := some r0, v := none } ],
     (E.createRecord eng sch).2)

/-- The log of the deletion loop and the engine state after it. -/
def deletionIterations (E : Engine σ) (sch : Schema) : σ → List Criterion → List Entry × σ
  | eng, [] => ([], eng)
  | eng, d :: ds =>
    ((deletionIteration E sch eng d).1 ++
        (deletionIterations E sch (deletionIteration E sch eng d).2 ds).1,
     (deletionIterations E sch (deletionIteration E sch eng d).2 ds).2)

/-- The text of a modification request: the table name, the number of modifications, the
attribute index and, only when the index is in range, one value a line. -/
def modificationInput (sch : Schema) (name cnt indexText : List Char) (index : Int)
    (cells : List Cell) (rest : List Char) : List Char :=
  name ++ '\n' :: (cnt ++ '\n' :: (indexText ++ '\n' ::
    ((if InRange sch index then cellLines cells else []) ++ rest)))

/-- The log of one modification iteration and the engine state after it. -/
def modificationIteration (E : Engine σ) (sch : Schema) (targetAttr : Nat) (eng : σ)
    (c : Cell) : List Entry × σ :=
  let r0 := newRecord E sch eng
  let r1 := setAttr r0 targetAttr (some c.value)
  let updated := E.updateRecord (E.createRecord eng sch).2 r1
  ([ { call := .createRecord sch r0, r := none, v := none },
     { call := .capture c.dtype c.sz (some c.value), r := some r0, v := none },
     { call := .setAttr r0 targetAttr (some c.value), r := some r0, v := some c.value },
     { call := .updateRecord r1, r := some r1, v := some c.value },
     { call := .freeVal (some c.value), r := some updated.1, v := some c.value },
     { call := .freeRecord (some updated.1), r := some updated.1, v := none } ],
   updated.2)

/-- The log of the modification loop and the engine state after it. -/
def modificationIterations (E : Engine σ) (sch : Schema) (targetAttr : Nat) :
    σ → List Cell → List Entry × σ
  | eng, [] => ([], eng)
  | eng, c :: cs =>
    ((modificationIteration E sch targetAttr eng c).1 ++
        (modificationIterations E sch targetAttr
          (modificationIteration E sch targetAttr eng c).2 cs).1,
     (modificationIterations E sch targetAttr
        (modificationIteration E sch targetAttr eng c).2 cs).2)

/-- Well-formed values for a modification of attribute `index`: each is well formed for the
type and length declared for that attribute. -/
def CellsFor (sch : Schema) (index : Int) (cells : List Cell) : Prop :=
  ∀ c ∈ cells, sch.dataTypes[index.toNat]? = some c.dtype ∧
    sch.typeLength[index.toNat]? = some c.sz ∧ c.WellFormed

instance (sch : Schema) (index : Int) (cells : List Cell) :
    Decidable (CellsFor sch index cells) := by
  unfold CellsFor; exact inferInstance

/-- The kinds of the calls of one deletion iteration. -/
def deletionKinds (sch : Schema) (d : Criterion) : List CallKind :=
  if InRange sch d.index then
    [.createRecord, .capture, .setAttr, .deleteRecord, .freeVal, .freeRecord]
  else [.createRecord, .freeRecord]

/-- A value nobody types: the cell of an iteration whose index is out of range. -/
def noCell : Cell :=
  { dtype := .DT_INT, sz := 0, text := [], value := .intV 0 }

/-- The iterations `1` with the value `alice`, `2` (one past the last index) and `-1`. -/
def sampleDeletions : List Criterion :=
  [ { indexText := ['1'], index := 1,
      cell := { dtype := .DT_STRING, sz := 50, text := ['a', 'l', 'i', 'c', 'e'],
                value := .stringV ['a', 'l', 'i', 'c', 'e'] } },
    { indexText := ['2'], index := 2, cell := noCell },
    { indexText := ['-', '1'], index := -1, cell := noCell } ]

/-- The iterations of `sampleDeletions` with the value `bob` in place of `alice`. -/
def sampleDeletionsBob : List Criterion :=
  [ { indexText := ['1'], index := 1,
      cell := { dtype := .DT_STRING, sz := 50, text := ['b', 'o', 'b'],
                value := .stringV ['b', 'o', 'b'] } },
    { indexText := ['2'], index := 2, cell := noCell },
    { indexText := ['-', '1'], index := -1, cell := noCell } ]

/-- The identifiers of the records built in the iterations whose index is in range. -/
def inRangeIds (sch : Schema) : List (Schema × Record) → List Criterion → List RID
  | c :: cs, d :: ds =>
    if InRange sch d.index then c.2.id :: inRangeIds sch cs ds else inRangeIds sch cs ds
  | _, _ => []

/-- The values `5` and `6` for the attribute `id` of `peopleSchema`. -/
def sampleIds : List Cell :=
  [ { dtype := .DT_INT, sz := 0, text := ['5'], value := .intV 5 },
    { dtype := .DT_INT, sz := 0, text := ['6'], value := .intV 6 } ]

/-- The index and value each `setAttr` call of the inner insertion loop binds, from attribute
`i` on. -/
def boundFrom (i : Nat) : List Cell → List (Nat × Option Value)
  | [] => []
  | c :: cs => (i, some c.value) :: boundFrom (i + 1) cs

/-- The rows `(1, alice)` and `(2, bob)` for `peopleSchema`. -/
def sampleRows : List (List Cell) :=
  [ [ { dtype := .DT_INT, sz := 0, text := ['1'], value := .intV 1 },
      { dtype := .DT_STRING, sz := 50, text := ['a', 'l', 'i', 'c', 'e'],
        value := .stringV ['a', 'l', 'i', 'c', 'e'] } ],
    [ { dtype := .DT_INT, sz := 0, text := ['2'], value := .intV 2 },
      { dtype := .DT_STRING, sz := 50, text := ['b', 'o', 'b'],
        value := .stringV ['b', 'o', 'b'] } ] ]

/-- What is live at a point of a log: whether a record is, whether a value is, whether the
table has been closed, and whether the live value has been bound by `setAttr`. -/
structure Slots where
  record : Bool
  value : Bool
  closed : Bool
  bound : Bool
  deriving DecidableEq, Repr

/-- Whether a call respects the ownership rules of the context when `s` is live: a slot is
assigned only when it is empty and the table is open, a call is given only objects that are
live, an object is released only when it is live and the table is open, a value only after
`setAttr` has bound it, the table is closed and the handle and context are released only
when nothing is live. -/
def Slots.allows (s : Slots) : Call → Bool
  | .openTable _ => !s.record && !s.value && !s.closed
  | .createRecord _ _ => !s.record && !s.value && !s.closed
  | .capture _ _ result => s.record && !s.value && !s.closed && result.isSome
  | .setAttr _ _ value => s.record && s.value && value.isSome
  | .insertRecord _ => s.record
  | .deleteRecord _ => s.record
  | .updateRecord _ => s.record
  | .freeVal value => s.value && !s.closed && value.isSome && s.bound
  | .freeRecord record => s.record && !s.closed && record.isSome
  | .closeTable => !s.record && !s.value && !s.closed
  | .freeTable => !s.record && !s.value
  | .freeContext => !s.record && !s.value

/-- What is live after a call of the given kind. -/
def Slots.after (s : Slots) : CallKind → Slots
  | .createRecord => { s with record := true }
  | .capture => { s with value := true, bound := false }
  | .setAttr => { s with bound := true }
  | .freeVal => { s with value := false, bound := false }
  | .freeRecord => { s with record := false }
  | .closeTable => { s with closed := true }
  | _ => s

/-- One line of a log, checked against what is live: the slots recorded in the line are
occupied exactly when an object is live, and the call respects the ownership rules. -/
def Slots.step (s : Slots) (e : Entry) : Option Slots :=
  if e.r.isSome = s.record ∧ e.v.isSome = s.value ∧ s.allows e.call = true then
    some (s.after e.call.kind)
  else none

/-- A log checked line by line from `s` on; `none` when a line breaks the rules. -/
def track : Slots → List Entry → Option Slots
  | s, [] => some s
  | s, e :: es => (s.step e).bind fun s1 => track s1 es

/-- Nothing live, table open. -/
def Slots.idle : Slots := { record := false, value := false, closed := false, bound := false }

/-- The number of calls of a kind in a log. -/
def calls (k : CallKind) (log : List Entry) : Nat :=
  (kinds log).count k

/-- The ownership discipline of a log.
1. At every instant at most one record and at most one value are live: in every initial
   part of the log the releases never outnumber the creations, and the creations outnumber
   the releases by at most one.
2. At every line the record slot (the value slot) is occupied exactly when a record (a value)
   is live.
3. `createRecord` is called only with both slots empty, a value is captured only with the
   value slot empty, and every capture returns a value; `setAttr`, `insertRecord`,
   `deleteRecord` and `updateRecord` are called only while the objects they are given are
   held; `freeVal` and `freeRecord` are called only on an occupied slot; `closeTable`, and
   the release of the handle and of the context, are called only with both slots empty.
4. At the end every record and every value created has been released.
5. No `freeVal` and no `freeRecord` comes after `closeTable`.
6. A value is released after the engine call that consumes it: before every `freeVal` there
   is a `setAttr` with no capture between the two. -/
def Disciplined (log : List Entry) : Prop :=
  (∀ k : Nat, calls .freeRecord (log.take k) ≤ calls .createRecord (log.take k) ∧
        calls .createRecord (log.take k) ≤ calls .freeRecord (log.take k) + 1 ∧
        calls .freeVal (log.take k) ≤ calls .capture (log.take k) ∧
        calls .capture (log.take k) ≤ calls .freeVal (log.take k) + 1) ∧
  (∀ (k : Nat) (e : Entry), log[k]? = some e →
      (e.r.isSome = true ↔
        calls .createRecord (log.take k) = calls .freeRecord (log.take k) + 1) ∧
      (e.v.isSome = true ↔
        calls .capture (log.take k) = calls .freeVal (log.take k) + 1)) ∧
  (∀ e ∈ log,
      (e.call.kind = .createRecord → e.r = none ∧ e.v = none) ∧
      (e.call.kind = .capture → e.v = none ∧ (e.captured.bind fun x => x.2.2).isSome = true) ∧
      (e.call.kind = .setAttr → e.r.isSome = true ∧ e.v.isSome = true) ∧
      (e.call.kind = .insertRecord → e.r.isSome = true) ∧
      (e.call.kind = .deleteRecord → e.r.isSome = true) ∧
      (e.call.kind = .updateRecord → e.r.isSome = true) ∧
      (e.call.kind = .freeVal → e.v.isSome = true) ∧
      (e.call.kind = .freeRecord → e.r.isSome = true) ∧
      (e.call.kind = .closeTable → e.r = none ∧ e.v = none) ∧
      (e.call.kind = .freeTable → e.r = none ∧ e.v = none) ∧
      (e.call.kind = .freeContext → e.r = none ∧ e.v = none)) ∧
  (calls .createRecord log = calls .freeRecord log ∧ calls .capture log = calls .freeVal log) ∧
  (∀ i j : Nat, i < j → (kinds log)[i]? = some CallKind.closeTable →
      (kinds log)[j]? ≠ some CallKind.freeVal ∧ (kinds log)[j]? ≠ some CallKind.freeRecord) ∧
  (∀ k : Nat, (kinds log)[k]? = some CallKind.freeVal →
      ∃ j, j < k ∧ (kinds log)[j]? = some CallKind.setAttr ∧
        calls .capture (log.take j) = calls .capture (log.take k))

/-! ## The record handlers past a conversion that stores nothing

`interface1.c` never tests the result of `scanf`: after a conversion that stores nothing
(the input does not match, or it has ended) the variable keeps what it held and the program
goes on.  The definitions above end a run there (`none`).  The definitions of `Unchecked`
follow it: a `scanf` directive gives `some (none, rest)` when it stores nothing, a variable
that was never written holds what `Junk` says, and for a number that does not fit the target
type the directive stores what `Junk` says the C library stores.  A run is still undefined
(`none`) at a word longer than its buffer, at a read through a handle the engine did not
fill, at an array read past the end, and at a `%f` conversion of a number that is not a
plain decimal. -/

/-- What the local variables of one call of `captureAttributeValue` hold before anything is
stored in them: `intVal`, `floatVal`, `boolVal` and the characters in the buffer `strVal`. -/
structure Frame where
  intVal : Int
  floatVal : List Char
  boolVal : Int
  strVal : List Char

/-- What the program does not determine.  What the variables it never initialises hold
before anything is stored in them: the buffer `tblName`, the count (`entryCount`, `delCount`,
`modCount`) and `targetAttr` of a handler, and the locals of the call of
`captureAttributeValue` issued when the log has `k` lines.  And what the C library stores for
a decimal number (whether it has a minus sign, and its digits) that does not fit the target
type. -/
structure Junk where
  tblName : List Char
  count : Int
  targetAttr : Int
  frames : Nat → Frame
  overflow : Bool → List Char → Int

namespace Unchecked

/-- A decimal conversion into a signed integer type of the range `lo .. hi`: what is stored,
if anything, and the remaining input.  When no digit follows the white space and the
optional sign, nothing is stored and the input stays at the first character that did not
match.  When the number does not fit the type, what is stored is what `junk` says. -/
def scanSigned (junk : Junk) (lo hi : Int) (s : List Char) : Option Int × List Char :=
  let signed := takeSign (skipSpace s)
  let ds := signed.2.takeWhile isdigit
  let n : Int := if signed.1 then -(digitsValue ds : Int) else (digitsValue ds : Int)
  if ds = [] then (none, signed.2)
  else if lo ≤ n ∧ n ≤ hi then (some n, signed.2.dropWhile isdigit)
  else (some (junk.overflow signed.1 ds), signed.2.dropWhile isdigit)

/-- The directive `%d` with an `int` target. -/
def scanf_d (junk : Junk) (s : List Char) : Option Int × List Char :=
  scanSigned junk (-2147483648) 2147483647 s

/-- The directive `%hd` with a `short` target. -/
def scanf_hd (junk : Junk) (s : List Char) : Option Int × List Char :=
  scanSigned junk (-32768) 32767 s

/-- The directive `%s` into a buffer of `cap` bytes.  It stores nothing only when the input
ends before a word starts.  `none` when the word with its terminating zero does not fit the
buffer. -/
def scanf_s (cap : Nat) (s : List Char) : Option (Option (List Char) × List Char) :=
  let s1 := skipSpace s
  let word := s1.takeWhile (fun c => !isspace c)
  if word = [] then some (none, s1)
  else if cap ≤ word.length then none
  else some (some word, s1.dropWhile (fun c => !isspace c))

/-- A character a number in the syntax of `%f` can go on with after the optional sign: a
digit, a point, or the first letter of `nan`, `inf`. -/
def startsNumber (c : Char) : Bool :=
  isdigit c || c = '.' || c = 'n' || c = 'N' || c = 'i' || c = 'I'

/-- The directive `%f`.  A plain decimal number is converted as above.  Nothing is stored
when, after the white space and the optional sign, the input has ended or goes on with a
character no number starts with; the input stays at that character.  Every other input is
not modelled (`none`). -/
def scanf_f (s : List Char) : Option (Option (List Char) × List Char) :=
  match Interface1.scanf_f s with
  | some p => some (some p.1, p.2)
  | none =>
    match (takeSign (skipSpace s)).2 with
    | [] => some (none, [])
    | c :: cs => if startsNumber c then none else some (none, c :: cs)

/-- The function `captureAttributeValue(dtype, sz)` with the locals of `frame`: a conversion
that stores nothing leaves the local as it is, and the value is made from it all the same. -/
def captureAttributeValue (junk : Junk) (frame : Frame) (dtype : DataType) (_sz : Int)
    (stdin : List Char) : Option (Option Value × List Char) :=
  match dtype with
  | .DT_INT =>
    some (some (MAKE_VALUE_INT ((scanf_d junk stdin).1.getD frame.intVal)),
      (scanf_d junk stdin).2)
  | .DT_FLOAT =>
    (scanf_f stdin).map (fun p => (some (MAKE_VALUE_FLOAT (p.1.getD frame.floatVal)), p.2))
  | .DT_STRING =>
    (scanf_s 256 stdin).map (fun p => (some (MAKE_STRING_VALUE (p.1.getD frame.strVal)), p.2))
  | .DT_BOOL =>
    some (some (MAKE_VALUE_BOOL ((scanf_hd junk stdin).1.getD frame.boolVal)),
      (scanf_hd junk stdin).2)
  | .outOfRange _ => some (none, stdin)

/-- The statement `ctx->v = captureAttributeValue(dtype, sz)`. -/
def capture (junk : Junk) (dtype : DataType) (sz : Int) (st : State σ) : Option (State σ) :=
  (captureAttributeValue junk (junk.frames st.log.length) dtype sz st.stdin).map
    fun captured =>
  { (st.emit (.capture dtype sz captured.1)) with
    stdin := captured.2
    ctx := { st.ctx with v := captured.1 } }

/-- The statement `scanf("%d", &x)` on a local variable that holds `old`. -/
def readInt (junk : Junk) (old : Int) (st : State σ) : Int × State σ :=
  ((scanf_d junk st.stdin).1.getD old, { st with stdin := (scanf_d junk st.stdin).2 })

/-- The prologue the three record handlers share: `initContext()`, the table name read with
`%s` into `tblName[256]`, `openTable`. -/
def openRequest (E : Engine σ) (junk : Junk) (stdin : List Char) (engine : σ) :
    Option (State σ) :=
  (scanf_s 256 stdin).map fun name =>
  State.openTable E (name.1.getD junk.tblName)
    { stdin := name.2, engine := engine, ctx := initContext, log := [] }

/-- The body of the inner insertion loop (lines 266-278) for attribute `attrIdx`. -/
def insertionAttr (junk : Junk) (attrIdx : Nat) (st : State σ) : Option (State σ) :=
  st.schema.bind fun sch =>
  sch.attrNames[attrIdx]?.bind fun _ =>
  sch.dataTypes[attrIdx]?.bind fun dtype =>
  sch.typeLength[attrIdx]?.bind fun sz =>
  (capture junk dtype sz st).bind fun st1 =>
  (st1.setAttr attrIdx).map fun st2 =>
  st2.freeVal

/-- The body of the outer insertion loop (lines 262-283). -/
def insertionEntry (E : Engine σ) (junk : Junk) (_entryIdx : Nat) (st : State σ) :
    Option (State σ) :=
  st.schema.bind fun sch =>
  (forLoop (insertionAttr junk) sch.numAttr.toNat 0 (st.createRecord E sch)).bind fun st1 =>
  (st1.insertRecord E).map fun st2 =>
  st2.freeRecord

/-- The function `handleRecordInsertion()`. -/
def handleRecordInsertion (E : Engine σ) (junk : Junk) (stdin : List Char) (engine : σ) :
    Option (State σ) :=
  (openRequest E junk stdin engine).bind fun st0 =>
  let entryCount := readInt junk junk.count st0
  (forLoop (insertionEntry E junk) entryCount.1.toNat 0 entryCount.2).map fun st1 =>
  closeRequest E st1

/-- The guarded block of the deletion loop (lines 318-327). -/
def deletionCriterion (E : Engine σ) (junk : Junk) (sch : Schema) (targetAttr : Nat)
    (st : State σ) : Option (State σ) :=
  sch.dataTypes[targetAttr]?.bind fun dtype =>
  sch.typeLength[targetAttr]?.bind fun sz =>
  (capture junk dtype sz st).bind fun st1 =>
  (st1.setAttr targetAttr).bind fun st2 =>
  (st2.deleteRecord E).map fun st3 =>
  st3.freeVal

/-- The body of the deletion loop (lines 306-331), on the variable `targetAttr` and the state:
when the index line stores nothing, `targetAttr` is the one of the iteration before. -/
def deletionEntry (E : Engine σ) (junk : Junk) (_delIdx : Nat) (p : Int × State σ) :
    Option (Int × State σ) :=
  p.2.schema.bind fun sch =>
  (printAttrNames sch).bind fun _ =>
  let targetAttr := readInt junk p.1 (p.2.createRecord E sch)
  (if 0 ≤ targetAttr.1 ∧ targetAttr.1 < sch.numAttr then
      deletionCriterion E junk sch targetAttr.1.toNat targetAttr.2
    else some targetAttr.2).map fun st1 =>
  (targetAttr.1, st1.freeRecord)

/-- The function `handleRecordDeletion()`. -/
def handleRecordDeletion (E : Engine σ) (junk : Junk) (stdin : List Char) (engine : σ) :
    Option (State σ) :=
  (openRequest E junk stdin engine).bind fun st0 =>
  let delCount := readInt junk junk.count st0
  (forLoop (deletionEntry E junk) delCount.1.toNat 0 (junk.targetAttr, delCount.2)).map
    fun p => closeRequest E p.2

/-- The body of the modification loop (lines 363-376). -/
def modificationEntry (E : Engine σ) (junk : Junk) (targetAttr : Nat) (_modIdx : Nat)
    (st : State σ) : Option (State σ) :=
  st.schema.bind fun sch =>
  sch.dataTypes[targetAttr]?.bind fun dtype =>
  sch.typeLength[targetAttr]?.bind fun sz =>
  (capture junk dtype sz (st.createRecord E sch)).bind fun st1 =>
  (st1.setAttr targetAttr).bind fun st2 =>
  (st2.updateRecord E).map fun st3 =>
  st3.freeVal.freeRecord

/-- The function `handleRecordModification()`. -/
def handleRecordModification (E : Engine σ) (junk : Junk) (stdin : List Char) (engine : σ) :
    Option (State σ) :=
  (openRequest E junk stdin engine).bind fun st0 =>
  let modCount := readInt junk junk.count st0
  modCount.2.schema.bind fun sch =>
  (printAttrNames sch).bind fun _ =>
  let targetAttr := readInt junk junk.targetAttr modCount.2
  (if 0 ≤ targetAttr.1 ∧ targetAttr.1 < sch.numAttr then
      forLoop (modificationEntry E junk targetAttr.1.toNat) modCount.1.toNat 0 targetAttr.2
    else some targetAttr.2).map fun st1 =>
  closeRequest E st1

end Unchecked

/-- Variables that hold the name `junk`, 1 as count and as index, and in every call of
`captureAttributeValue` the number 7 and the text `junk`; a library that stores -1 for every
number that does not fit. -/
def sampleJunk : Junk :=
  { tblName := ['j', 'u', 'n', 'k'], count := 1, targetAttr := 1,
    frames := fun _ => { intVal := 7, floatVal := ['7'], boolVal := 7,
                         strVal := ['j', 'u', 'n', 'k'] },
    overflow := fun _ _ => -1 }

/-- A record is live, no value is, the table is open. -/
def Slots.busy : Slots := { record := true, value := false, closed := false, bound := false }

/-- A record and a value are live, the value is not bound yet. -/
def Slots.captured : Slots :=
  { record := true, value := true, closed := false, bound := false }

/-- A record and a value are live, the value is bound. -/
def Slots.consumed : Slots :=
  { record := true, value := true, closed := false, bound := true }

/-- A state whose handle is `tbl`, whose log passes the check from the idle state and leaves
`s` live, and whose slots are occupied as `s` says. -/
def Holds (tbl : Option RM_TableData) (s : Slots) (st : State σ) : Prop :=
  st.ctx.tbl = tbl ∧ track Slots.idle st.log = some s ∧
  st.ctx.r.isSome = s.record ∧ st.ctx.v.isSome = s.value

/-- Whether a type tag is one of the four enumerators. -/
def DataType.isTag : DataType → Bool
  | .outOfRange _ => false
  | _ => true

/-- A schema all of whose attribute types are among the four type tags, so that every
capture for one of its attributes returns a value. -/
def Schema.FourTypes (sch : Schema) : Prop :=
  ∀ dt ∈ sch.dataTypes, dt.isTag = true

instance (sch : Schema) : Decidable sch.FourTypes := by
  unfold Schema.FourTypes; exact inferInstance

/-! ## Lemmas on the input conversions -/

theorem isdigit_not_isspace {c : Char} (h : isspace c = true) : isdigit c = false := by
  unfold isspace at h
  unfold isdigit
  simp only [Bool.or_eq_true, Bool.and_eq_true, decide_eq_true_eq] at h
  simp only [Bool.and_eq_false_imp, decide_eq_true_eq, decide_eq_false_iff_not]
  omega

theorem skipSpace_append_left {ws : List Char} (hws : ∀ c ∈ ws, isspace c = true)
    (x : List Char) : skipSpace (ws ++ x) = skipSpace x := by
  induction ws with
  | nil => rfl
  | cons c cs ih =>
    have hc : isspace c = true := hws c (List.mem_cons_self _ _)
    simp only [List.cons_append, skipSpace, hc, if_true]
    exact ih fun d hd => hws d (List.mem_cons_of_mem _ hd)

theorem skipSpace_append_right {x : List Char} (hx : skipSpace x ≠ []) (t : List Char) :
    skipSpace (x ++ t) = skipSpace x ++ t := by
  induction x with
  | nil => exact absurd rfl hx
  | cons c cs ih =>
    by_cases hc : isspace c = true
    · simp only [List.cons_append, skipSpace, hc, if_true] at hx ⊢
      exact ih hx
    · simp only [List.cons_append, skipSpace, hc, if_false]
      simp

theorem takeSign_append {x : List Char} (hx : (takeSign x).2 ≠ []) (t : List Char) :
    takeSign (x ++ t) = ((takeSign x).1, (takeSign x).2 ++ t) := by
  cases x with
  | nil => exact absurd rfl hx
  | cons c cs =>
    simp only [List.cons_append, takeSign]
    split_ifs <;> simp

theorem takeWhile_isdigit_boundary {tail : List Char} (ht : atBoundary tail = true) :
    tail.takeWhile isdigit = [] ∧ tail.dropWhile isdigit = tail := by
  cases tail with
  | nil => simp
  | cons c cs =>
    have hc : isdigit c = false := isdigit_not_isspace ht
    simp [List.takeWhile_cons, List.dropWhile_cons, hc]

theorem takeWhile_nonspace_boundary {tail : List Char} (ht : atBoundary tail = true) :
    tail.takeWhile (fun c => !isspace c) = [] ∧ tail.dropWhile (fun c => !isspace c) = tail := by
  cases tail with
  | nil => simp
  | cons c cs =>
    have hc : isspace c = true := ht
    simp [List.takeWhile_cons, List.dropWhile_cons, hc]

/-- A run that a predicate accepts as a whole, in front of input the predicate stops at. -/
theorem span_whole_append {p : Char → Bool} {x tail : List Char}
    (hx : x.dropWhile p = []) (ht : tail.takeWhile p = [] ∧ tail.dropWhile p = tail) :
    (x ++ tail).takeWhile p = x.takeWhile p ∧ (x ++ tail).dropWhile p = tail := by
  have hall : ∀ a ∈ x, p a = true := by
    simpa [List.dropWhile_eq_nil_iff] using hx
  have hself : x.takeWhile p = x := by
    rw [List.takeWhile_eq_self_iff]; exact hall
  rw [List.takeWhile_append_of_pos hall, List.dropWhile_append_of_pos hall, ht.1, ht.2, hself]
  simp

/-- A run the predicate stops inside of: what follows the input does not matter. -/
theorem span_stop_append {p : Char → Bool} {x : List Char} (hx : x.dropWhile p ≠ [])
    (tail : List Char) :
    (x ++ tail).takeWhile p = x.takeWhile p ∧
      (x ++ tail).dropWhile p = x.dropWhile p ++ tail := by
  induction x with
  | nil => exact absurd rfl hx
  | cons c cs ih =>
    by_cases hc : p c = true
    · simp only [List.dropWhile_cons, hc, if_true] at hx
      simp only [List.cons_append, List.takeWhile_cons, List.dropWhile_cons, hc, if_true]
      exact ⟨by rw [(ih hx).1], (ih hx).2⟩
    · simp [List.takeWhile_cons, List.dropWhile_cons, hc]

/-- A number token keeps its value in front of a token boundary and behind white space. -/
theorem scanSigned_token {lo hi n : Int} {tok : List Char}
    (htok : scanSigned lo hi tok = some (n, [])) {ws : List Char}
    (hws : ∀ c ∈ ws, isspace c = true) {tail : List Char} (ht : atBoundary tail = true) :
    scanSigned lo hi (ws ++ (tok ++ tail)) = some (n, tail) := by
  unfold scanSigned at htok ⊢
  simp only at htok ⊢
  rw [skipSpace_append_left hws]
  by_cases hds : (takeSign (skipSpace tok)).2.takeWhile isdigit = []
  · simp [hds] at htok
  · have hs2 : (takeSign (skipSpace tok)).2 ≠ [] := by
      intro h; rw [h] at hds; exact hds rfl
    have hs1 : skipSpace tok ≠ [] := by
      intro h; rw [h] at hs2; exact hs2 rfl
    rw [skipSpace_append_right hs1, takeSign_append hs2]
    generalize takeSign (skipSpace tok) = sg at htok hds hs2 ⊢
    obtain ⟨neg, s2⟩ := sg
    simp only at htok hds hs2 ⊢
    rw [if_neg hds] at htok
    generalize hN : (if neg = true then -(digitsValue (s2.takeWhile isdigit) : Int)
      else (digitsValue (s2.takeWhile isdigit) : Int)) = N at htok
    by_cases hr : lo ≤ N ∧ N ≤ hi
    · rw [if_pos hr] at htok
      simp only [Option.some.injEq, Prod.mk.injEq] at htok
      obtain ⟨hn, hrest⟩ := htok
      have hsp := span_whole_append hrest (takeWhile_isdigit_boundary ht)
      rw [hsp.1, hsp.2, if_neg hds, hN, if_pos hr, hn]
    · rw [if_neg hr] at htok
      exact absurd htok (by simp)

/-- A word keeps its value in front of a token boundary and behind white space. -/
theorem scanf_s_token {cap : Nat} {tok word : List Char}
    (htok : scanf_s cap tok = some (word, [])) {ws : List Char}
    (hws : ∀ c ∈ ws, isspace c = true) {tail : List Char} (ht : atBoundary tail = true) :
    scanf_s cap (ws ++ (tok ++ tail)) = some (word, tail) := by
  unfold scanf_s at htok ⊢
  simp only at htok ⊢
  rw [skipSpace_append_left hws]
  by_cases hw : (skipSpace tok).takeWhile (fun c => !isspace c) = []
  · simp [hw] at htok
  · have hs1 : skipSpace tok ≠ [] := by
      intro h; rw [h] at hw; exact hw rfl
    rw [skipSpace_append_right hs1]
    rw [if_neg hw] at htok
    by_cases hcap : cap ≤ ((skipSpace tok).takeWhile (fun c => !isspace c)).length
    · rw [if_pos hcap] at htok
      exact absurd htok (by simp)
    · rw [if_neg hcap] at htok
      simp only [Option.some.injEq, Prod.mk.injEq] at htok
      obtain ⟨hword, hrest⟩ := htok
      have hsp := span_whole_append hrest (takeWhile_nonspace_boundary ht)
      rw [hsp.1, hsp.2, if_neg hw, if_neg hcap, hword]

theorem takeFraction_boundary {tail : List Char} (ht : atBoundary tail = true) :
    takeFraction tail = ([], tail) := by
  cases tail with
  | nil => rfl
  | cons c cs =>
    have hc : c ≠ '.' := by
      intro h
      rw [h] at ht
      have hdot : isspace '.' = false := by decide
      simp [atBoundary, hdot] at ht
    simp [takeFraction, hc]

theorem floatResult_boundary (text : List Char) {tail : List Char}
    (ht : atBoundary tail = true) : floatResult text tail = some (text, tail) := by
  cases tail with
  | nil => rfl
  | cons c cs =>
    have hc : isspace c = true := ht
    simp [floatResult, hc]

theorem floatResult_nil {text rest : List Char} {r : List Char × List Char}
    (h : floatResult text rest = some r) (hr : r.2 = []) : rest = [] ∧ r.1 = text := by
  cases rest with
  | nil =>
    simp only [floatResult, Option.some.injEq] at h
    subst h
    exact ⟨rfl, rfl⟩
  | cons c cs =>
    simp only [floatResult] at h
    split_ifs at h
    simp only [Option.some.injEq] at h
    subst h
    exact absurd hr (by simp)

theorem scanf_f_eq (s : List Char) :
    scanf_f s =
      if (takeSign (skipSpace s)).2.takeWhile isdigit = [] ∧
          (takeFraction ((takeSign (skipSpace s)).2.dropWhile isdigit)).1.length ≤ 1 then none
      else floatResult
        ((skipSpace s).take ((skipSpace s).length - (takeSign (skipSpace s)).2.length) ++
          (takeSign (skipSpace s)).2.takeWhile isdigit ++
          (takeFraction ((takeSign (skipSpace s)).2.dropWhile isdigit)).1)
        (takeFraction ((takeSign (skipSpace s)).2.dropWhile isdigit)).2 := by
  unfold scanf_f
  simp only
  split_ifs
  · rfl
  · cases h : (takeFraction ((takeSign (skipSpace s)).2.dropWhile isdigit)).2 <;> rfl

/-- The digits and the fraction of a decimal number that ends where the input ends, in front
of a token boundary. -/
theorem decimal_append {s2 : List Char}
    (hfrac : (takeFraction (s2.dropWhile isdigit)).2 = []) {tail : List Char}
    (ht : atBoundary tail = true) :
    (s2 ++ tail).takeWhile isdigit = s2.takeWhile isdigit ∧
      takeFraction ((s2 ++ tail).dropWhile isdigit) =
        ((takeFraction (s2.dropWhile isdigit)).1, tail) := by
  cases hd : s2.dropWhile isdigit with
  | nil =>
    have hsp := span_whole_append hd (takeWhile_isdigit_boundary ht)
    rw [hsp.1, hsp.2, takeFraction_boundary ht]
    exact ⟨rfl, rfl⟩
  | cons c cs =>
    have hne : s2.dropWhile isdigit ≠ [] := by rw [hd]; simp
    have hsp := span_stop_append hne tail
    rw [hd] at hfrac
    rw [hsp.1, hsp.2, hd]
    refine ⟨rfl, ?_⟩
    by_cases hc : c = '.'
    · simp only [takeFraction, hc, if_true, List.cons_append] at hfrac ⊢
      have hsp2 := span_whole_append hfrac (takeWhile_isdigit_boundary ht)
      have hall : cs.takeWhile isdigit = cs := by
        rw [List.takeWhile_eq_self_iff]
        simpa [List.dropWhile_eq_nil_iff] using hfrac
      rw [hsp2.1, hsp2.2]
    · simp [takeFraction, hc] at hfrac

/-- A decimal number keeps its text in front of a token boundary and behind white space. -/
theorem scanf_f_token {tok text : List Char}
    (htok : scanf_f tok = some (text, [])) {ws : List Char}
    (hws : ∀ c ∈ ws, isspace c = true) {tail : List Char} (ht : atBoundary tail = true) :
    scanf_f (ws ++ (tok ++ tail)) = some (text, tail) := by
  rw [scanf_f_eq] at htok ⊢
  rw [skipSpace_append_left hws]
  split_ifs at htok with hnone
  obtain ⟨hfrac, htext⟩ := floatResult_nil htok rfl
  simp only at htext
  have hs2 : (takeSign (skipSpace tok)).2 ≠ [] := by
    intro h
    apply hnone
    rw [h]
    exact ⟨rfl, by simp [takeFraction]⟩
  have hs1 : skipSpace tok ≠ [] := by
    intro h; rw [h] at hs2; exact hs2 rfl
  rw [skipSpace_append_right hs1, takeSign_append hs2]
  simp only
  have hdec := decimal_append hfrac ht
  rw [hdec.1, hdec.2]
  simp only
  rw [if_neg hnone]
  have hlen : (skipSpace tok ++ tail).length - ((takeSign (skipSpace tok)).2 ++ tail).length
      = (skipSpace tok).length - (takeSign (skipSpace tok)).2.length := by
    simp only [List.length_append]
    omega
  have htake : (skipSpace tok ++ tail).take
      ((skipSpace tok).length - (takeSign (skipSpace tok)).2.length)
      = (skipSpace tok).take ((skipSpace tok).length - (takeSign (skipSpace tok)).2.length) := by
    rw [List.take_append_of_le_length (by omega)]
  rw [hlen, htake, floatResult_boundary _ ht, htext]

/-- The directive ` %c` gives the first character that is not white space. -/
theorem scanf_c_token {ws : List Char} (hws : ∀ c ∈ ws, isspace c = true) {c : Char}
    (hc : isspace c = false) (rest : List Char) :
    scanf_c (ws ++ c :: rest) = some (c, rest) := by
  unfold scanf_c
  rw [skipSpace_append_left hws]
  simp [skipSpace, hc]

/-- The size argument of `captureAttributeValue` is never read. -/
theorem captureAttributeValue_sz (dtype : DataType) (sz sz2 : Int) (stdin : List Char) :
    captureAttributeValue dtype sz stdin = captureAttributeValue dtype sz2 stdin := by
  cases dtype <;> rfl

/-- A token that `captureAttributeValue` turns into a value gives the same value in front of
a token boundary and behind white space, whatever the size argument. -/
theorem captureAttributeValue_token {dtype : DataType} {sz : Int} {tok : List Char} {v : Value}
    (htok : captureAttributeValue dtype sz tok = some (some v, [])) (sz2 : Int)
    {ws : List Char} (hws : ∀ c ∈ ws, isspace c = true) {tail : List Char}
    (ht : atBoundary tail = true) :
    captureAttributeValue dtype sz2 (ws ++ (tok ++ tail)) = some (some v, tail) := by
  cases dtype with
  | DT_INT =>
    simp only [captureAttributeValue, Option.map_eq_some', Prod.mk.injEq, Prod.exists] at htok ⊢
    obtain ⟨n, rest, hscan, hv, hrest⟩ := htok
    subst hrest
    exact ⟨n, tail, scanSigned_token hscan hws ht, hv, rfl⟩
  | DT_BOOL =>
    simp only [captureAttributeValue, Option.map_eq_some', Prod.mk.injEq, Prod.exists] at htok ⊢
    obtain ⟨n, rest, hscan, hv, hrest⟩ := htok
    subst hrest
    exact ⟨n, tail, scanSigned_token hscan hws ht, hv, rfl⟩
  | DT_STRING =>
    simp only [captureAttributeValue, Option.map_eq_some', Prod.mk.injEq, Prod.exists] at htok ⊢
    obtain ⟨w, rest, hscan, hv, hrest⟩ := htok
    subst hrest
    exact ⟨w, tail, scanf_s_token hscan hws ht, hv, rfl⟩
  | DT_FLOAT =>
    simp only [captureAttributeValue, Option.map_eq_some', Prod.mk.injEq, Prod.exists] at htok ⊢
    obtain ⟨w, rest, hscan, hv, hrest⟩ := htok
    subst hrest
    exact ⟨w, tail, scanf_f_token hscan hws ht, hv, rfl⟩
  | outOfRange raw =>
    simp [captureAttributeValue] at htok

theorem isspace_of_isdigit {c : Char} (h : isdigit c = true) : isspace c = false := by
  cases hs : isspace c with
  | false => rfl
  | true => rw [isdigit_not_isspace hs] at h; exact absurd h (by simp)

theorem skipSpace_cons_of_not_isspace {c : Char} (hc : isspace c = false) (cs : List Char) :
    skipSpace (c :: cs) = c :: cs := by
  simp [skipSpace, hc]

theorem takeSign_of_isdigit {c : Char} (hc : isdigit c = true) (cs : List Char) :
    takeSign (c :: cs) = (false, c :: cs) := by
  have h1 : c ≠ '-' := by
    intro h; rw [h] at hc; exact absurd hc (by decide)
  have h2 : c ≠ '+' := by
    intro h; rw [h] at hc; exact absurd hc (by decide)
  simp [takeSign, h1, h2]

theorem span_digits {ds : List Char} (hd : ∀ c ∈ ds, isdigit c = true) :
    ds.takeWhile isdigit = ds ∧ ds.dropWhile isdigit = [] := by
  refine ⟨?_, ?_⟩
  · rw [List.takeWhile_eq_self_iff]; exact hd
  · rw [List.dropWhile_eq_nil_iff]; exact hd

/-- What an optional minus sign and a run of digits give once white space is skipped. -/
theorem literal_sign {neg : Bool} {ds : List Char} (hne : ds ≠ [])
    (hd : ∀ c ∈ ds, isdigit c = true) :
    skipSpace (signText neg ++ ds) = signText neg ++ ds ∧
      takeSign (signText neg ++ ds) = (neg, ds) := by
  cases ds with
  | nil => exact absurd rfl hne
  | cons d ds =>
    have hdig : isdigit d = true := hd d (List.mem_cons_self _ _)
    cases neg with
    | false =>
      simp only [signText, Bool.false_eq_true, if_false, List.nil_append]
      exact ⟨skipSpace_cons_of_not_isspace (isspace_of_isdigit hdig) _,
        takeSign_of_isdigit hdig _⟩
    | true =>
      simp only [signText, if_true, List.singleton_append]
      exact ⟨skipSpace_cons_of_not_isspace (by decide) _, by simp [takeSign]⟩

/-- A decimal literal that fits the target type is a token of the integer conversions. -/
theorem scanSigned_literal {lo hi : Int} {neg : Bool} {ds : List Char} (hne : ds ≠ [])
    (hd : ∀ c ∈ ds, isdigit c = true)
    (hr : lo ≤ signedValue neg ds ∧ signedValue neg ds ≤ hi) :
    scanSigned lo hi (signText neg ++ ds) = some (signedValue neg ds, []) := by
  unfold scanSigned
  simp only
  rw [(literal_sign hne hd).1, (literal_sign hne hd).2]
  simp only
  rw [(span_digits hd).1, (span_digits hd).2, if_neg hne]
  unfold signedValue at hr ⊢
  rw [if_pos hr]

/-- A word without white space that fits the buffer is a token of `%s`. -/
theorem scanf_s_literal {cap : Nat} {word : List Char} (hne : word ≠ [])
    (hw : ∀ c ∈ word, isspace c = false) (hcap : word.length < cap) :
    scanf_s cap word = some (word, []) := by
  have hskip : skipSpace word = word := by
    cases word with
    | nil => exact absurd rfl hne
    | cons c cs => exact skipSpace_cons_of_not_isspace (hw c (List.mem_cons_self _ _)) _
  have hall : ∀ c ∈ word, (!isspace c) = true := fun c hc => by simp [hw c hc]
  have htake : word.takeWhile (fun c => !isspace c) = word := by
    rw [List.takeWhile_eq_self_iff]; exact hall
  have hdrop : word.dropWhile (fun c => !isspace c) = [] := by
    rw [List.dropWhile_eq_nil_iff]; exact hall
  unfold scanf_s
  simp only
  rw [hskip, htake, hdrop, if_neg hne, if_neg (by omega)]

theorem takeFraction_literal {frac : List Char} (hf : IsFraction frac) :
    takeFraction frac = (frac, []) := by
  rcases hf with h | ⟨fs, h, hfs⟩
  · subst h; rfl
  · subst h
    simp only [takeFraction, if_true]
    rw [(span_digits hfs).1, (span_digits hfs).2]

theorem span_digits_fraction {ds frac : List Char} (hd : ∀ c ∈ ds, isdigit c = true)
    (hf : IsFraction frac) :
    (ds ++ frac).takeWhile isdigit = ds ∧ (ds ++ frac).dropWhile isdigit = frac := by
  have hstop : frac.takeWhile isdigit = [] ∧ frac.dropWhile isdigit = frac := by
    rcases hf with h | ⟨fs, h, _⟩
    · subst h; simp
    · subst h
      have hdot : isdigit '.' = false := by decide
      simp [List.takeWhile_cons, List.dropWhile_cons, hdot]
  have hsp := span_whole_append (span_digits hd).2 hstop
  rw [hsp.1, hsp.2, (span_digits hd).1]
  exact ⟨rfl, rfl⟩

/-- A decimal literal, with or without a fraction, is a token of `%f`. -/
theorem scanf_f_literal {neg : Bool} {ds frac : List Char} (hne : ds ≠ [])
    (hd : ∀ c ∈ ds, isdigit c = true) (hf : IsFraction frac) :
    scanf_f (signText neg ++ (ds ++ frac)) = some (signText neg ++ (ds ++ frac), []) := by
  have hne2 : ds ++ frac ≠ [] := by simp [hne]
  have hskip : skipSpace (signText neg ++ (ds ++ frac)) = signText neg ++ (ds ++ frac) := by
    have h := skipSpace_append_right (x := signText neg ++ ds)
      (by rw [(literal_sign hne hd).1]; simp [hne]) frac
    rw [(literal_sign hne hd).1] at h
    simpa [List.append_assoc] using h
  have hsign : takeSign (signText neg ++ (ds ++ frac)) = (neg, ds ++ frac) := by
    have h := takeSign_append (x := signText neg ++ ds)
      (by rw [(literal_sign hne hd).2]; exact hne) frac
    rw [(literal_sign hne hd).2] at h
    simpa [List.append_assoc] using h
  rw [scanf_f_eq, hskip, hsign]
  simp only
  rw [(span_digits_fraction hd hf).1, (span_digits_fraction hd hf).2, takeFraction_literal hf]
  simp only
  rw [if_neg (by simp [hne])]
  have htake : (signText neg ++ (ds ++ frac)).take
      ((signText neg ++ (ds ++ frac)).length - (ds ++ frac).length) = signText neg := by
    have hlen : (signText neg ++ (ds ++ frac)).length - (ds ++ frac).length
        = (signText neg).length := by
      simp only [List.length_append]; omega
    rw [hlen, List.take_left']
    rfl
  rw [htake]
  simp [floatResult, List.append_assoc]

/-- C9: `captureAttributeValue` dispatches on the type tag.  For each of the four tags, on a
well-formed token (a decimal literal that fits `int` for `DT_INT` and `short` for `DT_BOOL`, a
decimal number for `DT_FLOAT`, a word shorter than the 256-byte buffer for `DT_STRING`) behind
any white space and in front of a token boundary, it consumes exactly that token and returns a
value of that tag whose payload is the parsed token; whenever it returns a value for one of
the four tags the value carries that tag; for a tag outside the four it returns `NULL` and
consumes nothing; the size argument never affects the result. -/
theorem captureAttributeValue_dispatch :
    (∀ (sz : Int) (ws : List Char) (neg : Bool) (ds tail : List Char),
      (∀ c ∈ ws, isspace c = true) → ds ≠ [] → (∀ c ∈ ds, isdigit c = true) →
      (-2147483648 ≤ signedValue neg ds ∧ signedValue neg ds ≤ 2147483647) →
      atBoundary tail = true →
      captureAttributeValue .DT_INT sz (ws ++ (signText neg ++ ds ++ tail))
        = some (some (.intV (signedValue neg ds)), tail)) ∧
    (∀ (sz : Int) (ws : List Char) (neg : Bool) (ds frac tail : List Char),
      (∀ c ∈ ws, isspace c = true) → ds ≠ [] → (∀ c ∈ ds, isdigit c = true) →
      IsFraction frac → atBoundary tail = true →
      captureAttributeValue .DT_FLOAT sz (ws ++ (signText neg ++ (ds ++ frac) ++ tail))
        = some (some (.floatV (signText neg ++ (ds ++ frac))), tail)) ∧
    (∀ (sz : Int) (ws word tail : List Char),
      (∀ c ∈ ws, isspace c = true) → word ≠ [] → (∀ c ∈ word, isspace c = false) →
      word.length < 256 → atBoundary tail = true →
      captureAttributeValue .DT_STRING sz (ws ++ (word ++ tail))
        = some (some (.stringV word), tail)) ∧
    (∀ (sz : Int) (ws : List Char) (neg : Bool) (ds tail : List Char),
      (∀ c ∈ ws, isspace c = true) → ds ≠ [] → (∀ c ∈ ds, isdigit c = true) →
      (-32768 ≤ signedValue neg ds ∧ signedValue neg ds ≤ 32767) →
      atBoundary tail = true →
      captureAttributeValue .DT_BOOL sz (ws ++ (signText neg ++ ds ++ tail))
        = some (some (.boolV (signedValue neg ds)), tail)) ∧
    (∀ (dtype : DataType) (sz : Int) (stdin : List Char) (result : Option Value)
        (rest : List Char),
      captureAttributeValue dtype sz stdin = some (result, rest) →
      (∀ raw, dtype ≠ .outOfRange raw) → ∃ v, result = some v ∧ v.dt = dtype) ∧
    (∀ (raw sz : Int) (stdin : List Char),
      captureAttributeValue (.outOfRange raw) sz stdin = some (none, stdin)) ∧
    (∀ (dtype : DataType) (sz sz2 : Int) (stdin : List Char),
      captureAttributeValue dtype sz stdin = captureAttributeValue dtype sz2 stdin) := by
  refine ⟨?_, ?_, ?_, ?_, ?_, ?_, ?_⟩
  · intro sz ws neg ds tail hws hne hd hr ht
    have htok : captureAttributeValue .DT_INT sz (signText neg ++ ds)
        = some (some (.intV (signedValue neg ds)), []) := by
      simp [captureAttributeValue, scanf_d, scanSigned_literal hne hd hr, MAKE_VALUE_INT]
    exact captureAttributeValue_token htok sz hws ht
  · intro sz ws neg ds frac tail hws hne hd hf ht
    have htok : captureAttributeValue .DT_FLOAT sz (signText neg ++ (ds ++ frac))
        = some (some (.floatV (signText neg ++ (ds ++ frac))), []) := by
      simp [captureAttributeValue, scanf_f_literal hne hd hf, MAKE_VALUE_FLOAT]
    exact captureAttributeValue_token htok sz hws ht
  · intro sz ws word tail hws hne hw hcap ht
    have htok : captureAttributeValue .DT_STRING sz word = some (some (.stringV word), []) := by
      simp [captureAttributeValue, scanf_s_literal hne hw hcap, MAKE_STRING_VALUE]
    exact captureAttributeValue_token htok sz hws ht
  · intro sz ws neg ds tail hws hne hd hr ht
    have htok : captureAttributeValue .DT_BOOL sz (signText neg ++ ds)
        = some (some (.boolV (signedValue neg ds)), []) := by
      simp [captureAttributeValue, scanf_hd, scanSigned_literal hne hd hr, MAKE_VALUE_BOOL]
    exact captureAttributeValue_token htok sz hws ht
  · intro dtype sz stdin result rest h hfour
    cases dtype with
    | outOfRange raw => exact absurd rfl (hfour raw)
    | DT_INT =>
      simp only [captureAttributeValue, Option.map_eq_some', Prod.mk.injEq] at h
      obtain ⟨p, _, hv, _⟩ := h
      exact ⟨_, hv.symm, rfl⟩
    | DT_FLOAT =>
      simp only [captureAttributeValue, Option.map_eq_some', Prod.mk.injEq] at h
      obtain ⟨p, _, hv, _⟩ := h
      exact ⟨_, hv.symm, rfl⟩
    | DT_STRING =>
      simp only [captureAttributeValue, Option.map_eq_some', Prod.mk.injEq] at h
      obtain ⟨p, _, hv, _⟩ := h
      exact ⟨_, hv.symm, rfl⟩
    | DT_BOOL =>
      simp only [captureAttributeValue, Option.map_eq_some', Prod.mk.injEq] at h
      obtain ⟨p, _, hv, _⟩ := h
      exact ⟨_, hv.symm, rfl⟩
  · intro raw sz stdin
    rfl
  · exact captureAttributeValue_sz

/-- C9 at concrete tokens: ` -42` for `DT_INT`, `alice` for `DT_STRING`. -/
theorem captureAttributeValue_dispatch_witness :
    captureAttributeValue .DT_INT 7 ([' '] ++ (signText true ++ ['4', '2'] ++ ['\n', 'x']))
        = some (some (.intV (signedValue true ['4', '2'])), ['\n', 'x']) ∧
    captureAttributeValue .DT_STRING 50 (['\n'] ++ (['a', 'l', 'i', 'c', 'e'] ++ ['\n']))
        = some (some (.stringV ['a', 'l', 'i', 'c', 'e']), ['\n']) :=
  ⟨captureAttributeValue_dispatch.1 7 [' '] true ['4', '2'] ['\n', 'x']
      (by decide) (by decide) (by decide) (by decide) (by decide),
    captureAttributeValue_dispatch.2.2.1 50 ['\n'] ['a', 'l', 'i', 'c', 'e'] ['\n']
      (by decide) (by decide) (by decide) (by decide) (by decide)⟩

/-! ## configureAttributes -/

theorem storeFrom_replicate {α : Type} (pre xs : List α) (k : Nat) :
    storeFrom (pre.map some ++ List.replicate (xs.length + k) none) pre.length xs
      = (pre ++ xs).map some ++ List.replicate k none := by
  induction xs generalizing pre with
  | nil => simp [storeFrom]
  | cons x xs ih =>
    have hset : (pre.map some ++ List.replicate ((x :: xs).length + k) none).set pre.length
        (some x) = (pre ++ [x]).map some ++ List.replicate (xs.length + k) none := by
      have hlen : (pre.map some).length = pre.length := by simp
      rw [List.set_append_right _ _ (by simp)]
      simp [List.length_cons, Nat.add_right_comm _ 1 k, List.replicate_succ]
    simp only [storeFrom]
    rw [hset]
    have := ih (pre ++ [x])
    simpa using this

theorem storeFrom_all {α : Type} (xs : List α) :
    storeFrom (List.replicate xs.length none) 0 xs = xs.map some := by
  simpa using storeFrom_replicate [] xs 0

theorem isspace_newline : isspace '\n' = true := by decide

theorem newline_spaces : ∀ c ∈ ['\n'], isspace c = true := by decide

/-- The loop body of `configureAttributes` on the lines of one well-formed attribute. -/
theorem configureAttribute_lines (indx : Nat) (cfig : AttributeConfig) {ws : List Char}
    (hws : ∀ c ∈ ws, isspace c = true) {d : AttributeInput} (hd : d.WellFormed)
    (rest : List Char) :
    configureAttribute indx (cfig, ws ++ (d.lines ++ rest)) =
      some ({ cfig with
              attrNames := cfig.attrNames.set indx (some d.name)
              types := cfig.types.set indx (some (codeType d.code))
              sizes := cfig.sizes.set indx (some (codeSize d)) }, '\n' :: rest) := by
  obtain ⟨hne, hname, hlen, hcode, hcap⟩ := hd
  have h1 : scanf_s 256 (ws ++ (d.lines ++ rest)) = some (d.name,
      '\n' :: d.code :: '\n' :: ((if d.code = 'S' then d.capacity ++ ['\n'] else []) ++ rest)) := by
    have : scanf_s 256 (ws ++ (d.name ++ '\n' :: d.code :: '\n' ::
        ((if d.code = 'S' then d.capacity ++ ['\n'] else []) ++ rest))) = some (d.name,
        '\n' :: d.code :: '\n' :: ((if d.code = 'S' then d.capacity ++ ['\n'] else []) ++ rest)) :=
      scanf_s_token (scanf_s_literal hne hname hlen) hws rfl
    simpa [AttributeInput.lines, List.append_assoc] using this
  have h2 : ∀ r, scanf_c ('\n' :: d.code :: r) = some (d.code, r) :=
    fun r => scanf_c_token newline_spaces hcode r
  unfold configureAttribute
  simp only [h1, Option.some_bind, h2]
  by_cases hS : d.code = 'S'
  · have h3 : scanf_d ('\n' :: (d.capacity ++ '\n' :: rest)) = some (d.size, '\n' :: rest) :=
      scanSigned_token (hcap hS) newline_spaces rfl
    simp [hS, codeType, codeSize, h3]
  · unfold codeType codeSize
    split_ifs <;> simp_all

/-- The loop of `configureAttributes` on the lines of well-formed attributes. -/
theorem configureAttributes_loop (ds : List AttributeInput) (hds : ∀ d ∈ ds, d.WellFormed)
    (indx : Nat) (cfig : AttributeConfig) {ws : List Char} (hws : ∀ c ∈ ws, isspace c = true)
    (rest : List Char) :
    forLoop configureAttribute ds.length indx
        (cfig, ws ++ (ds.flatMap AttributeInput.lines ++ rest)) =
      some ({ cfig with
              attrNames := storeFrom cfig.attrNames indx (ds.map AttributeInput.name)
              types := storeFrom cfig.types indx (ds.map fun d => codeType d.code)
              sizes := storeFrom cfig.sizes indx (ds.map codeSize) },
            (if ds = [] then ws else ['\n']) ++ rest) := by
  induction ds generalizing indx cfig ws with
  | nil => simp [forLoop, storeFrom]
  | cons d ds ih =>
    have hd : d.WellFormed := hds d (List.mem_cons_self _ _)
    have hrest : ∀ e ∈ ds, e.WellFormed := fun e he => hds e (List.mem_cons_of_mem _ he)
    have hbody := configureAttribute_lines indx cfig hws hd
      (ds.flatMap AttributeInput.lines ++ rest)
    simp only [List.length_cons, forLoop, List.flatMap_cons, List.append_assoc, hbody,
      Option.some_bind]
    have := ih hrest (indx + 1) { cfig with
              attrNames := cfig.attrNames.set indx (some d.name)
              types := cfig.types.set indx (some (codeType d.code))
              sizes := cfig.sizes.set indx (some (codeSize d)) } newline_spaces
    simp only [List.singleton_append] at this
    rw [this]
    simp [storeFrom]

/-- The structure `configureAttributes` returns on a count line followed by the lines of that
many well-formed attributes, at least one: every array entry is written, and the input is
consumed up to and including the last line. -/
theorem configureAttributes_lines {cnt : List Char} {ds : List AttributeInput}
    (hcnt : scanf_d cnt = some ((ds.length : Int), [])) (hne : ds ≠ [])
    (hds : ∀ d ∈ ds, d.WellFormed) (rest : List Char) :
    configureAttributes (cnt ++ '\n' :: (ds.flatMap AttributeInput.lines ++ rest)) =
      some ({ attrNames := (ds.map AttributeInput.name).map some
              types := (ds.map fun d => codeType d.code).map some
              sizes := (ds.map codeSize).map some
              count := (ds.length : Int) }, rest) := by
  have h1 : scanf_d (cnt ++ '\n' :: (ds.flatMap AttributeInput.lines ++ rest))
      = some ((ds.length : Int), '\n' :: (ds.flatMap AttributeInput.lines ++ rest)) := by
    have : scanf_d ([] ++ (cnt ++ '\n' :: (ds.flatMap AttributeInput.lines ++ rest)))
        = some ((ds.length : Int), '\n' :: (ds.flatMap AttributeInput.lines ++ rest)) :=
      scanSigned_token hcnt (by simp) rfl
    simpa using this
  have hloop := configureAttributes_loop ds hds 0
    { attrNames := List.replicate ds.length none
      types := List.replicate ds.length none
      sizes := List.replicate ds.length none
      count := (ds.length : Int) } (List.forall_mem_nil _) rest
  have e1 := storeFrom_all (ds.map AttributeInput.name)
  have e2 := storeFrom_all (ds.map fun d => codeType d.code)
  have e3 := storeFrom_all (ds.map codeSize)
  simp only [List.length_map] at e1 e2 e3
  unfold configureAttributes
  simp only [h1, Option.some_bind, Int.toNat_ofNat, getchar]
  simp only [List.nil_append] at hloop
  rw [hloop]
  simp [hne, e1, e2, e3, getchar]

/-- C3: in `configureAttributes`, on a count line followed by the lines of that many
attributes, the codes `I`, `F`, `B` give `DT_INT`, `DT_FLOAT`, `DT_BOOL` with size 0; only `S`
gives `DT_STRING` and takes one more integer from the input as its size; every other code
(lower-case letters included) gives `DT_INT` with size 0.  No error is raised, and for every
code but `S` the lines of the attribute are its name and its code only: no capacity is read. -/
theorem configureAttributes_type_codes (cnt : List Char) (ds : List AttributeInput)
    (rest : List Char) (hcnt : scanf_d cnt = some ((ds.length : Int), [])) (hne : ds ≠ [])
    (hds : ∀ d ∈ ds, d.WellFormed) :
    ∃ cfig, configureAttributes (cnt ++ '\n' :: (ds.flatMap AttributeInput.lines ++ rest))
        = some (cfig, rest) ∧
      ∀ (i : Nat) (d : AttributeInput), ds[i]? = some d →
        (d.code = 'I' →
          cfig.types[i]? = some (some .DT_INT) ∧ cfig.sizes[i]? = some (some 0)) ∧
        (d.code = 'F' →
          cfig.types[i]? = some (some .DT_FLOAT) ∧ cfig.sizes[i]? = some (some 0)) ∧
        (d.code = 'B' →
          cfig.types[i]? = some (some .DT_BOOL) ∧ cfig.sizes[i]? = some (some 0)) ∧
        (d.code = 'S' →
          cfig.types[i]? = some (some .DT_STRING) ∧ cfig.sizes[i]? = some (some d.size) ∧
          d.lines = d.name ++ '\n' :: 'S' :: '\n' :: (d.capacity ++ ['\n'])) ∧
        (d.code ≠ 'I' → d.code ≠ 'F' → d.code ≠ 'S' → d.code ≠ 'B' →
          cfig.types[i]? = some (some .DT_INT) ∧ cfig.sizes[i]? = some (some 0)) ∧
        (d.code ≠ 'S' → d.lines = d.name ++ '\n' :: d.code :: ['\n']) := by
  refine ⟨_, configureAttributes_lines hcnt hne hds rest, ?_⟩
  intro i d hd
  simp only [List.map_map, List.getElem?_map, hd, Option.map_some', Function.comp_apply]
  refine ⟨?_, ?_, ?_, ?_, ?_, ?_⟩
  · intro h; simp [codeType, codeSize, h]
  · intro h; simp [codeType, codeSize, h]
  · intro h; simp [codeType, codeSize, h]
  · intro h; simp [codeType, codeSize, h, AttributeInput.lines]
  · intro h1 h2 h3 h4; simp [codeType, codeSize, h1, h2, h3, h4]
  · intro h; simp [AttributeInput.lines, h]

/-- C3 at the input `2`, `id` with the lower-case code `s`, `name` with the code `S` and the
capacity `50`. -/
theorem configureAttributes_type_codes_witness :
    ∃ cfig, configureAttributes (['2'] ++ '\n' ::
        ([⟨['i', 'd'], 's', [], 0⟩, ⟨['n', 'a', 'm', 'e'], 'S', ['5', '0'], 50⟩].flatMap
          AttributeInput.lines ++ ['x'])) = some (cfig, ['x']) ∧
      cfig.types[0]? = some (some .DT_INT) ∧ cfig.sizes[0]? = some (some 0) ∧
      cfig.types[1]? = some (some .DT_STRING) ∧ cfig.sizes[1]? = some (some 50) := by
  obtain ⟨cfig, hrun, h⟩ := configureAttributes_type_codes ['2']
    [⟨['i', 'd'], 's', [], 0⟩, ⟨['n', 'a', 'm', 'e'], 'S', ['5', '0'], 50⟩] ['x']
    (by decide) (by decide) (by decide)
  have h0 := (h 0 ⟨['i', 'd'], 's', [], 0⟩ rfl).2.2.2.2.1
    (by decide) (by decide) (by decide) (by decide)
  have h1 := (h 1 ⟨['n', 'a', 'm', 'e'], 'S', ['5', '0'], 50⟩ rfl).2.2.2.1 rfl
  exact ⟨cfig, hrun, h0.1, h0.2, h1.1, h1.2.1⟩

/-- C2 fails as stated: on the input `1`, `name`, `S`, `0` the function returns one descriptor
of type `DT_STRING` whose declared capacity is 0, which is not strictly positive. -/
theorem configureAttributes_zero_capacity :
    configureAttributes ['1', '\n', 'n', 'a', 'm', 'e', '\n', 'S', '\n', '0', '\n'] =
      some ({ attrNames := [some ['n', 'a', 'm', 'e']]
              types := [some .DT_STRING]
              sizes := [some 0]
              count := 1 }, []) ∧ ¬ ((0 : Int) < 0) := by
  decide

/-- C2, amended: on a count line `C ≥ 1` followed by the lines of `C` well-formed attributes,
`configureAttributes` returns a structure with `count = C` whose three arrays have exactly
`C` entries, all written; every type is one of the four type tags; a descriptor of type
`DT_STRING` has as its size the integer read for it, whatever its sign; every other
descriptor has size 0. -/
theorem configureAttributes_descriptors (cnt : List Char) (ds : List AttributeInput)
    (rest : List Char) (hcnt : scanf_d cnt = some ((ds.length : Int), [])) (hne : ds ≠ [])
    (hds : ∀ d ∈ ds, d.WellFormed) :
    ∃ cfig, configureAttributes (cnt ++ '\n' :: (ds.flatMap AttributeInput.lines ++ rest))
        = some (cfig, rest) ∧
      cfig.count = (ds.length : Int) ∧ 1 ≤ cfig.count ∧
      cfig.attrNames.length = ds.length ∧ cfig.types.length = ds.length ∧
      cfig.sizes.length = ds.length ∧
      ∀ (i : Nat) (d : AttributeInput), ds[i]? = some d →
        ∃ ty size, cfig.attrNames[i]? = some (some d.name) ∧
          cfig.types[i]? = some (some ty) ∧ cfig.sizes[i]? = some (some size) ∧
          (ty = .DT_INT ∨ ty = .DT_FLOAT ∨ ty = .DT_STRING ∨ ty = .DT_BOOL) ∧
          (ty = .DT_STRING ↔ d.code = 'S') ∧
          (ty = .DT_STRING → size = d.size) ∧
          (ty ≠ .DT_STRING → size = 0) := by
  refine ⟨_, configureAttributes_lines hcnt hne hds rest, rfl, ?_, by simp, by simp, by simp, ?_⟩
  · cases ds with
    | nil => exact absurd rfl hne
    | cons d ds => simp only [List.length_cons]; omega
  · intro i d hd
    refine ⟨codeType d.code, codeSize d, by simp [hd], by simp [hd], by simp [hd], ?_, ?_, ?_, ?_⟩
    · unfold codeType; split_ifs <;> simp
    · unfold codeType; split_ifs <;> simp_all
    · unfold codeType codeSize; split_ifs <;> simp_all
    · unfold codeType codeSize; split_ifs <;> simp_all

/-- C2, amended, at the input `1`, `name`, `S`, `-5`. -/
theorem configureAttributes_descriptors_witness :
    ∃ cfig, configureAttributes (['1'] ++ '\n' ::
        ([⟨['n', 'a', 'm', 'e'], 'S', ['-', '5'], -5⟩].flatMap AttributeInput.lines ++ []))
          = some (cfig, []) ∧
      cfig.count = 1 ∧ cfig.types[0]? = some (some .DT_STRING) ∧
      cfig.sizes[0]? = some (some (-5)) := by
  obtain ⟨cfig, hrun, hcount, _, _, _, _, h⟩ := configureAttributes_descriptors ['1']
    [⟨['n', 'a', 'm', 'e'], 'S', ['-', '5'], -5⟩] [] (by decide) (by decide) (by decide)
  obtain ⟨ty, size, _, hty, hsize, _, hS, hsz, _⟩ :=
    h 0 ⟨['n', 'a', 'm', 'e'], 'S', ['-', '5'], -5⟩ rfl
  have hstr : ty = .DT_STRING := hS.2 rfl
  have hval : size = -5 := hsz hstr
  subst hstr
  subst hval
  exact ⟨cfig, hrun, hcount, hty, hsize⟩

/-! ## The record handlers on well-formed input -/

theorem drop_eq_cons {α : Type} {l : List α} {i : Nat} {x : α} {xs : List α}
    (h : l.drop i = x :: xs) : l[i]? = some x ∧ l.drop (i + 1) = xs := by
  induction l generalizing i with
  | nil => simp at h
  | cons a l ih =>
    cases i with
    | zero =>
      simp only [List.drop_zero, List.cons.injEq] at h
      simp [h.1, h.2]
    | succ i =>
      simp only [List.drop_succ_cons] at h
      simpa using ih h

/-- The prologue on a table-name line: the table is open, both slots are empty. -/
theorem openRequest_lines (E : Engine σ) {name : List Char} (hne : name ≠ [])
    (hname : ∀ c ∈ name, isspace c = false) (hlen : name.length < 256) (rest : List Char)
    (eng : σ) :
    openRequest E (name ++ '\n' :: rest) eng =
      some { stdin := '\n' :: rest
             engine := (E.openTable eng name).2
             ctx := { tbl := some { schema := (E.openTable eng name).1 }
                      sch := none, r := none, v := none }
             log := [{ call := .openTable name, r := none, v := none }] } := by
  have h : scanf_s 256 ([] ++ (name ++ '\n' :: rest)) = some (name, '\n' :: rest) :=
    scanf_s_token (scanf_s_literal hne hname hlen) (List.forall_mem_nil _) rfl
  simp only [List.nil_append] at h
  simp [openRequest, h, State.openTable, State.emit, initContext]

/-- The epilogue of a request whose slots are empty. -/
theorem closeRequest_empty (E : Engine σ) (stdin : List Char) (eng : σ) (sch : Schema)
    (log : List Entry) :
    closeRequest E { stdin := stdin, engine := eng, ctx := openContext sch, log := log } =
      { stdin := stdin, engine := E.closeTable eng, ctx := openContext sch,
        log := log ++ epilogue } := by
  simp [closeRequest, cleanupContext, State.closeTable, State.emit, openContext, epilogue]

/-- Reading a number from a line behind the newline of the line before. -/
theorem readInt_line {tok : List Char} {n : Int} (htok : scanf_d tok = some (n, []))
    (rest : List Char) (eng : σ) (ctx : OperationContext) (log : List Entry) :
    State.readInt { stdin := '\n' :: (tok ++ '\n' :: rest), engine := eng, ctx := ctx, log := log }
      = some (n, { stdin := '\n' :: rest, engine := eng, ctx := ctx, log := log }) := by
  have h : scanf_d (['\n'] ++ (tok ++ '\n' :: rest)) = some (n, '\n' :: rest) :=
    scanSigned_token htok newline_spaces rfl
  simp only [List.singleton_append] at h
  simp [State.readInt, h]

/-- The statement `ctx->v = captureAttributeValue(...)` on the line of a well-formed value. -/
theorem capture_line {c : Cell} (hc : c.WellFormed) (rest : List Char) (eng : σ)
    (ctx : OperationContext) (log : List Entry) :
    State.capture c.dtype c.sz
        { stdin := '\n' :: (c.text ++ '\n' :: rest), engine := eng, ctx := ctx, log := log }
      = some { stdin := '\n' :: rest, engine := eng, ctx := { ctx with v := some c.value },
               log := log ++ [{ call := .capture c.dtype c.sz (some c.value),
                                r := ctx.r, v := ctx.v }] } := by
  have h : captureAttributeValue c.dtype c.sz (['\n'] ++ (c.text ++ '\n' :: rest))
      = some (some c.value, '\n' :: rest) :=
    captureAttributeValue_token hc c.sz newline_spaces rfl
  simp only [List.singleton_append] at h
  simp [State.capture, h, State.emit]

theorem printAttrNames_loop (names : List (List Char)) (n i : Nat)
    (h : i + n ≤ names.length) :
    forLoop (fun i u => names[i]?.map fun _ => u) n i () = some () := by
  induction n generalizing i with
  | zero => rfl
  | succ n ih =>
    have hi : i < names.length := by omega
    simp only [forLoop, List.getElem?_eq_getElem hi, Option.map_some', Option.some_bind]
    exact ih (i + 1) (by omega)

theorem printAttrNames_wellFormed {sch : Schema} (hwf : sch.WellFormed) :
    printAttrNames sch = some () := by
  apply printAttrNames_loop
  have h1 : sch.numAttr = (sch.dataTypes.length : Int) := hwf.2.2
  rw [h1, Int.toNat_ofNat, hwf.1]
  omega

/-- The inner insertion loop on the lines of the values of the attributes `i`, `i + 1`, ... -/
theorem insertionAttrs_lines (sch : Schema) (cells : List Cell) (i : Nat)
    (hnames : i + cells.length ≤ sch.attrNames.length)
    (htypes : sch.dataTypes.drop i = cells.map Cell.dtype)
    (hsizes : sch.typeLength.drop i = cells.map Cell.sz)
    (hcells : ∀ c ∈ cells, c.WellFormed)
    (r : Record) (rest : List Char) (eng : σ) (log : List Entry) :
    forLoop insertionAttr cells.length i
        { stdin := '\n' :: (cellLines cells ++ rest), engine := eng,
          ctx := { openContext sch with r := some r }, log := log }
      = some { stdin := '\n' :: rest, engine := eng,
               ctx := { openContext sch with r := some (bindCells r i cells) },
               log := log ++ attrEntries r i cells } := by
  induction cells generalizing i r log with
  | nil => simp [forLoop, cellLines, bindCells, attrEntries]
  | cons c cs ih =>
    have ht := drop_eq_cons htypes
    have hs := drop_eq_cons hsizes
    have hc : c.WellFormed := hcells c (List.mem_cons_self _ _)
    have hi : i < sch.attrNames.length := by
      simp only [List.length_cons] at hnames; omega
    have hcap := capture_line hc (cellLines cs ++ rest) eng
      { openContext sch with r := some r } log
    have hstep : insertionAttr i
        { stdin := '\n' :: (cellLines (c :: cs) ++ rest), engine := eng,
          ctx := { openContext sch with r := some r }, log := log }
        = some { stdin := '\n' :: (cellLines cs ++ rest), engine := eng,
                 ctx := { openContext sch with r := some (setAttr r i (some c.value)) },
                 log := log ++ [
                   { call := .capture c.dtype c.sz (some c.value), r := some r, v := none },
                   { call := .setAttr r i (some c.value), r := some r, v := some c.value },
                   { call := .freeVal (some c.value), r := some (setAttr r i (some c.value)),
                     v := some c.value } ] } := by
      have hlines : cellLines (c :: cs) ++ rest = c.text ++ '\n' :: (cellLines cs ++ rest) := by
        simp [cellLines]
      rw [hlines]
      simp only [insertionAttr, State.schema, openContext, Option.some_bind, ht.1, hs.1,
        List.getElem?_eq_getElem hi]
      simp only [openContext] at hcap
      rw [hcap]
      simp [State.setAttr, State.freeVal, State.emit]
    simp only [List.length_cons, forLoop, hstep, Option.some_bind]
    rw [ih (i + 1) (by simp only [List.length_cons] at hnames; omega) ht.2 hs.2
      (fun d hd => hcells d (List.mem_cons_of_mem _ hd))]
    simp [bindCells, attrEntries]

theorem numAttr_toNat {sch : Schema} (hwf : sch.WellFormed) {row : List Cell}
    (hrow : RowFor sch row) : sch.numAttr.toNat = row.length := by
  have h1 : sch.numAttr = (sch.dataTypes.length : Int) := hwf.2.2
  have h2 : row.length = sch.dataTypes.length := by
    rw [← hrow.1, List.length_map]
  rw [h1, h2, Int.toNat_ofNat]

/-- One iteration of the insertion loop on the lines of a well-formed row. -/
theorem insertionEntry_lines (E : Engine σ) {sch : Schema} (hwf : sch.WellFormed)
    {row : List Cell} (hrow : RowFor sch row) (entryIdx : Nat) (rest : List Char) (eng : σ)
    (log : List Entry) :
    insertionEntry E entryIdx
        { stdin := '\n' :: (cellLines row ++ rest), engine := eng, ctx := openContext sch,
          log := log }
      = some { stdin := '\n' :: rest, engine := (insertionRow E sch eng row).2,
               ctx := openContext sch, log := log ++ (insertionRow E sch eng row).1 } := by
  have hnames : 0 + row.length ≤ sch.attrNames.length := by
    have h2 : row.length = sch.dataTypes.length := by rw [← hrow.1, List.length_map]
    rw [hwf.1, h2]; omega
  have hloop := insertionAttrs_lines sch row 0 hnames (by simpa using hrow.1.symm)
    (by simpa using hrow.2.1.symm) hrow.2.2 (newRecord E sch eng) rest
    (E.createRecord eng sch).2
    (log ++ [{ call := .createRecord sch (newRecord E sch eng), r := none, v := none }])
  simp only [insertionEntry, State.schema, openContext, Option.some_bind, State.createRecord,
    State.emit, numAttr_toNat hwf hrow]
  simp only [openContext, newRecord, numAttr_toNat hwf hrow] at hloop
  rw [hloop]
  simp [State.insertRecord, State.freeRecord, State.emit, insertionRow, newRecord,
    numAttr_toNat hwf hrow]

/-- The insertion loop on the lines of well-formed rows. -/
theorem insertionLoop_lines (E : Engine σ) {sch : Schema} (hwf : sch.WellFormed)
    (rows : List (List Cell)) (hrows : ∀ row ∈ rows, RowFor sch row) (entryIdx : Nat)
    (rest : List Char) (eng : σ) (log : List Entry) :
    forLoop (insertionEntry E) rows.length entryIdx
        { stdin := '\n' :: (rowLines rows ++ rest), engine := eng, ctx := openContext sch,
          log := log }
      = some { stdin := '\n' :: rest, engine := (insertionRows E sch eng rows).2,
               ctx := openContext sch, log := log ++ (insertionRows E sch eng rows).1 } := by
  induction rows generalizing entryIdx eng log with
  | nil => simp [forLoop, rowLines, insertionRows]
  | cons row rows ih =>
    have hrow : RowFor sch row := hrows row (List.mem_cons_self _ _)
    have hstep := insertionEntry_lines E hwf hrow entryIdx (rowLines rows ++ rest) eng log
    have hlines : rowLines (row :: rows) ++ rest = cellLines row ++ (rowLines rows ++ rest) := by
      simp [rowLines]
    simp only [List.length_cons, forLoop, hlines, hstep, Option.some_bind]
    rw [ih (fun r hr => hrows r (List.mem_cons_of_mem _ hr))]
    simp [insertionRows]

/-- The function `handleRecordInsertion` on a well-formed request: it returns, and the final
state is the one the rows determine. -/
theorem handleRecordInsertion_lines (E : Engine σ) (eng : σ) {name : List Char}
    (hname : TableName name) {sch : Schema} (hopen : (E.openTable eng name).1 = some sch)
    (hwf : sch.WellFormed) {cnt : List Char} {n : Int} (rows : List (List Cell))
    (hcnt : scanf_d cnt = some (n, [])) (hn : n.toNat = rows.length)
    (hrows : ∀ row ∈ rows, RowFor sch row) (rest : List Char) :
    handleRecordInsertion E (insertionInput name cnt rows rest) eng
      = some { stdin := '\n' :: rest
               engine := E.closeTable (insertionRows E sch (E.openTable eng name).2 rows).2
               ctx := openContext sch
               log := { call := .openTable name, r := none, v := none } ::
                 ((insertionRows E sch (E.openTable eng name).2 rows).1 ++ epilogue) } := by
  have h1 := openRequest_lines E hname.1 hname.2.1 hname.2.2
    (cnt ++ '\n' :: (rowLines rows ++ rest)) eng
  have h2 := readInt_line hcnt (rowLines rows ++ rest) (E.openTable eng name).2
    (openContext sch) [{ call := .openTable name, r := none, v := none }]
  have h3 := insertionLoop_lines E hwf rows hrows 0 rest (E.openTable eng name).2
    [{ call := .openTable name, r := none, v := none }]
  rw [hopen] at h1
  simp only [openContext] at h2 h3
  simp only [handleRecordInsertion, insertionInput, h1, Option.some_bind, h2,
    hn, h3, Option.map_some']
  have h4 := closeRequest_empty E ('\n' :: rest)
    (insertionRows E sch (E.openTable eng name).2 rows).2 sch
    ({ call := .openTable name, r := none, v := none } ::
      (insertionRows E sch (E.openTable eng name).2 rows).1)
  simp only [openContext] at h4
  simp only [List.singleton_append, List.nil_append, h4, List.cons_append, openContext]

/-- One iteration of the deletion loop on the lines of a well-formed iteration. -/
theorem deletionEntry_lines (E : Engine σ) {sch : Schema} (hwf : sch.WellFormed)
    {d : Criterion} (hd : d.WellFormed sch) (delIdx : Nat) (rest : List Char) (eng : σ) (log : List Entry) :
    deletionEntry E delIdx
        { stdin := '\n' :: (d.lines sch ++ rest), engine := eng, ctx := openContext sch,
          log := log }
      = some { stdin := '\n' :: rest, engine := (deletionIteration E sch eng d).2,
               ctx := openContext sch, log := log ++ (deletionIteration E sch eng d).1 } := by
  by_cases hin : InRange sch d.index
  · obtain ⟨hidx, hcell⟩ := hd
    obtain ⟨hty, hsz, hcwf⟩ := hcell hin
    have hlines : d.lines sch ++ rest = d.indexText ++ '\n' :: (d.cell.text ++ '\n' :: rest) := by
      simp [Criterion.lines, hin]
    have hread := readInt_line hidx (d.cell.text ++ '\n' :: rest) (E.createRecord eng sch).2
      { openContext sch with r := some (newRecord E sch eng) }
      (log ++ [{ call := .createRecord sch (newRecord E sch eng), r := none, v := none }])
    have hcap := capture_line hcwf rest (E.createRecord eng sch).2
      { openContext sch with r := some (newRecord E sch eng) }
      (log ++ [{ call := .createRecord sch (newRecord E sch eng), r := none, v := none }])
    have hin2 : 0 ≤ d.index ∧ d.index < sch.numAttr := hin
    simp only [openContext, newRecord] at hread hcap
    simp only [deletionEntry, State.schema, openContext, Option.some_bind, State.createRecord,
      State.emit, hlines, hread, hin2, and_self, if_true, deletionCriterion, hty, hsz, hcap,
      printAttrNames_wellFormed hwf]
    simp [State.setAttr, State.deleteRecord, State.freeVal, State.freeRecord, State.emit,
      deletionIteration, hin, newRecord]
  · obtain ⟨hidx, _⟩ := hd
    have hlines : d.lines sch ++ rest = d.indexText ++ '\n' :: rest := by
      simp [Criterion.lines, hin]
    have hread := readInt_line hidx rest (E.createRecord eng sch).2
      { openContext sch with r := some (newRecord E sch eng) }
      (log ++ [{ call := .createRecord sch (newRecord E sch eng), r := none, v := none }])
    have hin2 : ¬ (0 ≤ d.index ∧ d.index < sch.numAttr) := hin
    simp only [openContext, newRecord] at hread
    simp only [deletionEntry, State.schema, openContext, Option.some_bind, State.createRecord,
      State.emit, hlines, hread, hin2, if_false, printAttrNames_wellFormed hwf]
    simp [State.freeRecord, State.emit, deletionIteration, hin, newRecord]

/-- The deletion loop on the lines of well-formed iterations. -/
theorem deletionLoop_lines (E : Engine σ) {sch : Schema} (hwf : sch.WellFormed)
    (ds : List Criterion)
    (hds : ∀ d ∈ ds, d.WellFormed sch) (delIdx : Nat) (rest : List Char) (eng : σ)
    (log : List Entry) :
    forLoop (deletionEntry E) ds.length delIdx
        { stdin := '\n' :: (ds.flatMap (Criterion.lines sch) ++ rest), engine := eng,
          ctx := openContext sch, log := log }
      = some { stdin := '\n' :: rest, engine := (deletionIterations E sch eng ds).2,
               ctx := openContext sch, log := log ++ (deletionIterations E sch eng ds).1 } := by
  induction ds generalizing delIdx eng log with
  | nil => simp [forLoop, deletionIterations]
  | cons d ds ih =>
    have hd : d.WellFormed sch := hds d (List.mem_cons_self _ _)
    have hstep := deletionEntry_lines E hwf hd delIdx
      (ds.flatMap (Criterion.lines sch) ++ rest) eng log
    simp only [List.length_cons, forLoop, List.flatMap_cons, List.append_assoc, hstep,
      Option.some_bind]
    rw [ih (fun e he => hds e (List.mem_cons_of_mem _ he))]
    simp [deletionIterations]

/-- The function `handleRecordDeletion` on a well-formed request: it returns, and the final
state is the one the iterations determine. -/
theorem handleRecordDeletion_lines (E : Engine σ) (eng : σ) {name : List Char}
    (hname : TableName name) {sch : Schema} (hopen : (E.openTable eng name).1 = some sch)
    (hwf : sch.WellFormed) {cnt : List Char} {n : Int} (ds : List Criterion)
    (hcnt : scanf_d cnt = some (n, [])) (hn : n.toNat = ds.length)
    (hds : ∀ d ∈ ds, d.WellFormed sch) (rest : List Char) :
    handleRecordDeletion E (deletionInput sch name cnt ds rest) eng
      = some { stdin := '\n' :: rest
               engine := E.closeTable (deletionIterations E sch (E.openTable eng name).2 ds).2
               ctx := openContext sch
               log := { call := .openTable name, r := none, v := none } ::
                 ((deletionIterations E sch (E.openTable eng name).2 ds).1 ++ epilogue) } := by
  have h1 := openRequest_lines E hname.1 hname.2.1 hname.2.2
    (cnt ++ '\n' :: (ds.flatMap (Criterion.lines sch) ++ rest)) eng
  have h2 := readInt_line hcnt (ds.flatMap (Criterion.lines sch) ++ rest)
    (E.openTable eng name).2 (openContext sch)
    [{ call := .openTable name, r := none, v := none }]
  have h3 := deletionLoop_lines E hwf ds hds 0 rest (E.openTable eng name).2
    [{ call := .openTable name, r := none, v := none }]
  rw [hopen] at h1
  simp only [openContext] at h2 h3
  simp only [handleRecordDeletion, deletionInput, h1, Option.some_bind, h2,
    hn, h3, Option.map_some']
  have h4 := closeRequest_empty E ('\n' :: rest)
    (deletionIterations E sch (E.openTable eng name).2 ds).2 sch
    ({ call := .openTable name, r := none, v := none } ::
      (deletionIterations E sch (E.openTable eng name).2 ds).1)
  simp only [openContext] at h4
  simp only [List.singleton_append, List.nil_append, h4, List.cons_append, openContext]

/-- One iteration of the modification loop on the line of a well-formed value. -/
theorem modificationEntry_lines (E : Engine σ) {sch : Schema} {targetAttr : Nat} {c : Cell}
    (hty : sch.dataTypes[targetAttr]? = some c.dtype)
    (hsz : sch.typeLength[targetAttr]? = some c.sz) (hc : c.WellFormed) (modIdx : Nat)
    (rest : List Char) (eng : σ) (log : List Entry) :
    modificationEntry E targetAttr modIdx
        { stdin := '\n' :: (c.text ++ '\n' :: rest), engine := eng, ctx := openContext sch,
          log := log }
      = some { stdin := '\n' :: rest,
               engine := (modificationIteration E sch targetAttr eng c).2,
               ctx := openContext sch,
               log := log ++ (modificationIteration E sch targetAttr eng c).1 } := by
  have hcap := capture_line hc rest (E.createRecord eng sch).2
    { openContext sch with r := some (newRecord E sch eng) }
    (log ++ [{ call := .createRecord sch (newRecord E sch eng), r := none, v := none }])
  simp only [openContext, newRecord] at hcap
  simp only [modificationEntry, State.schema, openContext, Option.some_bind, hty, hsz,
    State.createRecord, State.emit, hcap]
  simp [State.setAttr, State.updateRecord, State.freeVal, State.freeRecord, State.emit,
    modificationIteration, newRecord]

/-- The modification loop on the lines of well-formed values. -/
theorem modificationLoop_lines (E : Engine σ) {sch : Schema} {index : Int}
    (cells : List Cell) (hcells : CellsFor sch index cells) (modIdx : Nat) (rest : List Char)
    (eng : σ) (log : List Entry) :
    forLoop (modificationEntry E index.toNat) cells.length modIdx
        { stdin := '\n' :: (cellLines cells ++ rest), engine := eng, ctx := openContext sch,
          log := log }
      = some { stdin := '\n' :: rest,
               engine := (modificationIterations E sch index.toNat eng cells).2,
               ctx := openContext sch,
               log := log ++ (modificationIterations E sch index.toNat eng cells).1 } := by
  induction cells generalizing modIdx eng log with
  | nil => simp [forLoop, cellLines, modificationIterations]
  | cons c cs ih =>
    obtain ⟨hty, hsz, hc⟩ := hcells c (List.mem_cons_self _ _)
    have hstep := modificationEntry_lines E hty hsz hc modIdx (cellLines cs ++ rest) eng log
    have hlines : cellLines (c :: cs) ++ rest = c.text ++ '\n' :: (cellLines cs ++ rest) := by
      simp [cellLines]
    simp only [List.length_cons, forLoop, hlines, hstep, Option.some_bind]
    rw [ih (fun e he => hcells e (List.mem_cons_of_mem _ he))]
    simp [modificationIterations]

/-- The function `handleRecordModification` on a well-formed request whose attribute index
is in range: it returns, and the final state is the one the values determine. -/
theorem handleRecordModification_lines (E : Engine σ) (eng : σ) {name : List Char}
    (hname : TableName name) {sch : Schema} (hopen : (E.openTable eng name).1 = some sch)
    (hwf : sch.WellFormed) {cnt indexText : List Char} {n index : Int} (cells : List Cell)
    (hcnt : scanf_d cnt = some (n, [])) (hn : n.toNat = cells.length)
    (hidx : scanf_d indexText = some (index, [])) (hin : InRange sch index)
    (hcells : CellsFor sch index cells) (rest : List Char) :
    handleRecordModification E (modificationInput sch name cnt indexText index cells rest) eng
      = some { stdin := '\n' :: rest
               engine := E.closeTable
                 (modificationIterations E sch index.toNat (E.openTable eng name).2 cells).2
               ctx := openContext sch
               log := { call := .openTable name, r := none, v := none } ::
                 ((modificationIterations E sch index.toNat (E.openTable eng name).2 cells).1
                   ++ epilogue) } := by
  have h1 := openRequest_lines E hname.1 hname.2.1 hname.2.2
    (cnt ++ '\n' :: (indexText ++ '\n' :: (cellLines cells ++ rest))) eng
  have h2 := readInt_line hcnt (indexText ++ '\n' :: (cellLines cells ++ rest))
    (E.openTable eng name).2 (openContext sch)
    [{ call := .openTable name, r := none, v := none }]
  have h2b := readInt_line hidx (cellLines cells ++ rest)
    (E.openTable eng name).2 (openContext sch)
    [{ call := .openTable name, r := none, v := none }]
  have h3 := modificationLoop_lines E cells hcells 0 rest (E.openTable eng name).2
    [{ call := .openTable name, r := none, v := none }]
  have hin2 : 0 ≤ index ∧ index < sch.numAttr := hin
  rw [hopen] at h1
  simp only [openContext] at h2 h2b h3
  simp only [handleRecordModification, modificationInput, hin, if_true, h1, Option.some_bind,
    h2, State.schema, h2b, hin2, and_self, hn, h3, Option.map_some',
    printAttrNames_wellFormed hwf]
  have h4 := closeRequest_empty E ('\n' :: rest)
    (modificationIterations E sch index.toNat (E.openTable eng name).2 cells).2 sch
    ({ call := .openTable name, r := none, v := none } ::
      (modificationIterations E sch index.toNat (E.openTable eng name).2 cells).1)
  simp only [openContext] at h4
  simp only [List.singleton_append, List.nil_append, h4, List.cons_append, openContext]

/-- The function `handleRecordModification` on a request whose attribute index is out of
range, whatever the count: it returns, and only the prologue and the epilogue are logged. -/
theorem handleRecordModification_skip (E : Engine σ) (eng : σ) {name : List Char}
    (hname : TableName name) {sch : Schema} (hopen : (E.openTable eng name).1 = some sch)
    (hwf : sch.WellFormed) {cnt indexText : List Char} {modCount index : Int}
    (cells : List Cell)
    (hcnt : scanf_d cnt = some (modCount, []))
    (hidx : scanf_d indexText = some (index, [])) (hout : ¬ InRange sch index)
    (rest : List Char) :
    handleRecordModification E (modificationInput sch name cnt indexText index cells rest) eng
      = some { stdin := '\n' :: rest
               engine := E.closeTable (E.openTable eng name).2
               ctx := openContext sch
               log := { call := .openTable name, r := none, v := none } :: epilogue } := by
  have h1 := openRequest_lines E hname.1 hname.2.1 hname.2.2
    (cnt ++ '\n' :: (indexText ++ '\n' :: rest)) eng
  have h2 := readInt_line hcnt (indexText ++ '\n' :: rest)
    (E.openTable eng name).2 (openContext sch)
    [{ call := .openTable name, r := none, v := none }]
  have h2b := readInt_line hidx rest
    (E.openTable eng name).2 (openContext sch)
    [{ call := .openTable name, r := none, v := none }]
  have hout2 : ¬ (0 ≤ index ∧ index < sch.numAttr) := hout
  rw [hopen] at h1
  simp only [openContext] at h2 h2b
  simp only [handleRecordModification, modificationInput, hout, if_false, List.nil_append, h1,
    Option.some_bind, h2, State.schema, h2b, hout2, Option.map_some',
    printAttrNames_wellFormed hwf]
  have h4 := closeRequest_empty E ('\n' :: rest) (E.openTable eng name).2 sch
    [{ call := .openTable name, r := none, v := none }]
  simp only [openContext] at h4
  simp only [h4, List.singleton_append, openContext]

/-! ## cleanupContext -/

/-- C10: `cleanupContext` releases in a fixed order and only what is held: `freeVal` iff the
value slot is not empty, then `freeRecord` iff the record slot is not empty, then the table
handle iff there is one, then the context; it reads no input and calls no engine operation
that changes the engine state.  For the context `initContext` returns, and for the context
of a request after its loop (table open, both slots empty), the calls are exactly the release
of the handle and of the context: no `freeVal`, no `freeRecord`. -/
theorem cleanupContext_order (st : State σ) (stdin : List Char) (eng : σ) (log : List Entry)
    (sch : Schema) :
    (cleanupContext st).log = st.log ++
      ((if st.ctx.v.isSome then
          [{ call := .freeVal st.ctx.v, r := st.ctx.r, v := st.ctx.v }] else []) ++
       (if st.ctx.r.isSome then
          [{ call := .freeRecord st.ctx.r, r := st.ctx.r, v := st.ctx.v }] else []) ++
       (if st.ctx.tbl.isSome then
          [{ call := .freeTable, r := st.ctx.r, v := st.ctx.v }] else []) ++
       [{ call := .freeContext, r := st.ctx.r, v := st.ctx.v }]) ∧
    (cleanupContext st).stdin = st.stdin ∧ (cleanupContext st).engine = st.engine ∧
    kinds (cleanupContext
        { stdin := stdin, engine := eng, ctx := initContext, log := log }).log
      = kinds log ++ [.freeTable, .freeContext] ∧
    kinds (cleanupContext
        { stdin := stdin, engine := eng, ctx := openContext sch, log := log }).log
      = kinds log ++ [.freeTable, .freeContext] := by
  refine ⟨?_, ?_, ?_, ?_, ?_⟩
  · cases hv : st.ctx.v <;> cases hr : st.ctx.r <;> cases ht : st.ctx.tbl <;>
      simp [cleanupContext, State.emit, hv, hr, ht]
  · cases hv : st.ctx.v <;> cases hr : st.ctx.r <;> cases ht : st.ctx.tbl <;>
      simp [cleanupContext, State.emit, hv, hr, ht]
  · cases hv : st.ctx.v <;> cases hr : st.ctx.r <;> cases ht : st.ctx.tbl <;>
      simp [cleanupContext, State.emit, hv, hr, ht]
  · simp [cleanupContext, State.emit, initContext, kinds, Call.kind]
  · simp [cleanupContext, State.emit, openContext, kinds, Call.kind]

/-! ## handleRecordModification with an index out of range -/

/-- In a well-formed schema a read of `dataTypes` or `typeLength` at the index `numAttr` is a
read past the end. -/
theorem past_the_end {sch : Schema} (hwf : sch.WellFormed) {index : Int}
    (h : index = sch.numAttr) :
    sch.dataTypes[index.toNat]? = none ∧ sch.typeLength[index.toNat]? = none := by
  have h1 : sch.numAttr = (sch.dataTypes.length : Int) := hwf.2.2
  have h2 : index.toNat = sch.dataTypes.length := by rw [h, h1, Int.toNat_ofNat]
  rw [h2]
  exact ⟨List.getElem?_eq_none (Nat.le_refl _),
    List.getElem?_eq_none (by rw [hwf.2.1])⟩

theorem kinds_epilogue : kinds epilogue = [.closeTable, .freeTable, .freeContext] := rfl

theorem kinds_append (l1 l2 : List Entry) : kinds (l1 ++ l2) = kinds l1 ++ kinds l2 := by
  simp [kinds]

theorem kinds_cons (e : Entry) (l : List Entry) : kinds (e :: l) = e.call.kind :: kinds l := rfl

/-- C5: in `handleRecordModification`, for every count and every attribute index outside
`0 <= idx < numAttr` (the index `numAttr` included), the function returns and the calls it
issues are exactly `openTable`, `closeTable`, the release of the handle and the release of
the context: no `createRecord`, no capture, no `setAttr`, no `updateRecord`, and the engine
state is the one `closeTable` gives right after `openTable`.  The schema arrays have exactly
`numAttr` entries and a read past their end would leave the run undefined: the run is
defined, so for the index `numAttr` no array is read at the index. -/
theorem modification_skips_out_of_range (E : Engine σ) (eng : σ) (name : List Char)
    (sch : Schema) (cnt indexText : List Char) (modCount index : Int) (cells : List Cell)
    (rest : List Char) (hname : TableName name)
    (hopen : (E.openTable eng name).1 = some sch) (hwf : sch.WellFormed)
    (hcnt : scanf_d cnt = some (modCount, []))
    (hidx : scanf_d indexText = some (index, [])) (hout : ¬ InRange sch index) :
    ∃ st, handleRecordModification E
        (modificationInput sch name cnt indexText index cells rest) eng = some st ∧
      kinds st.log = [.openTable, .closeTable, .freeTable, .freeContext] ∧
      st.log.filterMap Entry.captured = [] ∧ st.log.filterMap Entry.bound = [] ∧
      st.log.filterMap Entry.created = [] ∧ st.log.filterMap Entry.updated = [] ∧
      st.engine = E.closeTable (E.openTable eng name).2 ∧
      st.stdin = '\n' :: rest ∧
      modificationInput sch name cnt indexText index cells rest
        = name ++ '\n' :: (cnt ++ '\n' :: (indexText ++ '\n' :: rest)) ∧
      (index = sch.numAttr →
        sch.dataTypes[index.toNat]? = none ∧ sch.typeLength[index.toNat]? = none) := by
  refine ⟨_, handleRecordModification_skip E eng hname hopen hwf cells hcnt hidx hout rest,
    rfl, rfl, rfl, rfl, rfl, rfl, rfl, ?_, ?_⟩
  · simp [modificationInput, hout]
  · intro hidx2
    exact past_the_end hwf hidx2

/-- C5 on the table `people` of the counting engine (two attributes), count 3, index 2. -/
theorem modification_skips_out_of_range_witness :
    ∃ st, handleRecordModification countingEngine
        (modificationInput peopleSchema ['p'] ['3'] ['2'] 2 [] ['x']) 0 = some st ∧
      kinds st.log = [.openTable, .closeTable, .freeTable, .freeContext] ∧
      st.stdin = ['\n', 'x'] := by
  obtain ⟨st, hrun, hk, _, _, _, _, _, hin, _⟩ :=
    modification_skips_out_of_range countingEngine 0 ['p'] peopleSchema ['3'] ['2'] 3 2 []
      ['x'] (by decide) rfl (by decide) (by decide) (by decide) (by decide)
  exact ⟨st, hrun, hk, hin⟩

/-! ## handleRecordDeletion -/

theorem kinds_deletionIterations (E : Engine σ) (sch : Schema) (eng : σ)
    (ds : List Criterion) :
    kinds (deletionIterations E sch eng ds).1 = ds.flatMap (deletionKinds sch) := by
  induction ds generalizing eng with
  | nil => rfl
  | cons d ds ih =>
    simp only [deletionIterations, kinds_append, ih, List.flatMap_cons]
    congr 1
    unfold deletionIteration deletionKinds
    split_ifs <;> rfl

theorem count_deletionKinds (sch : Schema) (ds : List Criterion) :
    (ds.flatMap (deletionKinds sch)).count .createRecord = ds.length ∧
    (ds.flatMap (deletionKinds sch)).count .deleteRecord
      = (ds.filter fun d => decide (InRange sch d.index)).length ∧
    (ds.flatMap (deletionKinds sch)).count .capture
      = (ds.filter fun d => decide (InRange sch d.index)).length ∧
    (ds.flatMap (deletionKinds sch)).count .setAttr
      = (ds.filter fun d => decide (InRange sch d.index)).length := by
  induction ds with
  | nil => simp
  | cons d ds ih =>
    obtain ⟨h1, h2, h3, h4⟩ := ih
    simp only [List.flatMap_cons, List.count_append, h1, h2, h3, h4, List.length_cons,
      List.filter_cons]
    by_cases hin : InRange sch d.index
    · simp [deletionKinds, hin]; omega
    · simp [deletionKinds, hin]; omega

/-- C4: in `handleRecordDeletion`, on a request of `N` well-formed iterations, the function
returns and every iteration whose index is outside `0 <= idx < numAttr` (the index `numAttr`
and negative indices included) issues exactly two calls, `createRecord` and `freeRecord`: no
capture, no `setAttr`, no `deleteRecord`.  The iteration still counts: `createRecord` is
called `N` times, all `N` index lines are consumed, and the number of `deleteRecord` calls
is the number of iterations whose index is in range.  The schema arrays have exactly
`numAttr` entries and a read past their end would leave the run undefined: the run is
defined, so for the index `numAttr` no array is read at the index. -/
theorem deletion_skips_out_of_range (E : Engine σ) (eng : σ) (name : List Char)
    (sch : Schema) (cnt : List Char) (n : Int) (ds : List Criterion) (rest : List Char)
    (hname : TableName name) (hopen : (E.openTable eng name).1 = some sch)
    (hwf : sch.WellFormed)
    (hcnt : scanf_d cnt = some (n, [])) (hn : n.toNat = ds.length)
    (hds : ∀ d ∈ ds, d.WellFormed sch) :
    ∃ st, handleRecordDeletion E (deletionInput sch name cnt ds rest) eng = some st ∧
      kinds st.log = .openTable :: (ds.flatMap (fun d =>
          if InRange sch d.index then
            [.createRecord, .capture, .setAttr, .deleteRecord, .freeVal, .freeRecord]
          else [.createRecord, .freeRecord])
        ++ [.closeTable, .freeTable, .freeContext]) ∧
      (kinds st.log).count .createRecord = ds.length ∧
      (kinds st.log).count .deleteRecord
        = (ds.filter fun d => decide (InRange sch d.index)).length ∧
      (kinds st.log).count .capture
        = (ds.filter fun d => decide (InRange sch d.index)).length ∧
      (kinds st.log).count .setAttr
        = (ds.filter fun d => decide (InRange sch d.index)).length ∧
      st.stdin = '\n' :: rest ∧
      (∀ d ∈ ds, ¬ InRange sch d.index → d.lines sch = d.indexText ++ ['\n']) ∧
      (∀ d ∈ ds, d.index = sch.numAttr →
        sch.dataTypes[d.index.toNat]? = none ∧ sch.typeLength[d.index.toNat]? = none) := by
  have hk : kinds ({ call := .openTable name, r := none, v := none } ::
      ((deletionIterations E sch (E.openTable eng name).2 ds).1 ++ epilogue))
      = .openTable :: (ds.flatMap (deletionKinds sch)
        ++ [.closeTable, .freeTable, .freeContext]) := by
    rw [kinds_cons, kinds_append, kinds_deletionIterations, kinds_epilogue]
    rfl
  obtain ⟨c1, c2, c3, c4⟩ := count_deletionKinds sch ds
  refine ⟨_, handleRecordDeletion_lines E eng hname hopen hwf ds hcnt hn hds rest,
    ?_, ?_, ?_, ?_, ?_,
    rfl, ?_⟩
  · exact hk
  · simp only [hk]
    simp [List.count_cons, List.count_append, c1]
  · simp only [hk]
    simp [List.count_cons, List.count_append, c2]
  · simp only [hk]
    simp [List.count_cons, List.count_append, c3]
  · simp only [hk]
    simp [List.count_cons, List.count_append, c4]
  · refine ⟨?_, ?_⟩
    · intro d _ hout
      simp [Criterion.lines, hout]
    · intro d _ hidx
      exact past_the_end hwf hidx

/-- C4 on the table `people` of the counting engine (two attributes): three iterations with
the indices 1, 2 and -1. -/
theorem deletion_skips_out_of_range_witness :
    ∃ st, handleRecordDeletion countingEngine
        (deletionInput peopleSchema ['p'] ['3'] sampleDeletions ['x']) 0 = some st ∧
      kinds st.log = [.openTable,
        .createRecord, .capture, .setAttr, .deleteRecord, .freeVal, .freeRecord,
        .createRecord, .freeRecord, .createRecord, .freeRecord,
        .closeTable, .freeTable, .freeContext] ∧
      (kinds st.log).count .createRecord = 3 ∧ (kinds st.log).count .deleteRecord = 1 := by
  obtain ⟨st, hrun, hk, hc, hd, _⟩ :=
    deletion_skips_out_of_range countingEngine 0 ['p'] peopleSchema ['3'] 3 sampleDeletions
      ['x'] (by decide) rfl (by decide) (by decide) (by decide) (by decide)
  exact ⟨st, hrun, hk, hc, hd⟩

theorem deleted_deletionIterations (E : Engine σ) (sch : Schema) (eng : σ)
    (ds : List Criterion) :
    (deletionIterations E sch eng ds).1.filterMap Entry.deleted
      = inRangeIds sch ((deletionIterations E sch eng ds).1.filterMap Entry.created) ds := by
  induction ds generalizing eng with
  | nil => rfl
  | cons d ds ih =>
    simp only [deletionIterations, List.filterMap_append, ih]
    by_cases hin : InRange sch d.index
    · simp [deletionIteration, hin, Entry.deleted, Entry.created, inRangeIds, setAttr]
    · simp [deletionIteration, hin, Entry.deleted, Entry.created, inRangeIds]

theorem created_deletionIterations (E : Engine σ) (sch : Schema) (eng : σ)
    (ds : List Criterion) :
    ((deletionIterations E sch eng ds).1.filterMap Entry.created).length = ds.length := by
  induction ds generalizing eng with
  | nil => rfl
  | cons d ds ih =>
    simp only [deletionIterations, List.filterMap_append, List.length_append, ih]
    by_cases hin : InRange sch d.index
    · simp [deletionIteration, hin, Entry.created]; omega
    · simp [deletionIteration, hin, Entry.created]; omega

/-- The identifiers deleted and the engine state after the loop depend on the indices only,
not on the criterion values. -/
theorem deletionIterations_indices (E : Engine σ) (sch : Schema) (eng : σ)
    (ds ds2 : List Criterion)
    (hsame : ds.map Criterion.index = ds2.map Criterion.index) :
    (deletionIterations E sch eng ds).1.filterMap Entry.deleted
        = (deletionIterations E sch eng ds2).1.filterMap Entry.deleted ∧
      (deletionIterations E sch eng ds).2 = (deletionIterations E sch eng ds2).2 := by
  induction ds generalizing eng ds2 with
  | nil =>
    cases ds2 with
    | nil => exact ⟨rfl, rfl⟩
    | cons d2 ds2 => simp at hsame
  | cons d ds ih =>
    cases ds2 with
    | nil => simp at hsame
    | cons d2 ds2 =>
      simp only [List.map_cons, List.cons.injEq] at hsame
      obtain ⟨hidx, htail⟩ := hsame
      have hstate : (deletionIteration E sch eng d).2 = (deletionIteration E sch eng d2).2 := by
        unfold deletionIteration
        rw [hidx]
        split_ifs <;> rfl
      have hdel : (deletionIteration E sch eng d).1.filterMap Entry.deleted
          = (deletionIteration E sch eng d2).1.filterMap Entry.deleted := by
        unfold deletionIteration
        rw [hidx]
        split_ifs <;> rfl
      simp only [deletionIterations, List.filterMap_append, hdel, hstate]
      exact ⟨by rw [(ih _ ds2 htail).1], (ih _ ds2 htail).2⟩

/-- C7: in `handleRecordDeletion`, every iteration whose index is in range calls
`deleteRecord` exactly once, after `setAttr` has bound the captured value and before
`freeVal` releases it; the identifiers passed to `deleteRecord` are, in order, the
identifiers of the records `createRecord` built in those same iterations; and two requests
with the same indices get the same identifiers deleted and leave the same engine state,
whatever criterion values are typed. -/
theorem deletion_identifier (E : Engine σ) (eng : σ) (name : List Char) (sch : Schema)
    (cnt : List Char) (n : Int) (ds ds2 : List Criterion) (rest rest2 : List Char)
    (hname : TableName name) (hopen : (E.openTable eng name).1 = some sch)
    (hwf : sch.WellFormed)
    (hcnt : scanf_d cnt = some (n, [])) (hn : n.toNat = ds.length)
    (hds : ∀ d ∈ ds, d.WellFormed sch) (hds2 : ∀ d ∈ ds2, d.WellFormed sch)
    (hsame : ds.map Criterion.index = ds2.map Criterion.index) :
    ∃ st st2,
      handleRecordDeletion E (deletionInput sch name cnt ds rest) eng = some st ∧
      handleRecordDeletion E (deletionInput sch name cnt ds2 rest2) eng = some st2 ∧
      kinds st.log = .openTable :: (ds.flatMap (fun d =>
          if InRange sch d.index then
            [.createRecord, .capture, .setAttr, .deleteRecord, .freeVal, .freeRecord]
          else [.createRecord, .freeRecord])
        ++ [.closeTable, .freeTable, .freeContext]) ∧
      (st.log.filterMap Entry.created).length = ds.length ∧
      st.log.filterMap Entry.deleted
        = inRangeIds sch (st.log.filterMap Entry.created) ds ∧
      st.log.filterMap Entry.deleted = st2.log.filterMap Entry.deleted ∧
      st.engine = st2.engine := by
  have hlen : ds2.length = ds.length := by
    have := congrArg List.length hsame
    simpa using this.symm
  have hn2 : n.toNat = ds2.length := by rw [hlen]; exact hn
  have hk : kinds ({ call := .openTable name, r := none, v := none } ::
      ((deletionIterations E sch (E.openTable eng name).2 ds).1 ++ epilogue))
      = .openTable :: (ds.flatMap (deletionKinds sch)
        ++ [.closeTable, .freeTable, .freeContext]) := by
    rw [kinds_cons, kinds_append, kinds_deletionIterations, kinds_epilogue]
    rfl
  have hpair := deletionIterations_indices E sch (E.openTable eng name).2 ds ds2 hsame
  refine ⟨_, _, handleRecordDeletion_lines E eng hname hopen hwf ds hcnt hn hds rest,
    handleRecordDeletion_lines E eng hname hopen hwf ds2 hcnt hn2 hds2 rest2, hk,
    ?_, ?_, ?_, ?_⟩
  · simpa [Entry.created, epilogue] using
      created_deletionIterations E sch (E.openTable eng name).2 ds
  · simpa [Entry.created, Entry.deleted, epilogue] using
      deleted_deletionIterations E sch (E.openTable eng name).2 ds
  · simpa [Entry.deleted, epilogue] using hpair.1
  · simp only [hpair.2]

/-- C7 on the table `people` of the counting engine: the indices 1, 2, -1 with the value
`alice`, and the same indices with the value `bob`. -/
theorem deletion_identifier_witness :
    ∃ st st2,
      handleRecordDeletion countingEngine
        (deletionInput peopleSchema ['p'] ['3'] sampleDeletions ['x']) 0 = some st ∧
      handleRecordDeletion countingEngine
        (deletionInput peopleSchema ['p'] ['3'] sampleDeletionsBob ['y']) 0 = some st2 ∧
      st.log.filterMap Entry.deleted = st2.log.filterMap Entry.deleted := by
  obtain ⟨st, st2, hrun, hrun2, _, _, _, hsame, _⟩ :=
    deletion_identifier countingEngine 0 ['p'] peopleSchema ['3'] 3 sampleDeletions
      sampleDeletionsBob ['x'] ['y'] (by decide) rfl (by decide) (by decide) (by decide)
      (by decide) (by decide) (by decide)
  exact ⟨st, st2, hrun, hrun2, hsame⟩

/-! ## handleRecordModification with an index in range -/

theorem kinds_modificationIterations (E : Engine σ) (sch : Schema) (targetAttr : Nat)
    (eng : σ) (cells : List Cell) :
    kinds (modificationIterations E sch targetAttr eng cells).1 = cells.flatMap fun _ =>
      [.createRecord, .capture, .setAttr, .updateRecord, .freeVal, .freeRecord] := by
  induction cells generalizing eng with
  | nil => rfl
  | cons c cs ih =>
    simp only [modificationIterations, kinds_append, ih, List.flatMap_cons]
    rfl

theorem captured_modificationIterations (E : Engine σ) (sch : Schema) (targetAttr : Nat)
    (eng : σ) (cells : List Cell) :
    (modificationIterations E sch targetAttr eng cells).1.filterMap Entry.captured
        = cells.map (fun c => (c.dtype, c.sz, some c.value)) ∧
    (modificationIterations E sch targetAttr eng cells).1.filterMap Entry.bound
        = cells.map (fun c => (targetAttr, some c.value)) ∧
    ((modificationIterations E sch targetAttr eng cells).1.filterMap Entry.created).map
        Prod.fst = List.replicate cells.length sch ∧
    (modificationIterations E sch targetAttr eng cells).1.filterMap Entry.updated
        = List.zipWith (fun cr c => setAttr cr.2 targetAttr (some c.value))
            ((modificationIterations E sch targetAttr eng cells).1.filterMap Entry.created)
            cells := by
  induction cells generalizing eng with
  | nil => exact ⟨rfl, rfl, rfl, rfl⟩
  | cons c cs ih =>
    obtain ⟨h1, h2, h3, h4⟩ := ih (modificationIteration E sch targetAttr eng c).2
    simp only [modificationIterations, List.filterMap_append, List.map_append, h1, h2, h3, h4]
    simp [modificationIteration, Entry.captured, Entry.bound, Entry.created, Entry.updated,
      List.replicate_succ]

/-- C8: in `handleRecordModification`, on a request with one index line, an index in range
and `N` well-formed value lines, the function returns after exactly `N` iterations, each
issuing in this order `createRecord`, one value capture, `setAttr`, `updateRecord`,
`freeVal`, `freeRecord`; every `createRecord` is given the schema of the table, every capture
the type and length `dataTypes[idx]`, `typeLength[idx]`, every `setAttr` the index `idx` and
the value captured, and every `updateRecord` the record built in that iteration with that
value bound; so there are exactly `N` captures and `N` `updateRecord` calls, and the one
index line is all that is read for the index. -/
theorem modification_in_range (E : Engine σ) (eng : σ) (name : List Char) (sch : Schema)
    (cnt indexText : List Char) (n index : Int) (cells : List Cell) (rest : List Char)
    (hname : TableName name) (hopen : (E.openTable eng name).1 = some sch)
    (hwf : sch.WellFormed)
    (hcnt : scanf_d cnt = some (n, [])) (hn : n.toNat = cells.length)
    (hidx : scanf_d indexText = some (index, [])) (hin : InRange sch index)
    (hcells : CellsFor sch index cells) :
    ∃ st, handleRecordModification E
        (modificationInput sch name cnt indexText index cells rest) eng = some st ∧
      kinds st.log = .openTable :: (cells.flatMap (fun _ =>
          [.createRecord, .capture, .setAttr, .updateRecord, .freeVal, .freeRecord])
        ++ [.closeTable, .freeTable, .freeContext]) ∧
      st.log.filterMap Entry.captured = cells.map (fun c => (c.dtype, c.sz, some c.value)) ∧
      (∀ x ∈ st.log.filterMap Entry.captured,
        sch.dataTypes[index.toNat]? = some x.1 ∧ sch.typeLength[index.toNat]? = some x.2.1) ∧
      st.log.filterMap Entry.bound = cells.map (fun c => (index.toNat, some c.value)) ∧
      (st.log.filterMap Entry.created).map Prod.fst = List.replicate cells.length sch ∧
      st.log.filterMap Entry.updated
        = List.zipWith (fun cr c => setAttr cr.2 index.toNat (some c.value))
            (st.log.filterMap Entry.created) cells ∧
      (st.log.filterMap Entry.captured).length = cells.length ∧
      (st.log.filterMap Entry.updated).length = cells.length ∧
      st.stdin = '\n' :: rest ∧
      modificationInput sch name cnt indexText index cells rest
        = name ++ '\n' :: (cnt ++ '\n' :: (indexText ++ '\n' :: (cellLines cells ++ rest))) := by
  obtain ⟨h1, h2, h3, h4⟩ :=
    captured_modificationIterations E sch index.toNat (E.openTable eng name).2 cells
  have hcap : ({ call := .openTable name, r := none, v := none } ::
      ((modificationIterations E sch index.toNat (E.openTable eng name).2 cells).1
        ++ epilogue)).filterMap Entry.captured
      = cells.map (fun c => (c.dtype, c.sz, some c.value)) := by
    simpa [Entry.captured, epilogue] using h1
  have hcr : ({ call := .openTable name, r := none, v := none } ::
      ((modificationIterations E sch index.toNat (E.openTable eng name).2 cells).1
        ++ epilogue)).filterMap Entry.created
      = (modificationIterations E sch index.toNat (E.openTable eng name).2 cells).1.filterMap
          Entry.created := by
    simp [Entry.created, epilogue]
  have hup : ({ call := .openTable name, r := none, v := none } ::
      ((modificationIterations E sch index.toNat (E.openTable eng name).2 cells).1
        ++ epilogue)).filterMap Entry.updated
      = (modificationIterations E sch index.toNat (E.openTable eng name).2 cells).1.filterMap
          Entry.updated := by
    simp [Entry.updated, epilogue]
  have hlenc : ((modificationIterations E sch index.toNat (E.openTable eng name).2
      cells).1.filterMap Entry.created).length = cells.length := by
    have := congrArg List.length h3
    simpa using this
  refine ⟨_, handleRecordModification_lines E eng hname hopen hwf cells hcnt hn hidx hin
      hcells rest,
    ?_, hcap, ?_, ?_, ?_, ?_, ?_, ?_, rfl, ?_⟩
  · rw [kinds_cons, kinds_append, kinds_modificationIterations, kinds_epilogue]
    rfl
  · intro x hx
    simp only [hcap, List.mem_map] at hx
    obtain ⟨c, hc, rfl⟩ := hx
    exact ⟨(hcells c hc).1, (hcells c hc).2.1⟩
  · simpa [Entry.bound, epilogue] using h2
  · simp only [hcr]
    exact h3
  · simp only [hcr, hup]
    exact h4
  · simp only [hcap, List.length_map]
  · simp only [hup, h4, List.length_zipWith, hlenc, Nat.min_self]
  · simp [modificationInput, hin]

/-- C8 on the table `people` of the counting engine: two modifications of attribute 0 with
the values 5 and 6. -/
theorem modification_in_range_witness :
    ∃ st, handleRecordModification countingEngine
        (modificationInput peopleSchema ['p'] ['2'] ['0'] 0 sampleIds ['x']) 0 = some st ∧
      kinds st.log = [.openTable,
        .createRecord, .capture, .setAttr, .updateRecord, .freeVal, .freeRecord,
        .createRecord, .capture, .setAttr, .updateRecord, .freeVal, .freeRecord,
        .closeTable, .freeTable, .freeContext] ∧
      st.log.filterMap Entry.bound = [(0, some (.intV 5)), (0, some (.intV 6))] := by
  obtain ⟨st, hrun, hk, _, _, hb, _⟩ :=
    modification_in_range countingEngine 0 ['p'] peopleSchema ['2'] ['0'] 2 0 sampleIds ['x']
      (by decide) rfl (by decide) (by decide) (by decide) (by decide) (by decide) (by decide)
  exact ⟨st, hrun, hk, hb⟩

/-! ## handleRecordInsertion -/

/-- The element `k` of a concatenation of lists of the same length `A`. -/
theorem getElem?_flatMap_uniform {α β : Type} (f : α → List β) {A : Nat} (hA : 0 < A)
    (l : List α) (hl : ∀ x ∈ l, (f x).length = A) (k : Nat) :
    (l.flatMap f)[k]? = (l[k / A]?).bind fun x => (f x)[k % A]? := by
  induction l generalizing k with
  | nil => simp
  | cons x xs ih =>
    have hx : (f x).length = A := hl x (List.mem_cons_self _ _)
    have hxs : ∀ y ∈ xs, (f y).length = A := fun y hy => hl y (List.mem_cons_of_mem _ hy)
    rw [List.flatMap_cons]
    by_cases hk : k < A
    · rw [List.getElem?_append_left (by omega), Nat.div_eq_of_lt hk, Nat.mod_eq_of_lt hk]
      simp
    · obtain ⟨m, rfl⟩ : ∃ m, k = m + A := ⟨k - A, by omega⟩
      rw [List.getElem?_append_right (by omega), hx, Nat.add_sub_cancel, ih hxs,
        Nat.add_div_right _ hA, Nat.add_mod_right]
      simp

theorem length_flatMap_uniform {α β : Type} (f : α → List β) {A : Nat} (l : List α)
    (hl : ∀ x ∈ l, (f x).length = A) : (l.flatMap f).length = l.length * A := by
  induction l with
  | nil => simp
  | cons x xs ih =>
    rw [List.flatMap_cons, List.length_append, hl x (List.mem_cons_self _ _),
      ih fun y hy => hl y (List.mem_cons_of_mem _ hy), List.length_cons]
    ring

theorem bindCells_eq (r : Record) (i : Nat) (cells : List Cell) :
    bindCells r i cells
      = { id := r.id, data := storeFrom r.data i (cells.map Cell.value) } := by
  induction cells generalizing r i with
  | nil => rfl
  | cons c cs ih => simp [bindCells, ih, setAttr, storeFrom]

theorem kinds_attrEntries (r : Record) (i : Nat) (cells : List Cell) :
    kinds (attrEntries r i cells) = cells.flatMap fun _ => [.capture, .setAttr, .freeVal] := by
  induction cells generalizing r i with
  | nil => rfl
  | cons c cs ih =>
    simp only [attrEntries, kinds_append, ih, List.flatMap_cons]
    rfl

theorem project_attrEntries (r : Record) (i : Nat) (cells : List Cell) :
    (attrEntries r i cells).filterMap Entry.captured
        = cells.map (fun c => (c.dtype, c.sz, some c.value)) ∧
    (attrEntries r i cells).filterMap Entry.bound = boundFrom i cells ∧
    (attrEntries r i cells).filterMap Entry.boundInto = List.replicate cells.length r.id ∧
    (attrEntries r i cells).filterMap Entry.created = [] ∧
    (attrEntries r i cells).filterMap Entry.inserted = [] := by
  induction cells generalizing r i with
  | nil => exact ⟨rfl, rfl, rfl, rfl, rfl⟩
  | cons c cs ih =>
    obtain ⟨h1, h2, h3, h4, h5⟩ := ih (setAttr r i (some c.value)) (i + 1)
    simp only [attrEntries, List.filterMap_append, h1, h2, h3, h4, h5]
    simp [Entry.captured, Entry.bound, Entry.boundInto, Entry.created, Entry.inserted,
      boundFrom, setAttr, List.replicate_succ]

theorem boundFrom_getElem? (i : Nat) (cells : List Cell) (a : Nat) :
    (boundFrom i cells)[a]? = cells[a]?.map fun c => (i + a, some c.value) := by
  induction cells generalizing i a with
  | nil => simp [boundFrom]
  | cons c cs ih =>
    cases a with
    | zero => simp [boundFrom]
    | succ a =>
      simp only [boundFrom, List.getElem?_cons_succ, ih]
      congr 1
      funext c
      congr 1
      omega

theorem length_boundFrom (i : Nat) (cells : List Cell) :
    (boundFrom i cells).length = cells.length := by
  induction cells generalizing i with
  | nil => rfl
  | cons c cs ih => simp [boundFrom, ih]

theorem kinds_insertionRows (E : Engine σ) (sch : Schema) (eng : σ)
    (rows : List (List Cell)) :
    kinds (insertionRows E sch eng rows).1 = rows.flatMap fun row =>
      .createRecord :: (row.flatMap (fun _ => [.capture, .setAttr, .freeVal])
        ++ [.insertRecord, .freeRecord]) := by
  induction rows generalizing eng with
  | nil => rfl
  | cons row rows ih =>
    simp only [insertionRows, kinds_append, ih, List.flatMap_cons]
    congr 1
    simp only [insertionRow, kinds_append, kinds_attrEntries]
    rfl

theorem project_insertionRows (E : Engine σ) {sch : Schema} (hwf : sch.WellFormed) (eng : σ)
    (rows : List (List Cell)) (hrows : ∀ row ∈ rows, RowFor sch row) :
    (insertionRows E sch eng rows).1.filterMap Entry.captured
        = rows.flatMap (fun row => row.map fun c => (c.dtype, c.sz, some c.value)) ∧
    (insertionRows E sch eng rows).1.filterMap Entry.bound
        = rows.flatMap (boundFrom 0) ∧
    (insertionRows E sch eng rows).1.filterMap Entry.boundInto
        = ((insertionRows E sch eng rows).1.filterMap Entry.created).flatMap
            (fun cr => List.replicate sch.dataTypes.length cr.2.id) ∧
    ((insertionRows E sch eng rows).1.filterMap Entry.created).length = rows.length ∧
    ((insertionRows E sch eng rows).1.filterMap Entry.inserted).map Record.data
        = rows.map (fun row => row.map fun c => some c.value) := by
  induction rows generalizing eng with
  | nil => exact ⟨rfl, rfl, rfl, rfl, rfl⟩
  | cons row rows ih =>
    have hrow : RowFor sch row := hrows row (List.mem_cons_self _ _)
    obtain ⟨h1, h2, h3, h4, h5⟩ := ih (insertionRow E sch eng row).2
      fun r hr => hrows r (List.mem_cons_of_mem _ hr)
    obtain ⟨a1, a2, a3, a4, a5⟩ := project_attrEntries (newRecord E sch eng) 0 row
    have hlen : row.length = sch.dataTypes.length := by
      rw [← hrow.1, List.length_map]
    have hdata : storeFrom (List.replicate sch.numAttr.toNat (none : Option Value)) 0
        (row.map Cell.value) = row.map fun c => some c.value := by
      have := storeFrom_all (row.map Cell.value)
      rw [List.length_map] at this
      rw [numAttr_toNat hwf hrow, this, List.map_map]
      rfl
    simp only [insertionRows, List.filterMap_append, List.map_append, List.length_append,
      List.flatMap_cons, List.map_cons, List.flatMap_append, h1, h2, h3, h4, h5]
    simp only [insertionRow, List.filterMap_append, a1, a2, a3, a4, a5, bindCells_eq]
    simp [Entry.captured, Entry.bound, Entry.boundInto, Entry.created, Entry.inserted,
      newRecord, hlen, hdata]
    omega

/-- C1: on a well-formed request of `N` rows against a schema of `A` attributes (a count
line denoting `N`, or a negative number when there is no row),
`handleRecordInsertion` returns after `N` iterations, each issuing `createRecord`, then for
every attribute in index order a value capture, `setAttr` and `freeVal`, then `insertRecord`
and `freeRecord`.  So there are exactly `N * A` value captures and `N` `insertRecord` calls,
in row-major order: the capture number `k` (from 0) is given the declared type and length of
attribute `k mod A` and returns the value of row `k div A`, column `k mod A`; the `setAttr`
number `k` binds that value at index `k mod A` into the record `createRecord` built for row
`k div A`; and the record the `insertRecord` number `j` carries holds the values of row `j`,
in order. -/
theorem insertion_row_major (E : Engine σ) (eng : σ) (name : List Char) (sch : Schema)
    (cnt : List Char) (n : Int) (rows : List (List Cell)) (rest : List Char)
    (hname : TableName name) (hopen : (E.openTable eng name).1 = some sch)
    (hwf : sch.WellFormed) (hcnt : scanf_d cnt = some (n, [])) (hn : n.toNat = rows.length)
    (hrows : ∀ row ∈ rows, RowFor sch row) :
    ∃ st, handleRecordInsertion E (insertionInput name cnt rows rest) eng = some st ∧
      kinds st.log = .openTable :: (rows.flatMap (fun row =>
          .createRecord :: (row.flatMap (fun _ => [.capture, .setAttr, .freeVal])
            ++ [.insertRecord, .freeRecord]))
        ++ [.closeTable, .freeTable, .freeContext]) ∧
      (st.log.filterMap Entry.captured).length = rows.length * sch.dataTypes.length ∧
      (st.log.filterMap Entry.bound).length = rows.length * sch.dataTypes.length ∧
      (st.log.filterMap Entry.inserted).length = rows.length ∧
      (st.log.filterMap Entry.created).length = rows.length ∧
      (∀ k, k < rows.length * sch.dataTypes.length →
        ∃ c, ((rows[k / sch.dataTypes.length]?).bind
            fun row => row[k % sch.dataTypes.length]?) = some c ∧
          sch.dataTypes[k % sch.dataTypes.length]? = some c.dtype ∧
          sch.typeLength[k % sch.dataTypes.length]? = some c.sz ∧
          (st.log.filterMap Entry.captured)[k]? = some (c.dtype, c.sz, some c.value) ∧
          (st.log.filterMap Entry.bound)[k]?
            = some (k % sch.dataTypes.length, some c.value) ∧
          (st.log.filterMap Entry.boundInto)[k]?
            = ((st.log.filterMap Entry.created)[k / sch.dataTypes.length]?).map
                fun cr => cr.2.id) ∧
      (st.log.filterMap Entry.inserted).map Record.data
        = rows.map (fun row => row.map fun c => some c.value) ∧
      st.stdin = '\n' :: rest := by
  obtain ⟨p1, p2, p3, p4, p5⟩ :=
    project_insertionRows E hwf (E.openTable eng name).2 rows hrows
  have hA : ∀ row ∈ rows, row.length = sch.dataTypes.length := fun row hrow => by
    rw [← (hrows row hrow).1, List.length_map]
  have hcap : ({ call := .openTable name, r := none, v := none } ::
      ((insertionRows E sch (E.openTable eng name).2 rows).1 ++ epilogue)).filterMap
        Entry.captured
      = rows.flatMap (fun row => row.map fun c => (c.dtype, c.sz, some c.value)) := by
    simpa [Entry.captured, epilogue] using p1
  have hbound : ({ call := .openTable name, r := none, v := none } ::
      ((insertionRows E sch (E.openTable eng name).2 rows).1 ++ epilogue)).filterMap
        Entry.bound = rows.flatMap (boundFrom 0) := by
    simpa [Entry.bound, epilogue] using p2
  have hcr : ({ call := .openTable name, r := none, v := none } ::
      ((insertionRows E sch (E.openTable eng name).2 rows).1 ++ epilogue)).filterMap
        Entry.created
      = (insertionRows E sch (E.openTable eng name).2 rows).1.filterMap Entry.created := by
    simp [Entry.created, epilogue]
  have hinto : ({ call := .openTable name, r := none, v := none } ::
      ((insertionRows E sch (E.openTable eng name).2 rows).1 ++ epilogue)).filterMap
        Entry.boundInto
      = ((insertionRows E sch (E.openTable eng name).2 rows).1.filterMap
          Entry.created).flatMap (fun cr => List.replicate sch.dataTypes.length cr.2.id) := by
    simpa [Entry.boundInto, epilogue] using p3
  have hins : ({ call := .openTable name, r := none, v := none } ::
      ((insertionRows E sch (E.openTable eng name).2 rows).1 ++ epilogue)).filterMap
        Entry.inserted
      = (insertionRows E sch (E.openTable eng name).2 rows).1.filterMap Entry.inserted := by
    simp [Entry.inserted, epilogue]
  refine ⟨_, handleRecordInsertion_lines E eng hname hopen hwf rows hcnt hn hrows rest,
    ?_, ?_, ?_, ?_, ?_, ?_, ?_, rfl⟩
  · rw [kinds_cons, kinds_append, kinds_insertionRows, kinds_epilogue]
    rfl
  · simp only [hcap]
    exact length_flatMap_uniform _ rows fun row hrow => by rw [List.length_map, hA row hrow]
  · simp only [hbound]
    exact length_flatMap_uniform _ rows fun row hrow => by
      rw [length_boundFrom, hA row hrow]
  · simp only [hins]
    have := congrArg List.length p5
    simpa using this
  · simp only [hcr]
    exact p4
  · intro k hk
    have hApos : 0 < sch.dataTypes.length := by
      rcases Nat.eq_zero_or_pos sch.dataTypes.length with h0 | hpos
      · rw [h0] at hk; omega
      · exact hpos
    have hdiv : k / sch.dataTypes.length < rows.length := by
      rw [Nat.div_lt_iff_lt_mul hApos]; exact hk
    have hmod : k % sch.dataTypes.length < sch.dataTypes.length := Nat.mod_lt _ hApos
    obtain ⟨row, hrow⟩ : ∃ row, rows[k / sch.dataTypes.length]? = some row :=
      ⟨rows[k / sch.dataTypes.length], List.getElem?_eq_getElem hdiv⟩
    have hmem : row ∈ rows := List.getElem?_mem hrow
    have hlen : row.length = sch.dataTypes.length := hA row hmem
    have hmod2 : k % sch.dataTypes.length < row.length := by omega
    obtain ⟨c, hc⟩ : ∃ c, row[k % sch.dataTypes.length]? = some c :=
      ⟨row[k % sch.dataTypes.length], List.getElem?_eq_getElem hmod2⟩
    have hty : sch.dataTypes[k % sch.dataTypes.length]? = some c.dtype := by
      have := congrArg (fun l : List DataType => l[k % sch.dataTypes.length]?)
        (hrows row hmem).1
      simpa [List.getElem?_map, hc] using this.symm
    have hsz : sch.typeLength[k % sch.dataTypes.length]? = some c.sz := by
      have := congrArg (fun l : List Int => l[k % sch.dataTypes.length]?)
        (hrows row hmem).2.1
      simpa [List.getElem?_map, hc] using this.symm
    refine ⟨c, by simp [hrow, hc], hty, hsz, ?_, ?_, ?_⟩
    · rw [hcap, getElem?_flatMap_uniform _ hApos rows
        (fun r hr => by rw [List.length_map, hA r hr]), hrow]
      simp [hc]
    · rw [hbound, getElem?_flatMap_uniform _ hApos rows
        (fun r hr => by rw [length_boundFrom, hA r hr]), hrow]
      simp [boundFrom_getElem?, hc]
    · rw [hinto, hcr, getElem?_flatMap_uniform _ hApos _
        (fun cr _ => List.length_replicate _ _)]
      cases hcrk : ((insertionRows E sch (E.openTable eng name).2 rows).1.filterMap
          Entry.created)[k / sch.dataTypes.length]? with
      | none => simp
      | some cr => simp [List.getElem?_replicate, hmod]
  · simp only [hins]
    exact p5

/-- C1 on the example of the specification: the schema with the attributes `id` (integer) and
`name` (text of 50), two entries, the lines `1`, `alice`, `2`, `bob`.  The function issues
two `insertRecord` calls, carrying records bound to `(1, alice)` and to `(2, bob)`, in that
order. -/
theorem insertion_row_major_witness :
    ∃ st, handleRecordInsertion countingEngine
        (insertionInput ['p', 'e', 'o', 'p', 'l', 'e'] ['2'] sampleRows []) 0 = some st ∧
      (st.log.filterMap Entry.captured).length = 2 * 2 ∧
      (st.log.filterMap Entry.inserted).length = 2 ∧
      (st.log.filterMap Entry.inserted).map Record.data
        = [ [some (.intV 1), some (.stringV ['a', 'l', 'i', 'c', 'e'])],
            [some (.intV 2), some (.stringV ['b', 'o', 'b'])] ] ∧
      insertionInput ['p', 'e', 'o', 'p', 'l', 'e'] ['2'] sampleRows []
        = "people\n2\n1\nalice\n2\nbob\n".toList := by
  obtain ⟨st, hrun, _, hcap, _, hins, _, _, hdata, _⟩ :=
    insertion_row_major countingEngine 0 ['p', 'e', 'o', 'p', 'l', 'e'] peopleSchema ['2'] 2
      sampleRows [] (by decide) rfl (by decide) (by decide) (by decide) (by decide)
  exact ⟨st, hrun, hcap, hins, hdata, by decide⟩

/-! ## The ownership discipline -/

theorem track_append (s : Slots) (l1 l2 : List Entry) :
    track s (l1 ++ l2) = (track s l1).bind fun s1 => track s1 l2 := by
  induction l1 generalizing s with
  | nil => rfl
  | cons e es ih =>
    simp only [List.cons_append, track]
    cases s.step e with
    | none => rfl
    | some s1 => simp [ih]

theorem step_some {s s1 : Slots} {e : Entry} (h : s.step e = some s1) :
    e.r.isSome = s.record ∧ e.v.isSome = s.value ∧ s.allows e.call = true ∧
      s1 = s.after e.call.kind := by
  unfold Slots.step at h
  split_ifs at h with hc
  simp only [Option.some.injEq] at h
  exact ⟨hc.1, hc.2.1, hc.2.2, h.symm⟩

/-- The number of calls of a kind, one line at a time. -/
theorem calls_cons (k : CallKind) (e : Entry) (l : List Entry) :
    calls k (e :: l) = (if e.call.kind = k then 1 else 0) + calls k l := by
  unfold calls
  rw [kinds_cons, List.count_cons]
  by_cases h : e.call.kind = k
  · simp [h]; omega
  · have h2 : ¬ (e.call.kind == k) = true := by simpa using h
    simp [h, h2]

theorem calls_nil (k : CallKind) : calls k [] = 0 := rfl

/-- The balance of creations and releases along a checked log. -/
theorem track_balance {s s1 : Slots} {l : List Entry} (h : track s l = some s1) :
    calls .createRecord l + (if s.record then 1 else 0)
        = calls .freeRecord l + (if s1.record then 1 else 0) ∧
    calls .capture l + (if s.value then 1 else 0)
        = calls .freeVal l + (if s1.value then 1 else 0) ∧
    (s.closed = true → s1.closed = true) := by
  induction l generalizing s with
  | nil =>
    simp only [track, Option.some.injEq] at h
    subst h
    simp [calls_nil]
  | cons e es ih =>
    simp only [track] at h
    cases hstep : s.step e with
    | none => rw [hstep] at h; simp at h
    | some s2 =>
      rw [hstep] at h
      simp only [Option.some_bind] at h
      obtain ⟨_, _, hallow, hs2⟩ := step_some hstep
      obtain ⟨b1, b2, b3⟩ := ih h
      subst hs2
      rw [calls_cons, calls_cons, calls_cons, calls_cons]
      cases hcall : e.call <;>
        simp only [hcall, Slots.allows, Slots.after, Call.kind, Bool.and_eq_true,
          Bool.not_eq_true', reduceCtorEq, if_false, if_true] at hallow b1 b2 b3 ⊢ <;>
        refine ⟨?_, ?_, ?_⟩ <;> simp_all <;> omega

theorem track_split {s s1 : Slots} {l : List Entry} (h : track s l = some s1) (k : Nat) :
    ∃ sk, track s (l.take k) = some sk ∧ track sk (l.drop k) = some s1 := by
  have h2 : track s (l.take k ++ l.drop k) = some s1 := by
    rw [List.take_append_drop]; exact h
  rw [track_append] at h2
  cases hk : track s (l.take k) with
  | none => rw [hk] at h2; simp at h2
  | some sk =>
    rw [hk] at h2
    exact ⟨sk, rfl, by simpa using h2⟩

theorem drop_of_getElem? {α : Type} {l : List α} {k : Nat} {e : α} (h : l[k]? = some e) :
    l.drop k = e :: l.drop (k + 1) := by
  induction l generalizing k with
  | nil => simp at h
  | cons a l ih =>
    cases k with
    | zero =>
      simp only [List.getElem?_cons_zero, Option.some.injEq] at h
      simp [h]
    | succ k =>
      simp only [List.getElem?_cons_succ] at h
      simpa using ih h

/-- The line `k` of a checked log passes the check against what is live before it. -/
theorem track_line {s s1 : Slots} {l : List Entry} (h : track s l = some s1) {k : Nat}
    {e : Entry} (he : l[k]? = some e) :
    ∃ sk, track s (l.take k) = some sk ∧ e.r.isSome = sk.record ∧ e.v.isSome = sk.value ∧
      sk.allows e.call = true := by
  obtain ⟨sk, h1, h2⟩ := track_split h k
  rw [drop_of_getElem? he] at h2
  simp only [track] at h2
  cases hstep : sk.step e with
  | none => rw [hstep] at h2; simp at h2
  | some s2 =>
    obtain ⟨a, b, c, _⟩ := step_some hstep
    exact ⟨sk, h1, a, b, c⟩

theorem after_closed (s : Slots) (k : CallKind) (h : s.closed = true) :
    (s.after k).closed = true := by
  cases k <;> simp [Slots.after, h]

/-- Once the table is closed, a checked log releases nothing. -/
theorem track_closed {s s1 : Slots} {l : List Entry} (h : track s l = some s1)
    (hc : s.closed = true) (j : Nat) :
    (kinds l)[j]? ≠ some CallKind.freeVal ∧ (kinds l)[j]? ≠ some CallKind.freeRecord := by
  induction l generalizing s j with
  | nil => simp [kinds]
  | cons e es ih =>
    simp only [track] at h
    cases hstep : s.step e with
    | none => rw [hstep] at h; simp at h
    | some s2 =>
      rw [hstep] at h
      simp only [Option.some_bind] at h
      obtain ⟨_, _, hallow, hs2⟩ := step_some hstep
      have hc2 : s2.closed = true := by rw [hs2]; exact after_closed _ _ hc
      cases j with
      | zero =>
        rw [kinds_cons]
        simp only [List.getElem?_cons_zero, ne_eq, Option.some.injEq]
        cases hcall : e.call <;> simp [hcall, Slots.allows, hc, Call.kind] at hallow ⊢
      | succ j =>
        rw [kinds_cons]
        simp only [List.getElem?_cons_succ]
        exact ih h hc2 j

/-- In a checked log nothing is released after `closeTable`. -/
theorem track_after_close {s s1 : Slots} {l : List Entry} (h : track s l = some s1)
    (i j : Nat) (hij : i < j) (hi : (kinds l)[i]? = some CallKind.closeTable) :
    (kinds l)[j]? ≠ some CallKind.freeVal ∧ (kinds l)[j]? ≠ some CallKind.freeRecord := by
  induction l generalizing s i j with
  | nil => simp [kinds] at hi
  | cons e es ih =>
    simp only [track] at h
    cases hstep : s.step e with
    | none => rw [hstep] at h; simp at h
    | some s2 =>
      rw [hstep] at h
      simp only [Option.some_bind] at h
      obtain ⟨_, _, _, hs2⟩ := step_some hstep
      obtain ⟨j, rfl⟩ : ∃ j2, j = j2 + 1 := ⟨j - 1, by omega⟩
      rw [kinds_cons] at hi ⊢
      simp only [List.getElem?_cons_succ]
      cases i with
      | zero =>
        simp only [List.getElem?_cons_zero, Option.some.injEq] at hi
        have hc2 : s2.closed = true := by rw [hs2, hi]; rfl
        exact track_closed h hc2 j
      | succ i =>
        simp only [List.getElem?_cons_succ] at hi
        exact ih h i j (by omega) hi

/-- In a checked log a value is released only after `setAttr` has bound it. -/
theorem track_consumed {s s1 : Slots} {l : List Entry} (h : track s l = some s1) (k : Nat)
    (hk : (kinds l)[k]? = some CallKind.freeVal) :
    (s.bound = true ∧ calls .capture (l.take k) = 0) ∨
      ∃ j, j < k ∧ (kinds l)[j]? = some CallKind.setAttr ∧
        calls .capture (l.take j) = calls .capture (l.take k) := by
  induction l generalizing s k with
  | nil => simp [kinds] at hk
  | cons e es ih =>
    simp only [track] at h
    cases hstep : s.step e with
    | none => rw [hstep] at h; simp at h
    | some s2 =>
      rw [hstep] at h
      simp only [Option.some_bind] at h
      obtain ⟨_, _, hallow, hs2⟩ := step_some hstep
      rw [kinds_cons] at hk
      cases k with
      | zero =>
        simp only [List.getElem?_cons_zero, Option.some.injEq] at hk
        left
        refine ⟨?_, rfl⟩
        cases hcall : e.call <;> simp [hcall, Call.kind] at hk
        simp only [hcall, Slots.allows, Bool.and_eq_true] at hallow
        exact hallow.2
      | succ k =>
        simp only [List.getElem?_cons_succ] at hk
        rcases ih h k hk with ⟨hb, hc⟩ | ⟨j, hj, hset, hcount⟩
        · by_cases hkind : e.call.kind = CallKind.setAttr
          · right
            refine ⟨0, by omega, by rw [kinds_cons]; simp [hkind], ?_⟩
            simp only [List.take_zero, List.take_succ_cons, calls_nil, calls_cons, hkind, hc]
            simp
          · left
            have hcap : e.call.kind ≠ CallKind.capture := by
              intro hcap
              rw [hs2, hcap] at hb
              simp [Slots.after] at hb
            refine ⟨?_, ?_⟩
            · rw [hs2] at hb
              cases hcall : e.call <;> simp_all [Call.kind, Slots.after]
            · simp only [List.take_succ_cons, calls_cons, hcap, if_false, hc]
        · right
          refine ⟨j + 1, by omega, by rw [kinds_cons]; simpa using hset, ?_⟩
          simp only [List.take_succ_cons, calls_cons, hcount]

/-- A log that passes the check from the idle state and ends with nothing live is
disciplined. -/
theorem disciplined_of_track {l : List Entry} {s1 : Slots}
    (h : track Slots.idle l = some s1) (hr : s1.record = false) (hv : s1.value = false) :
    Disciplined l := by
  refine ⟨?_, ?_, ?_, ?_, ?_, ?_⟩
  · intro k
    obtain ⟨sk, h1, _⟩ := track_split h k
    obtain ⟨b1, b2, _⟩ := track_balance h1
    simp only [Slots.idle, Bool.false_eq_true, if_false, Nat.add_zero] at b1 b2
    refine ⟨?_, ?_, ?_, ?_⟩
    · rw [b1]; omega
    · rw [b1]; split_ifs <;> omega
    · rw [b2]; omega
    · rw [b2]; split_ifs <;> omega
  · intro k e he
    obtain ⟨sk, h1, a, b, _⟩ := track_line h he
    obtain ⟨b1, b2, _⟩ := track_balance h1
    simp only [Slots.idle, Bool.false_eq_true, if_false, Nat.add_zero] at b1 b2
    rw [a, b, b1, b2]
    constructor
    · cases sk.record <;> simp
    · cases sk.value <;> simp
  · intro e he
    obtain ⟨k, hk⟩ := List.mem_iff_getElem?.1 he
    obtain ⟨sk, _, a, b, c⟩ := track_line h hk
    have hnone : ∀ {α : Type} (o : Option α), o.isSome = false → o = none := by
      intro α o ho
      cases o with
      | none => rfl
      | some x => simp at ho
    cases hcall : e.call <;>
      simp only [hcall, Slots.allows, Bool.and_eq_true, Bool.not_eq_true'] at c <;>
      simp only [Call.kind, reduceCtorEq, false_implies, true_implies, true_and, and_true,
        Entry.captured, hcall, Option.some_bind] <;>
      simp_all
  · obtain ⟨b1, b2, _⟩ := track_balance h
    simp only [Slots.idle, Bool.false_eq_true, if_false, Nat.add_zero, hr, hv] at b1 b2
    exact ⟨b1, b2⟩
  · exact fun i j hij hi => track_after_close h i j hij hi
  · intro k hk
    rcases track_consumed h k hk with ⟨hb, _⟩ | hj
    · simp [Slots.idle] at hb
    · exact hj

/-! ## The unchecked handlers extend the handlers above -/

theorem unchecked_scanSigned (junk : Junk) {lo hi : Int} {s : List Char}
    {p : Int × List Char} (h : scanSigned lo hi s = some p) :
    Unchecked.scanSigned junk lo hi s = (some p.1, p.2) := by
  unfold scanSigned at h
  unfold Unchecked.scanSigned
  simp only at h ⊢
  by_cases h1 : (takeSign (skipSpace s)).2.takeWhile isdigit = []
  · rw [if_pos h1] at h
    exact absurd h (by simp)
  · rw [if_neg h1] at h ⊢
    split_ifs at h ⊢ <;> simp only [Option.some.injEq] at h <;> rw [← h]

theorem unchecked_scanf_s {cap : Nat} {s : List Char} {p : List Char × List Char}
    (h : scanf_s cap s = some p) : Unchecked.scanf_s cap s = some (some p.1, p.2) := by
  unfold scanf_s at h
  unfold Unchecked.scanf_s
  simp only at h ⊢
  split_ifs at h ⊢ with h1 h2
  simp only [Option.some.injEq] at h
  rw [← h]

theorem unchecked_scanf_f {s : List Char} {p : List Char × List Char}
    (h : scanf_f s = some p) : Unchecked.scanf_f s = some (some p.1, p.2) := by
  unfold Unchecked.scanf_f
  rw [h]

/-- Where `captureAttributeValue` is defined, the unchecked one gives the same, whatever the
locals hold. -/
theorem unchecked_captureAttributeValue (junk : Junk) (frame : Frame) {dtype : DataType}
    {sz : Int} {s : List Char} {p : Option Value × List Char}
    (h : captureAttributeValue dtype sz s = some p) :
    Unchecked.captureAttributeValue junk frame dtype sz s = some p := by
  cases dtype with
  | outOfRange raw => exact h
  | DT_INT =>
    simp only [captureAttributeValue, Option.map_eq_some'] at h
    obtain ⟨q, hq, rfl⟩ := h
    simp [Unchecked.captureAttributeValue, Unchecked.scanf_d,
      unchecked_scanSigned junk (show scanSigned _ _ s = some q from hq)]
  | DT_BOOL =>
    simp only [captureAttributeValue, Option.map_eq_some'] at h
    obtain ⟨q, hq, rfl⟩ := h
    simp [Unchecked.captureAttributeValue, Unchecked.scanf_hd,
      unchecked_scanSigned junk (show scanSigned _ _ s = some q from hq)]
  | DT_STRING =>
    simp only [captureAttributeValue, Option.map_eq_some'] at h
    obtain ⟨q, hq, rfl⟩ := h
    simp [Unchecked.captureAttributeValue, unchecked_scanf_s hq]
  | DT_FLOAT =>
    simp only [captureAttributeValue, Option.map_eq_some'] at h
    obtain ⟨q, hq, rfl⟩ := h
    simp [Unchecked.captureAttributeValue, unchecked_scanf_f hq]

theorem unchecked_capture (junk : Junk) {dtype : DataType} {sz : Int} {st st1 : State σ}
    (h : st.capture dtype sz = some st1) : Unchecked.capture junk dtype sz st = some st1 := by
  simp only [State.capture, Option.map_eq_some'] at h
  obtain ⟨p, hp, rfl⟩ := h
  simp [Unchecked.capture, unchecked_captureAttributeValue junk _ hp]

theorem unchecked_readInt (junk : Junk) (old : Int) {st : State σ} {p : Int × State σ}
    (h : st.readInt = some p) : Unchecked.readInt junk old st = p := by
  simp only [State.readInt, Option.map_eq_some'] at h
  obtain ⟨q, hq, rfl⟩ := h
  simp [Unchecked.readInt, Unchecked.scanf_d,
    unchecked_scanSigned junk (show scanSigned _ _ st.stdin = some q from hq)]

theorem unchecked_openRequest (E : Engine σ) (junk : Junk) {stdin : List Char} {eng : σ}
    {st : State σ} (h : openRequest E stdin eng = some st) :
    Unchecked.openRequest E junk stdin eng = some st := by
  simp only [openRequest, Option.map_eq_some'] at h
  obtain ⟨q, hq, rfl⟩ := h
  simp [Unchecked.openRequest, unchecked_scanf_s hq]

theorem forLoop_mono {α : Type} (f g : Nat → α → Option α)
    (hfg : ∀ i a b, f i a = some b → g i a = some b) (n i : Nat) (a b : α)
    (h : forLoop f n i a = some b) : forLoop g n i a = some b := by
  induction n generalizing i a with
  | zero => exact h
  | succ n ih =>
    simp only [forLoop, Option.bind_eq_some] at h ⊢
    obtain ⟨c, hc, hrest⟩ := h
    exact ⟨c, hfg i a c hc, ih (i + 1) c hrest⟩

theorem unchecked_insertionAttr (junk : Junk) (i : Nat) (st st1 : State σ)
    (h : insertionAttr i st = some st1) : Unchecked.insertionAttr junk i st = some st1 := by
  simp only [insertionAttr, Option.bind_eq_some, Option.map_eq_some'] at h
  obtain ⟨sch, hsch, nm, hnm, dt, hdt, sz, hsz, st2, hcap, st3, hset, rfl⟩ := h
  simp [Unchecked.insertionAttr, hsch, hnm, hdt, hsz, unchecked_capture junk hcap, hset]

theorem unchecked_insertionEntry (E : Engine σ) (junk : Junk) (i : Nat) (st st1 : State σ)
    (h : insertionEntry E i st = some st1) :
    Unchecked.insertionEntry E junk i st = some st1 := by
  simp only [insertionEntry, Option.bind_eq_some, Option.map_eq_some'] at h
  obtain ⟨sch, hsch, st2, hloop, st3, hins, rfl⟩ := h
  have := forLoop_mono _ _ (unchecked_insertionAttr junk) _ _ _ _ hloop
  simp [Unchecked.insertionEntry, hsch, this, hins]

/-- Where `handleRecordInsertion` is defined, the unchecked one gives the same state. -/
theorem unchecked_handleRecordInsertion (E : Engine σ) (junk : Junk) {stdin : List Char}
    {eng : σ} {st : State σ} (h : handleRecordInsertion E stdin eng = some st) :
    Unchecked.handleRecordInsertion E junk stdin eng = some st := by
  simp only [handleRecordInsertion, Option.bind_eq_some, Option.map_eq_some'] at h
  obtain ⟨st0, hopen, p, hread, st1, hloop, rfl⟩ := h
  have := forLoop_mono _ _ (unchecked_insertionEntry E junk) _ _ _ _ hloop
  simp [Unchecked.handleRecordInsertion, unchecked_openRequest E junk hopen,
    unchecked_readInt junk junk.count hread, this]

theorem unchecked_deletionEntry (E : Engine σ) (junk : Junk) (i : Nat) (t : Int)
    (st st1 : State σ) (h : deletionEntry E i st = some st1) :
    ∃ t1, Unchecked.deletionEntry E junk i (t, st) = some (t1, st1) := by
  simp only [deletionEntry, Option.bind_eq_some, Option.map_eq_some'] at h
  obtain ⟨sch, hsch, u, hu, p, hread, st2, hbranch, rfl⟩ := h
  refine ⟨p.1, ?_⟩
  have hread2 := unchecked_readInt junk t hread
  split_ifs at hbranch with hin
  · simp only [deletionCriterion, Option.bind_eq_some, Option.map_eq_some'] at hbranch
    obtain ⟨dt, hdt, sz, hsz, st4, hcap, st5, hset, st6, hdel, rfl⟩ := hbranch
    simp [Unchecked.deletionEntry, hsch, hu, hread2, hin, Unchecked.deletionCriterion, hdt,
      hsz, unchecked_capture junk hcap, hset, hdel]
  · simp only [Option.some.injEq] at hbranch
    subst hbranch
    simp [Unchecked.deletionEntry, hsch, hu, hread2, hin]

theorem unchecked_deletionLoop (E : Engine σ) (junk : Junk) (n i : Nat) (t : Int)
    (st st1 : State σ) (h : forLoop (deletionEntry E) n i st = some st1) :
    ∃ t1, forLoop (Unchecked.deletionEntry E junk) n i (t, st) = some (t1, st1) := by
  induction n generalizing i t st with
  | zero =>
    simp only [forLoop, Option.some.injEq] at h
    exact ⟨t, by simp [forLoop, h]⟩
  | succ n ih =>
    simp only [forLoop, Option.bind_eq_some] at h
    obtain ⟨st2, hstep, hrest⟩ := h
    obtain ⟨t2, ht2⟩ := unchecked_deletionEntry E junk i t st st2 hstep
    obtain ⟨t1, ht1⟩ := ih (i + 1) t2 st2 hrest
    exact ⟨t1, by simp [forLoop, ht2, ht1]⟩

/-- Where `handleRecordDeletion` is defined, the unchecked one gives the same state. -/
theorem unchecked_handleRecordDeletion (E : Engine σ) (junk : Junk) {stdin : List Char}
    {eng : σ} {st : State σ} (h : handleRecordDeletion E stdin eng = some st) :
    Unchecked.handleRecordDeletion E junk stdin eng = some st := by
  simp only [handleRecordDeletion, Option.bind_eq_some, Option.map_eq_some'] at h
  obtain ⟨st0, hopen, p, hread, st1, hloop, rfl⟩ := h
  obtain ⟨t1, ht1⟩ := unchecked_deletionLoop E junk _ _ junk.targetAttr _ _ hloop
  simp [Unchecked.handleRecordDeletion, unchecked_openRequest E junk hopen,
    unchecked_readInt junk junk.count hread, ht1]

theorem unchecked_modificationEntry (E : Engine σ) (junk : Junk) (targetAttr i : Nat)
    (st st1 : State σ) (h : modificationEntry E targetAttr i st = some st1) :
    Unchecked.modificationEntry E junk targetAttr i st = some st1 := by
  simp only [modificationEntry, Option.bind_eq_some, Option.map_eq_some'] at h
  obtain ⟨sch, hsch, dt, hdt, sz, hsz, st2, hcap, st3, hset, st4, hupd, rfl⟩ := h
  simp [Unchecked.modificationEntry, hsch, hdt, hsz, unchecked_capture junk hcap, hset, hupd]

/-- Where `handleRecordModification` is defined, the unchecked one gives the same state. -/
theorem unchecked_handleRecordModification (E : Engine σ) (junk : Junk) {stdin : List Char}
    {eng : σ} {st : State σ} (h : handleRecordModification E stdin eng = some st) :
    Unchecked.handleRecordModification E junk stdin eng = some st := by
  simp only [handleRecordModification, Option.bind_eq_some, Option.map_eq_some'] at h
  obtain ⟨st0, hopen, p, hread, sch, hsch, u, hu, q, hread2, st1, hbranch, rfl⟩ := h
  have hr1 := unchecked_readInt junk junk.count hread
  have hr2 := unchecked_readInt junk junk.targetAttr hread2
  split_ifs at hbranch with hin
  · have := forLoop_mono _ _ (unchecked_modificationEntry E junk q.1.toNat) _ _ _ _ hbranch
    simp [Unchecked.handleRecordModification, unchecked_openRequest E junk hopen, hr1, hsch,
      hu, hr2, hin, this]
  · simp only [Option.some.injEq] at hbranch
    subst hbranch
    simp [Unchecked.handleRecordModification, unchecked_openRequest E junk hopen, hr1, hsch,
      hu, hr2, hin]

/-! ## The ownership discipline of every run -/

theorem isSome_eq_false {α : Type} {o : Option α} (h : o.isSome = false) : o = none := by
  cases o with
  | none => rfl
  | some x => simp at h

theorem holds_createRecord (E : Engine σ) (sch : Schema) {tbl : Option RM_TableData}
    {st : State σ} (h : Holds tbl Slots.idle st) :
    Holds tbl Slots.busy (st.createRecord E sch) := by
  obtain ⟨ht, hl, hr, hv⟩ := h
  have hr2 := isSome_eq_false hr
  have hv2 := isSome_eq_false hv
  refine ⟨ht, ?_, rfl, ?_⟩
  · simp only [State.createRecord, State.emit, track_append, hl, Option.some_bind, hr2, hv2]
    rfl
  · simpa [State.createRecord, State.emit] using hv

theorem holds_capture {junk : Junk} {dtype : DataType} {sz : Int}
    {tbl : Option RM_TableData} {st st1 : State σ} (h : Holds tbl Slots.busy st)
    (hfour : dtype.isTag = true)
    (hrun : Unchecked.capture junk dtype sz st = some st1) :
    Holds tbl Slots.captured st1 := by
  obtain ⟨ht, hl, hr, hv⟩ := h
  have hv2 := isSome_eq_false hv
  simp only [Unchecked.capture, Option.map_eq_some'] at hrun
  obtain ⟨cap, hcap, rfl⟩ := hrun
  obtain ⟨v, hv3⟩ : ∃ v, cap.1 = some v := by
    cases dtype with
    | outOfRange raw => simp [DataType.isTag] at hfour
    | DT_INT =>
      simp only [Unchecked.captureAttributeValue, Option.some.injEq] at hcap
      exact ⟨_, by rw [← hcap]⟩
    | DT_STRING =>
      simp only [Unchecked.captureAttributeValue, Option.map_eq_some'] at hcap
      obtain ⟨p, _, rfl⟩ := hcap
      exact ⟨_, rfl⟩
    | DT_FLOAT =>
      simp only [Unchecked.captureAttributeValue, Option.map_eq_some'] at hcap
      obtain ⟨p, _, rfl⟩ := hcap
      exact ⟨_, rfl⟩
    | DT_BOOL =>
      simp only [Unchecked.captureAttributeValue, Option.some.injEq] at hcap
      exact ⟨_, by rw [← hcap]⟩
  cases hrr : st.ctx.r with
  | none => rw [hrr] at hr; simp [Slots.busy] at hr
  | some r =>
    refine ⟨ht, ?_, ?_, ?_⟩
    · simp only [State.emit, track_append, hl, Option.some_bind, hrr, hv2, hv3]
      rfl
    · simp [State.emit, hrr, Slots.captured]
    · simp [hv3, Slots.captured]

theorem holds_setAttr {attrNum : Nat} {tbl : Option RM_TableData} {st st1 : State σ}
    (h : Holds tbl Slots.captured st) (hrun : st.setAttr attrNum = some st1) :
    Holds tbl Slots.consumed st1 := by
  obtain ⟨ht, hl, hr, hv⟩ := h
  simp only [State.setAttr, Option.map_eq_some'] at hrun
  obtain ⟨r, hrr, rfl⟩ := hrun
  cases hvv : st.ctx.v with
  | none => rw [hvv] at hv; simp [Slots.captured] at hv
  | some v =>
    refine ⟨ht, ?_, rfl, ?_⟩
    · simp only [State.emit, track_append, hl, Option.some_bind, hrr, hvv]
      rfl
    · simp [State.emit, hvv, Slots.consumed]

theorem holds_freeVal {tbl : Option RM_TableData} {st : State σ}
    (h : Holds tbl Slots.consumed st) : Holds tbl Slots.busy st.freeVal := by
  obtain ⟨ht, hl, hr, hv⟩ := h
  cases hvv : st.ctx.v with
  | none => rw [hvv] at hv; simp [Slots.consumed] at hv
  | some v =>
    cases hrr : st.ctx.r with
    | none => rw [hrr] at hr; simp [Slots.consumed] at hr
    | some r =>
      refine ⟨ht, ?_, ?_, rfl⟩
      · simp only [State.freeVal, State.emit, track_append, hl, Option.some_bind, hrr, hvv]
        rfl
      · simp [State.freeVal, State.emit, hrr, Slots.busy]

theorem holds_freeRecord {tbl : Option RM_TableData} {st : State σ}
    (h : Holds tbl Slots.busy st) : Holds tbl Slots.idle st.freeRecord := by
  obtain ⟨ht, hl, hr, hv⟩ := h
  have hv2 := isSome_eq_false hv
  cases hrr : st.ctx.r with
  | none => rw [hrr] at hr; simp [Slots.busy] at hr
  | some r =>
    refine ⟨ht, ?_, rfl, ?_⟩
    · simp only [State.freeRecord, State.emit, track_append, hl, Option.some_bind, hrr, hv2]
      rfl
    · simp [State.freeRecord, State.emit, hv2, Slots.idle]

theorem holds_insertRecord (E : Engine σ) {tbl : Option RM_TableData} {st st1 : State σ}
    (h : Holds tbl Slots.busy st) (hrun : st.insertRecord E = some st1) :
    Holds tbl Slots.busy st1 := by
  obtain ⟨ht, hl, hr, hv⟩ := h
  have hv2 := isSome_eq_false hv
  simp only [State.insertRecord, Option.map_eq_some'] at hrun
  obtain ⟨r, hrr, rfl⟩ := hrun
  refine ⟨ht, ?_, rfl, ?_⟩
  · simp only [State.emit, track_append, hl, Option.some_bind, hrr, hv2]
    rfl
  · simp [State.emit, hv2, Slots.busy]

theorem holds_deleteRecord (E : Engine σ) {tbl : Option RM_TableData} {st st1 : State σ}
    (h : Holds tbl Slots.consumed st) (hrun : st.deleteRecord E = some st1) :
    Holds tbl Slots.consumed st1 := by
  obtain ⟨ht, hl, hr, hv⟩ := h
  simp only [State.deleteRecord, Option.map_eq_some'] at hrun
  obtain ⟨r, hrr, rfl⟩ := hrun
  cases hvv : st.ctx.v with
  | none => rw [hvv] at hv; simp [Slots.consumed] at hv
  | some v =>
    refine ⟨ht, ?_, ?_, ?_⟩
    · simp only [State.emit, track_append, hl, Option.some_bind, hrr, hvv]
      rfl
    · simp [State.emit, hrr, Slots.consumed]
    · simp [State.emit, hvv, Slots.consumed]

theorem holds_updateRecord (E : Engine σ) {tbl : Option RM_TableData} {st st1 : State σ}
    (h : Holds tbl Slots.consumed st) (hrun : st.updateRecord E = some st1) :
    Holds tbl Slots.consumed st1 := by
  obtain ⟨ht, hl, hr, hv⟩ := h
  simp only [State.updateRecord, Option.map_eq_some'] at hrun
  obtain ⟨r, hrr, rfl⟩ := hrun
  cases hvv : st.ctx.v with
  | none => rw [hvv] at hv; simp [Slots.consumed] at hv
  | some v =>
    refine ⟨ht, ?_, rfl, ?_⟩
    · simp only [State.emit, track_append, hl, Option.some_bind, hrr, hvv]
      rfl
    · simp [State.emit, hvv, Slots.consumed]

theorem holds_readInt (junk : Junk) (old : Int) {tbl : Option RM_TableData} {s : Slots}
    {st : State σ} (h : Holds tbl s st) : Holds tbl s (Unchecked.readInt junk old st).2 :=
  h

/-- The epilogue of a request with nothing live: the log is disciplined, the slots stay
empty. -/
theorem holds_closeRequest (E : Engine σ) {tbl : Option RM_TableData} {st : State σ}
    (h : Holds tbl Slots.idle st) :
    Disciplined (closeRequest E st).log ∧ (closeRequest E st).ctx.r = none ∧
      (closeRequest E st).ctx.v = none := by
  obtain ⟨_, hl, hr, hv⟩ := h
  have hr2 := isSome_eq_false hr
  have hv2 := isSome_eq_false hv
  have hlog : track Slots.idle (closeRequest E st).log
      = some { record := false, value := false, closed := true, bound := false } := by
    cases htb : st.ctx.tbl with
    | none =>
      simp only [closeRequest, cleanupContext, State.closeTable, State.emit, hr2, hv2, htb,
        Option.isSome_none, Bool.false_eq_true, if_false, track_append, hl, Option.some_bind]
      rfl
    | some t =>
      simp only [closeRequest, cleanupContext, State.closeTable, State.emit, hr2, hv2, htb,
        Option.isSome_none, Option.isSome_some, Bool.false_eq_true, if_false, if_true,
        track_append, hl, Option.some_bind]
      rfl
  refine ⟨disciplined_of_track hlog rfl rfl, ?_, ?_⟩
  · cases htb : st.ctx.tbl <;>
      simp [closeRequest, cleanupContext, State.closeTable, State.emit, hr2, hv2, htb]
  · cases htb : st.ctx.tbl <;>
      simp [closeRequest, cleanupContext, State.closeTable, State.emit, hr2, hv2, htb]

/-- A property every step of a loop keeps holds after the loop. -/
theorem forLoop_invariant {α : Type} (P : α → Prop) (body : Nat → α → Option α)
    (hbody : ∀ i a b, P a → body i a = some b → P b) (n i : Nat) (a b : α) (ha : P a)
    (hrun : forLoop body n i a = some b) : P b := by
  induction n generalizing i a with
  | zero =>
    simp only [forLoop, Option.some.injEq] at hrun
    exact hrun ▸ ha
  | succ n ih =>
    simp only [forLoop, Option.bind_eq_some] at hrun
    obtain ⟨c, hc, hrest⟩ := hrun
    exact ih (i + 1) c (hbody i a c ha hc) hrest

theorem schema_of_holds {tbl : Option RM_TableData} {s : Slots} {st : State σ}
    (h : Holds tbl s st) : st.schema = tbl.bind fun t => t.schema := by
  unfold State.schema
  rw [h.1]

theorem holds_insertionAttr {junk : Junk} {tbl : Option RM_TableData}
    (hfour : ∀ sch, (tbl.bind fun t => t.schema) = some sch → sch.FourTypes) (i : Nat)
    (st st1 : State σ) (h : Holds tbl Slots.busy st)
    (hrun : Unchecked.insertionAttr junk i st = some st1) : Holds tbl Slots.busy st1 := by
  simp only [Unchecked.insertionAttr, Option.bind_eq_some, Option.map_eq_some'] at hrun
  obtain ⟨sch, hsch, _, _, dt, hdt, sz, _, st2, hcap, st3, hset, rfl⟩ := hrun
  rw [schema_of_holds h] at hsch
  have hdt2 : dt.isTag = true := hfour sch hsch dt (List.getElem?_mem hdt)
  exact holds_freeVal (holds_setAttr (holds_capture h hdt2 hcap) hset)

theorem holds_insertionEntry (E : Engine σ) {junk : Junk} {tbl : Option RM_TableData}
    (hfour : ∀ sch, (tbl.bind fun t => t.schema) = some sch → sch.FourTypes) (i : Nat)
    (st st1 : State σ) (h : Holds tbl Slots.idle st)
    (hrun : Unchecked.insertionEntry E junk i st = some st1) : Holds tbl Slots.idle st1 := by
  simp only [Unchecked.insertionEntry, Option.bind_eq_some, Option.map_eq_some'] at hrun
  obtain ⟨sch, _, st2, hloop, st3, hins, rfl⟩ := hrun
  have h2 := forLoop_invariant (Holds tbl Slots.busy) (Unchecked.insertionAttr junk)
    (holds_insertionAttr hfour) _ _ _ _ (holds_createRecord E sch h) hloop
  exact holds_freeRecord (holds_insertRecord E h2 hins)

theorem holds_deletionEntry (E : Engine σ) {junk : Junk} {tbl : Option RM_TableData}
    (hfour : ∀ sch, (tbl.bind fun t => t.schema) = some sch → sch.FourTypes) (i : Nat)
    (p q : Int × State σ) (h : Holds tbl Slots.idle p.2)
    (hrun : Unchecked.deletionEntry E junk i p = some q) : Holds tbl Slots.idle q.2 := by
  simp only [Unchecked.deletionEntry, Option.bind_eq_some, Option.map_eq_some'] at hrun
  obtain ⟨sch, hsch, _, _, st3, hbranch, rfl⟩ := hrun
  rw [schema_of_holds h] at hsch
  have h2 := holds_readInt junk p.1 (holds_createRecord E sch h)
  split_ifs at hbranch with hin
  · simp only [Unchecked.deletionCriterion, Option.bind_eq_some, Option.map_eq_some']
      at hbranch
    obtain ⟨dt, hdt, sz, _, st4, hcap, st5, hset, st6, hdel, rfl⟩ := hbranch
    have hdt2 : dt.isTag = true := hfour sch hsch dt (List.getElem?_mem hdt)
    exact holds_freeRecord (holds_freeVal
      (holds_deleteRecord E (holds_setAttr (holds_capture h2 hdt2 hcap) hset) hdel))
  · simp only [Option.some.injEq] at hbranch
    subst hbranch
    exact holds_freeRecord h2

theorem holds_modificationEntry (E : Engine σ) {junk : Junk} {tbl : Option RM_TableData}
    (hfour : ∀ sch, (tbl.bind fun t => t.schema) = some sch → sch.FourTypes)
    (targetAttr i : Nat) (st st1 : State σ) (h : Holds tbl Slots.idle st)
    (hrun : Unchecked.modificationEntry E junk targetAttr i st = some st1) :
    Holds tbl Slots.idle st1 := by
  simp only [Unchecked.modificationEntry, Option.bind_eq_some, Option.map_eq_some'] at hrun
  obtain ⟨sch, hsch, dt, hdt, sz, _, st2, hcap, st3, hset, st4, hupd, rfl⟩ := hrun
  rw [schema_of_holds h] at hsch
  have hdt2 : dt.isTag = true := hfour sch hsch dt (List.getElem?_mem hdt)
  exact holds_freeRecord (holds_freeVal
    (holds_updateRecord E (holds_setAttr
      (holds_capture (holds_createRecord E sch h) hdt2 hcap) hset) hupd))

theorem holds_openRequest (E : Engine σ) {junk : Junk} {stdin : List Char} {eng : σ}
    {st : State σ} (hrun : Unchecked.openRequest E junk stdin eng = some st) :
    ∃ eng0 name, Holds (some { schema := (E.openTable eng0 name).1 }) Slots.idle st := by
  simp only [Unchecked.openRequest, Option.map_eq_some'] at hrun
  obtain ⟨p, _, rfl⟩ := hrun
  exact ⟨eng, p.1.getD junk.tblName, rfl, rfl, rfl, rfl⟩

end Interface1
